import Mathlib

/-!
Verification of the note-lifecycle scripts (finish_note.py, revert_note.py,
start_note.py) and their helpers (back_office/py/file_filters.py,
back_office/py/info_extraction.py).

Strings are modelled as lists of characters (Python str); file trees as
explicit lists.  Every Python function used by a claim is translated
definition-by-definition below, keeping the source's names.
-/

namespace Notes

/-- Python str, modelled as a list of characters. -/
abbrev Str := List Char

/-- Coerce a Lean string literal to the model type. -/
def strOf (s : String) : Str := s.data

/-- Whitespace characters recognised by Python's str.strip(). -/
def isWs (c : Char) : Bool :=
  (c == ' ') || (c == '\t') || (c == '\n') || (c == '\r') || (c == '\x0b') || (c == '\x0c')

/-- Python str.strip(): drop whitespace from both ends. -/
def pyStrip (s : Str) : Str :=
  ((s.dropWhile isWs).reverse.dropWhile isWs).reverse

/-- Python str.startswith(p). -/
def pyStartsWith (s p : Str) : Bool := p.isPrefixOf s

/-- Whether pattern p occurs in s starting exactly at index i. -/
def matchesAt (s p : Str) (i : Nat) : Bool := p.isPrefixOf (s.drop i)

/-- Smallest index i with start ≤ i < start+fuel satisfying p, scanning upward. -/
def firstIdxAux (p : Nat → Bool) : Nat → Nat → Option Nat
  | _, 0 => none
  | i, fuel+1 => if p i then some i else firstIdxAux p (i+1) fuel

/-- Python content.find(pat, start): index of the first occurrence of pat at or
after start, as an Option (Python returns -1 for none). -/
def findSubFrom (s pat : Str) (start : Nat) : Option Nat :=
  firstIdxAux (fun i => matchesAt s pat i) start (s.length + 1 - start)

/-- Python content.find(c, start) for a single character. -/
def findCharFrom (s : Str) (c : Char) (start : Nat) : Option Nat :=
  firstIdxAux (fun i => s.get? i == some c) start (s.length - start)

/-- Largest index below the bound satisfying p, scanning downward. -/
def rfindAux (p : Nat → Bool) : Nat → Option Nat
  | 0 => none
  | h+1 => if p h then some h else rfindAux p h

/-- Python content.rfind(c, 0, hi): largest index i < hi with s[i] = c. -/
def rfindCharBefore (s : Str) (c : Char) (hi : Nat) : Option Nat :=
  rfindAux (fun i => s.get? i == some c) (min hi s.length)

/-- Python s.split(sep) for a one-character separator. -/
def pySplitChar (sep : Char) : Str → List Str
  | [] => [[]]
  | c :: rest =>
    match pySplitChar sep rest, decide (c = sep) with
    | r, true => [] :: r
    | [], false => [[c]]
    | l :: ls, false => (c :: l) :: ls

/-- Split into lines at newline characters (Python s.split(chr(10))). -/
def splitNl : Str → List Str := pySplitChar '\n'

/-- Join lines with newline characters (inverse of splitNl). -/
def joinNl : List Str → Str
  | [] => []
  | [l] => l
  | l :: l' :: ls => l ++ '\n' :: joinNl (l' :: ls)

/-- Python s[a:b] (slice with clamping). -/
def pySlice (s : Str) (a b : Nat) : Str := (s.take b).drop a

/-- Python str.lower() (ASCII case fold is all the sources need). -/
def pyLower (s : Str) : Str := s.map Char.toLower

/-- ASCII decimal digit test (Python str.isdigit on the names in use). -/
def pyIsDigit (c : Char) : Bool := ('0' ≤ c) && (c ≤ '9')

/-- Value of a nonempty digit string. -/
def natOfDigits (ds : Str) : Nat := ds.foldl (fun a c => a * 10 + (c.toNat - 48)) 0

/-- Python int(s): optional sign followed by digits (surrounding whitespace
stripped); None models a ValueError. -/
def pyInt (s : Str) : Option Int :=
  let t := pyStrip s
  match t with
  | '-' :: ds => if ds ≠ [] && ds.all pyIsDigit then some (-(natOfDigits ds : Int)) else none
  | '+' :: ds => if ds ≠ [] && ds.all pyIsDigit then some ((natOfDigits ds : Int)) else none
  | ds => if ds ≠ [] && ds.all pyIsDigit then some ((natOfDigits ds : Int)) else none

/-- Python lexicographic string comparison (by character code), strict. -/
def pyStrLt : Str → Str → Bool
  | [], [] => false
  | [], _ :: _ => true
  | _ :: _, [] => false
  | a :: as, b :: bs => if a = b then pyStrLt as bs else decide (a < b)

/-- Largest element of a list of strings in lexicographic order (the head of
Python sorted(..., reverse=True)); none for the empty list. -/
def lexMax : List Str → Option Str
  | [] => none
  | n :: ns =>
    match lexMax ns with
    | none => some n
    | some m => if pyStrLt m n then some n else some m

end Notes

namespace Notes

/-! Embedding of back_office/py/file_filters.py. -/

/-- Source is_file_of_interest, on a file or directory name: README.md or
assets, case-insensitively. -/
def is_file_of_interest_name (name : Str) : Bool :=
  pyLower name == strOf "readme.md" || pyLower name == strOf "assets"

/-- Serial suffixes parsed from the sibling names that start with the date key:
the source splits each matching name on the underscore, takes part 1 and
parses it as an int, silently skipping malformed names. -/
def parsedSerials (names : List Str) (date_str : Str) : List Int :=
  (names.filter fun n => pyStartsWith n date_str).filterMap fun n =>
    match (pySplitChar '_' n).get? 1 with
    | some part => pyInt part
    | none => none

/-- Running maximum of a list of ints, none for the empty list. -/
def maxIntOfList : List Int → Option Int
  | [] => none
  | x :: xs =>
    match maxIntOfList xs with
    | none => some x
    | some m => some (max x m)

/-- Source get_next_serial_number.  The base folder is modelled as the list of
its subdirectory names (none when the folder does not exist).  Returns 1 when
the folder is missing or no sibling matches; otherwise one more than the
largest parsed serial (1 when every matching sibling is malformed). -/
def get_next_serial_number (base_folder : Option (List Str)) (date_str : Str) : Int :=
  match base_folder with
  | none => 1
  | some names =>
    let existing := names.filter fun n => pyStartsWith n date_str
    if existing.isEmpty then 1
    else
      match maxIntOfList (parsedSerials names date_str) with
      | none => 1
      | some m => m + 1

/-- Modelled from the spec: "smallest positive integer not already used as the
serial suffix among existing sibling entries whose name starts with the date
key" (the Output clause of the SerialAllocator contract).  Scans 1, 2, ... for
the first value outside the used set. -/
def smallestUnusedAux (used : List Int) : Nat → Nat → Int
  | k, 0 => (k : Int)
  | k, fuel+1 => if (k : Int) ∈ used then smallestUnusedAux used (k+1) fuel else (k : Int)

/-- Modelled from the spec: smallest positive serial not in use. -/
def smallestUnusedSerial (names : List Str) (date_str : Str) : Int :=
  smallestUnusedAux (parsedSerials names date_str) 1 (names.length + 1)

/-- Source get_latest_folder_by_date: among subdirectory names, keep the
8-digit ones and take the lexicographic maximum (sorted(reverse=True)[0]);
none when the folder is missing or nothing matches. -/
def get_latest_folder_by_date (base_folder : Option (List Str)) : Option Str :=
  match base_folder with
  | none => none
  | some names =>
    lexMax (names.filter fun n => n.all pyIsDigit && !n.isEmpty && n.length == 8)

end Notes

namespace Notes

/-! Claim C4: the serial allocator. -/

theorem mem_le_maxIntOfList {l : List Int} {s : Int} (h : s ∈ l) :
    ∃ m, maxIntOfList l = some m ∧ s ≤ m := by
  induction l with
  | nil => cases h
  | cons x xs ih =>
    rcases List.mem_cons.mp h with rfl | hx
    · cases hmx : maxIntOfList xs with
      | none => exact ⟨s, by simp [maxIntOfList, hmx], le_refl s⟩
      | some m => exact ⟨max s m, by simp [maxIntOfList, hmx], le_max_left s m⟩
    · obtain ⟨m, hm, hsm⟩ := ih hx
      cases hmx : maxIntOfList xs with
      | none => simp [hmx] at hm
      | some m' =>
        rw [hmx] at hm; cases hm
        exact ⟨max x m, by simp [maxIntOfList, hmx], le_trans hsm (le_max_right x m)⟩

/-- C4 counterexample: on siblings 20240101_001, 20240101_002, 20240101_004
with date key 20240101, the source allocator returns 5, not the smallest
unused positive serial 3 claimed by the spec. -/
theorem c4_counterexample :
    get_next_serial_number
        (some [strOf "20240101_001", strOf "20240101_002", strOf "20240101_004"])
        (strOf "20240101") = 5 ∧
    smallestUnusedSerial
        [strOf "20240101_001", strOf "20240101_002", strOf "20240101_004"]
        (strOf "20240101") = 3 ∧
    get_next_serial_number
        (some [strOf "20240101_001", strOf "20240101_002", strOf "20240101_004"])
        (strOf "20240101") ≠
      smallestUnusedSerial
        [strOf "20240101_001", strOf "20240101_002", strOf "20240101_004"]
        (strOf "20240101") := by
  refine ⟨by decide, by decide, by decide⟩

/-- C4 (amended): the allocator returns one more than the largest serial in
use among matching siblings (1 when no sibling parses), so its result is
strictly greater than, in particular different from, every serial in use; it
is not in general the smallest unused serial. -/
theorem c4_serial_allocator_amended (names : List Str) (date_str : Str) :
    (parsedSerials names date_str = [] →
      get_next_serial_number (some names) date_str = 1) ∧
    ∀ s ∈ parsedSerials names date_str,
      s < get_next_serial_number (some names) date_str := by
  constructor
  · intro hp
    unfold get_next_serial_number
    cases hempty : (names.filter fun n => pyStartsWith n date_str).isEmpty
    · simp only [hempty, hp]
      rfl
    · simp [hempty]
  · intro s hs
    have hmax := mem_le_maxIntOfList hs
    obtain ⟨m, hm, hsm⟩ := hmax
    have hne : (names.filter fun n => pyStartsWith n date_str).isEmpty = false := by
      by_contra hcon
      have : (names.filter fun n => pyStartsWith n date_str).isEmpty = true := by
        cases hh : (names.filter fun n => pyStartsWith n date_str).isEmpty
        · exact absurd hh hcon
        · rfl
      have hnil : (names.filter fun n => pyStartsWith n date_str) = [] :=
        List.isEmpty_iff.mp this
      have : parsedSerials names date_str = [] := by
        unfold parsedSerials
        rw [hnil]
        rfl
      rw [this] at hs
      cases hs
    unfold get_next_serial_number
    simp only [hne, Bool.false_eq_true, if_false, hm]
    omega

/-- C4 amended witness: at the concrete sibling set, serial 4 is in use and
the allocator's result exceeds it. -/
theorem c4_serial_allocator_amended_witness :
    (4 : Int) <
      get_next_serial_number
        (some [strOf "20240101_001", strOf "20240101_002", strOf "20240101_004"])
        (strOf "20240101") :=
  (c4_serial_allocator_amended
      [strOf "20240101_001", strOf "20240101_002", strOf "20240101_004"]
      (strOf "20240101")).2 4 (by decide)

end Notes

namespace Notes

/-! Embedding of back_office/py/info_extraction.py. -/

/-- Lazy scan driver shared by the regex translations: starting at index j,
try the tail matcher at each position, moving right one character at a time
but never across a newline (the lazy dot of the patterns never matches a
newline). -/
def lazyScanAux {a : Type} (try1 : Nat → Option a) (s : Str) : Nat → Nat → Option a
  | _, 0 => none
  | j, fuel+1 =>
    match try1 j with
    | some r => some r
    | none =>
      match s.get? j with
      | some c => if c = '\n' then none else lazyScanAux try1 s (j+1) fuel
      | none => none

/-- Tail of the asset-reference pattern at index j: a closing bracket, an
opening parenthesis, one arbitrary non-newline character (the unescaped dot of
the source pattern), the literal /assets/, then a nonempty captured run of
non-parenthesis characters closed by a parenthesis.  Returns the capture and
the match end. -/
def assetTailMatch (s : Str) (j : Nat) : Option (Str × Nat) :=
  match s.drop j with
  | ']' :: '(' :: c :: rest =>
    if c != '\n' && pyStartsWith rest (strOf "/assets/") then
      let rest2 := rest.drop 8
      let cap := rest2.takeWhile fun ch => ch != ')'
      if !cap.isEmpty && rest2.get? cap.length == some ')' then
        some (cap, j + 3 + 8 + cap.length + 1)
      else none
    else none
  | _ => none

/-- Full asset-reference match attempt at index i (the bang and bracket, then
the lazy alt text, then the tail). -/
def assetMatchAt (s : Str) (i : Nat) : Option (Str × Nat) :=
  if s.get? i == some '!' && s.get? (i+1) == some '[' then
    lazyScanAux (assetTailMatch s) s (i+2) (s.length + 1 - (i+2))
  else none

/-- Left-to-right non-overlapping matches: re.findall over the asset pattern,
collecting the captured filenames. -/
def findAllAssetsAux (s : Str) : Nat → Nat → List Str
  | _, 0 => []
  | i, fuel+1 =>
    match firstIdxAux (fun k => (assetMatchAt s k).isSome) i (s.length + 1 - i) with
    | none => []
    | some k =>
      match assetMatchAt s k with
      | some (cap, e) => cap :: findAllAssetsAux s e fuel
      | none => []

/-- Source get_referenced_assets on the document content (the source returns a
set; membership in this list is what the callers consult). -/
def get_referenced_assets (content : Str) : List Str :=
  findAllAssetsAux content 0 (content.length + 1)

/-- Tail of the image pattern at index j: bracket, parenthesis, then a lazy
run of non-newline characters closed by a parenthesis; returns the match
end. -/
def imgTailMatch (s : Str) (j : Nat) : Option Nat :=
  match s.drop j with
  | ']' :: '(' :: _ =>
    lazyScanAux
      (fun k => if s.get? k == some ')' then some (k+1) else none) s (j+2)
      (s.length + 1 - (j+2))
  | _ => none

/-- Image-link match attempt at index i for the pattern bang, bracket, lazy
alt text, bracket-parenthesis, lazy target, parenthesis. -/
def imgMatchAt (s : Str) (i : Nat) : Option Nat :=
  if s.get? i == some '!' && s.get? (i+1) == some '[' then
    lazyScanAux (imgTailMatch s) s (i+2) (s.length + 1 - (i+2))
  else none

/-- First image link in the document: re.search of the image pattern; returns
the match end. -/
def imgSearchEnd (s : Str) : Option Nat :=
  match firstIdxAux (fun i => (imgMatchAt s i).isSome) 0 (s.length + 1) with
  | none => none
  | some i => imgMatchAt s i

/-- Header capture attempt at index i for the pattern of three hashes, one or
more whitespace characters, then a nonempty greedy run of non-newline
characters (the capture).  The whitespace run backtracks from its maximal
extent until the remainder starts with a non-newline character. -/
def headerBacktrack (s : Str) (base : Nat) : Nat → Option Str
  | 0 => none
  | w+1 =>
    match s.get? (base + w + 1) with
    | some c =>
      if c ≠ '\n' then some ((s.drop (base + w + 1)).takeWhile fun ch => ch != '\n')
      else headerBacktrack s base w
    | none => headerBacktrack s base w

/-- Header match attempt at index i: the three hashes, then whitespace and the
captured line remainder. -/
def headerMatchAt (s : Str) (i : Nat) : Option Str :=
  if matchesAt s (strOf "###") i then
    let wsrun := (s.drop (i+3)).takeWhile isWs
    headerBacktrack s (i + 2) wsrun.length
  else none

/-- First header capture in the document: re.search of the header pattern. -/
def headerSearch (s : Str) : Option Str :=
  match firstIdxAux (fun i => (headerMatchAt s i).isSome) 0 (s.length + 1) with
  | none => none
  | some i => headerMatchAt s i

/-- Source extract_weather_from_note on the note content: find the first
image link, then the first header line after it, split it on commas and take
parts 1 and 2; the sentinel pair otherwise. -/
def extract_weather_from_note (content : Str) : Str × Str :=
  match imgSearchEnd content with
  | none => (strOf "Inconnu", strOf "Inconnu")
  | some imgEnd =>
    match headerSearch (content.drop imgEnd) with
    | none => (strOf "Inconnu", strOf "Inconnu")
    | some captured =>
      let header_line := pyStrip captured
      let parts := (pySplitChar ',' header_line).map pyStrip
      match parts.get? 1, parts.get? 2 with
      | some temperature, some weather => (temperature, weather)
      | _, _ => (strOf "Inconnu", strOf "Inconnu")

/-- Source get_french_month (the dictionary raises for a value outside 1..12;
those are unreachable from the callers, which pass a parsed month). -/
def get_french_month : Nat → Str
  | 1 => strOf "Janvier"
  | 2 => strOf "Fevrier"
  | 3 => strOf "Mars"
  | 4 => strOf "Avril"
  | 5 => strOf "Mai"
  | 6 => strOf "Juin"
  | 7 => strOf "Juillet"
  | 8 => strOf "Aout"
  | 9 => strOf "Septembre"
  | 10 => strOf "Octobre"
  | 11 => strOf "Novembre"
  | 12 => strOf "Decembre"
  | _ => []

/-- Source get_french_weekday's table, indexed by Python weekday (Monday 0). -/
def frenchWeekdayName : Nat → Str
  | 0 => strOf "Lundi"
  | 1 => strOf "Mardi"
  | 2 => strOf "Mercredi"
  | 3 => strOf "Jeudi"
  | 4 => strOf "Vendredi"
  | 5 => strOf "Samedi"
  | 6 => strOf "Dimanche"
  | _ => []

end Notes

namespace Notes

/-! Calendar arithmetic backing datetime: day numbers and weekdays. -/

/-- Days since the era base 0000-03-01 of the civil date y-m-d (the standard
days-from-civil computation, valid for the four-digit years in use). -/
def civilDays (y m d : Nat) : Nat :=
  let y' := if m ≤ 2 then y - 1 else y
  let era := y' / 400
  let yoe := y' % 400
  let mp := (m + 9) % 12
  let doy := (153 * mp + 2) / 5 + (d - 1)
  let doe := yoe * 365 + yoe / 4 - yoe / 100 + doy
  era * 146097 + doe

/-- Python date.weekday(): Monday is 0. -/
def pyWeekday (y m d : Nat) : Nat := (civilDays y m d + 2) % 7

/-- Gregorian leap year. -/
def isLeap (y : Nat) : Bool := y % 4 == 0 && (y % 100 != 0 || y % 400 == 0)

/-- Days in a month (0 outside 1..12, making the validity check fail). -/
def daysInMonth (y m : Nat) : Nat :=
  match m with
  | 1 => 31 | 2 => if isLeap y then 29 else 28 | 3 => 31 | 4 => 30
  | 5 => 31 | 6 => 30 | 7 => 31 | 8 => 31
  | 9 => 30 | 10 => 31 | 11 => 30 | 12 => 31
  | _ => 0

/-- Python datetime.strptime(s, the year-month-day format) on an 8-digit
string: parsed (year, month, day), or none for a ValueError (bad length or an
out-of-range component; datetime years start at 1). -/
def pyStrptimeYmd (s : Str) : Option (Nat × Nat × Nat) :=
  if s.length == 8 && s.all pyIsDigit then
    let y := natOfDigits (s.take 4)
    let m := natOfDigits (pySlice s 4 6)
    let d := natOfDigits (pySlice s 6 8)
    if 1 ≤ y && 1 ≤ m && m ≤ 12 && 1 ≤ d && d ≤ daysInMonth y m then some (y, m, d)
    else none
  else none

/-- The wall-clock instant a transition runs at (datetime.now()). -/
structure Now where
  year : Nat
  month : Nat
  day : Nat
  secondOfDay : Nat

/-- Decimal digits of n, most significant first (fuel-driven division). -/
def natDigitsAux : Nat → Nat → Str
  | _, 0 => []
  | n, fuel+1 => if n = 0 then [] else natDigitsAux (n / 10) fuel ++ [Char.ofNat (48 + n % 10)]

/-- Decimal digits of n. -/
def natToStr (n : Nat) : Str := if n = 0 then ['0'] else natDigitsAux n n

/-- Zero-padded decimal digits (strftime-style fixed width). -/
def padZeros (w n : Nat) : Str :=
  let ds := natToStr n
  List.replicate (w - ds.length) '0' ++ ds

/-- strftime of the four-digit year. -/
def yearStrOf (now : Now) : Str := padZeros 4 now.year

/-- strftime of the two-digit month. -/
def monthStrOf (now : Now) : Str := padZeros 2 now.month

/-- strftime of the eight-digit date key. -/
def dateStrOf (now : Now) : Str := yearStrOf now ++ monthStrOf now ++ padZeros 2 now.day

/-- Source get_french_weekday on the current instant. -/
def get_french_weekday (now : Now) : Str :=
  frenchWeekdayName (pyWeekday now.year now.month now.day)

/-- Seconds from the midnight of a civil date to the instant now (the
total_seconds of the datetime difference, both instants counted from the same
epoch). -/
def secondsSinceMidnightOf (now : Now) (y m d : Nat) : Int :=
  ((civilDays now.year now.month now.day : Int) - (civilDays y m d : Int)) * 86400
    + (now.secondOfDay : Int)

end Notes

namespace Notes

/-! Embedding of the IndexEditor: update_year_readme (finish_note.py) and
extract_note_link_from_readme (revert_note.py). -/

/-- Source update_year_readme on the document content.  The new entry line is
built from the day, French weekday and month of the instant plus the extracted
temperature and weather; insertion happens after the last note line of the
month section, right after the month header when the section has no note
line, or as a whole new section before the first line starting with the
sentinel when the month header is absent. -/
def update_year_readme (content : Str) (new_note_link : Str) (now : Now)
    (temperature weather : Str) : Str :=
  let month_name := get_french_month now.month
  let month_header := strOf "## " ++ month_name
  let weekday := get_french_weekday now
  let new_entry := strOf "[_" ++ natToStr now.day ++ strOf ", " ++ weekday ++ strOf ", "
      ++ temperature ++ strOf ", " ++ weather ++ strOf "_](" ++ new_note_link ++ strOf ")"
  match findSubFrom content month_header 0 with
  | some month_pos =>
    let next_line_pos := match findCharFrom content '\n' month_pos with
      | some p => p + 1
      | none => 0      -- Python find returns -1 here, and -1 + 1 = 0
    let search_start := next_line_pos
    let next_month_pos := findSubFrom content (strOf "\n##") search_start
    let next_br_pos := findSubFrom content (strOf "\n<br/>") search_start
    let next_section :=
      match next_month_pos, next_br_pos with
      | some a, some b => min content.length (min a b)
      | some a, none => min content.length a
      | none, some b => min content.length b
      | none, none => content.length
    let month_section := pySlice content search_start next_section
    let note_lines := (splitNl month_section).filter fun l => pyStartsWith (pyStrip l) (strOf "[_")
    match note_lines.getLast? with
    | some last_note =>
      let last_note_pos := (findSubFrom content last_note search_start).getD 0
        -- the fallback is unreachable: last_note is a line of month_section
      let insert_pos := match findCharFrom content '\n' last_note_pos with
        | some p => p + 1
        | none => 0    -- Python find returns -1 here, and -1 + 1 = 0
      content.take insert_pos ++ '\n' :: (new_entry ++ '\n' :: content.drop insert_pos)
    | none =>
      content.take next_line_pos ++ '\n' :: (new_entry ++ '\n' :: content.drop next_line_pos)
  | none =>
    match findSubFrom content (strOf "\n<br/>") 0 with
    | some br_pos =>
      content.take br_pos ++ strOf "\n## " ++ month_name ++ strOf "\n\n" ++ new_entry
        ++ '\n' :: content.drop br_pos
    | none =>
      match findSubFrom content (strOf "### Images Copyrights Disclaimer") 0 with
      | some dp =>
        content.take dp ++ strOf "## " ++ month_name ++ strOf "\n\n" ++ new_entry
          ++ strOf "\n\n<br/>\n\n" ++ content.drop dp
      | none =>
        content ++ strOf "\n## " ++ month_name ++ strOf "\n\n" ++ new_entry ++ ['\n']

/-- Tail of the link pattern at index j: bracket, parenthesis, dot, slash, two
digits, slash, the date folder name, slash, parenthesis.  Returns the match
end. -/
def linkTailMatch (s : Str) (date_folder_name : Str) (j : Nat) : Option Nat :=
  match s.drop j with
  | ']' :: '(' :: '.' :: '/' :: d1 :: d2 :: '/' :: rest =>
    if pyIsDigit d1 && pyIsDigit d2 && pyStartsWith rest (date_folder_name ++ strOf "/)") then
      some (j + 7 + date_folder_name.length + 2)
    else none
  | _ => none

/-- Link match attempt at index i: the bracket-underscore opener, the lazy
display text, then the path tail for this date folder name.  Returns match
start and end. -/
def linkMatchAt (s : Str) (date_folder_name : Str) (i : Nat) : Option (Nat × Nat) :=
  if s.get? i == some '[' && s.get? (i+1) == some '_' then
    match lazyScanAux (linkTailMatch s date_folder_name) s (i+2) (s.length + 1 - (i+2)) with
    | some e => some (i, e)
    | none => none
  else none

/-- re.search of the link pattern for a date folder name: leftmost match. -/
def linkSearch (s : Str) (date_folder_name : Str) : Option (Nat × Nat) :=
  match firstIdxAux (fun i => (linkMatchAt s date_folder_name i).isSome) 0 (s.length + 1) with
  | none => none
  | some i => linkMatchAt s date_folder_name i

/-- Python re word character (ASCII range, all these documents use). -/
def isWordChar (c : Char) : Bool := c.isAlphanum || c == '_'

/-- Whether the month-header pattern (two hashes, space, word character)
matches at index i. -/
def monthStartAt (s : Str) (i : Nat) : Bool :=
  s.get? i == some '#' && s.get? (i+1) == some '#' && s.get? (i+2) == some ' '
    && ((s.get? (i+3)).map isWordChar).getD false
/-- End of the greedy word-character run from index k. -/
def wordEndFrom (s : Str) (k : Nat) : Nat :=
  (firstIdxAux (fun j => !(((s.get? j).map isWordChar).getD false)) k (s.length + 1 - k)).getD
    s.length

/-- re.finditer of the month-header pattern: non-overlapping matches with
their start and end positions, scanning left to right. -/
def monthMatchesAux (s : Str) : Nat → Nat → List (Nat × Nat)
  | _, 0 => []
  | pos, fuel+1 =>
    match firstIdxAux (fun i => monthStartAt s i) pos (s.length + 1 - pos) with
    | none => []
    | some i => (i, wordEndFrom s (i+3)) :: monthMatchesAux s (wordEndFrom s (i+3)) fuel

/-- All month-header matches of the document. -/
def monthMatches (s : Str) : List (Nat × Nat) := monthMatchesAux s 0 (s.length + 1)

/-- The empty-section scan of extract_note_link_from_readme: walk the month
matches in order; the first whose body (up to the next match, or the next
sentinel line, or the end) strips to something with no note line is deleted
from its header start up to the next section start, and the loop breaks. -/
def removeEmptyMonthSection (s : Str) : List (Nat × Nat) → Str
  | [] => s
  | (mstart, mend) :: rest =>
    let next_section_start :=
      match rest with
      | (nstart, _) :: _ => nstart
      | [] =>
        match findSubFrom s (strOf "\n<br/>") mend with
        | some k => k
        | none => s.length
    let section_content := pyStrip (pySlice s mend next_section_start)
    if !((splitNl section_content).any fun line => pyStartsWith (pyStrip line) (strOf "[_")) then
      s.take mstart ++ s.drop next_section_start
    else
      removeEmptyMonthSection s rest

/-- Source extract_note_link_from_readme on the document content: locate the
link line whose path names this date folder, remove the whole line (and the
blank line before it unless the line above that blank is a header), then run
the empty-section scan; returns the new content and whether a link was
found. -/
def extract_note_link_from_readme (content : Str) (date_folder_name : Str) : Str × Bool :=
  match linkSearch content date_folder_name with
  | none => (content, false)
  | some (mstart, mend) =>
    let lineStart0 := match rfindCharBefore content '\n' mstart with
      | none => 0
      | some p => p + 1
    let line_end := match findCharFrom content '\n' mend with
      | none => content.length
      | some p => p + 1
    let check_pos := lineStart0 - 1
    let line_start :=
      if check_pos > 0 && (content.get? check_pos == some '\n') then
        match rfindCharBefore content '\n' (check_pos - 1) with
        | none => lineStart0    -- Python prev_line_start == -1: keep line_start
        | some q =>
          let prev_line := pyStrip (pySlice content (q+1) check_pos)
          if !(pyStartsWith prev_line (strOf "##")) then check_pos else lineStart0
      else lineStart0
    let new_content := content.take line_start ++ content.drop line_end
    (removeEmptyMonthSection new_content (monthMatches new_content), true)

end Notes

namespace Notes

/-! State model of the filesystem areas the three scripts mutate.  A folder is
a list of items (files with content, or one-level directories such as the
assets folder); the archive tree is a list of date folders keyed by
year, month and date strings; year READMEs and the backup and draft stores
are association lists. -/

/-- A directory entry: a file with its content, or a directory with its
files. -/
inductive Item where
  | file (name content : Str)
  | dir (name : Str) (files : List (Str × Str))
deriving DecidableEq, Repr

/-- Name of an item. -/
def itemName : Item → Str
  | .file n _ => n
  | .dir n _ => n

/-- Whether an item is a plain file (Path.is_file). -/
def isFileItem : Item → Bool
  | .file _ _ => true
  | .dir _ _ => false

/-- Content of a file item. -/
def itemContent? : Item → Option Str
  | .file _ c => some c
  | .dir _ _ => none

/-- Path lookup inside a folder: the item with exactly this name. -/
def lookupItem (items : List Item) (name : Str) : Option Item :=
  items.find? fun i => itemName i == name

/-- Source is_file_of_interest on an item. -/
def is_file_of_interest (i : Item) : Bool := is_file_of_interest_name (itemName i)

/-- Source get_files_of_interest on a folder listing. -/
def get_files_of_interest (items : List Item) : List Item :=
  items.filter is_file_of_interest

/-- Equality of two name collections as sets (Python set comparison). -/
def sameNameSets (a b : List Str) : Bool :=
  (a.all fun n => b.contains n) && (b.all fun n => a.contains n)

/-- Source has_changes: the interest-name sets must coincide, and each file of
interest must compare equal byte-for-byte; directories of interest present on
both sides are skipped without comparing their contents. -/
def has_changes (noting template : List Item) : Bool :=
  let noting_names := (get_files_of_interest noting).map itemName
  let template_names := (get_files_of_interest template).map itemName
  if !(sameNameSets noting_names template_names) then true
  else
    (get_files_of_interest noting).any fun item =>
      let nf := lookupItem noting (itemName item)
      let tf := lookupItem template (itemName item)
      let nIsFile := (nf.map isFileItem).getD false
      let tIsFile := (tf.map isFileItem).getD false
      if !(nIsFile && tIsFile) then nIsFile != tIsFile
      else (nf.bind itemContent?) != (tf.bind itemContent?)

/-- Replace the same-named entry of a folder, or append (the overwriting copy
of shutil.copy2 and of rmtree-then-copytree). -/
def upsertItem (items : List Item) (item : Item) : List Item :=
  if items.any fun i => itemName i == itemName item then
    items.map fun i => if itemName i == itemName item then item else i
  else items ++ [item]

/-- Per-file merge of a directory copy into an existing directory (copy2 of
each file into a dest that mkdir(exist_ok=True) kept). -/
def mergeFiles (old new : List (Str × Str)) : List (Str × Str) :=
  (old.filter fun f => !(new.any fun g => g.1 == f.1)) ++ new

/-- One step of copy_with_asset_filter: copy one item of interest into the
destination folder; an assets directory is merged file-by-file keeping only
referenced filenames, a plain file is copied, any other directory replaces a
same-named destination entirely. -/
def copyItemInto (referenced : List Str) (dest : List Item) (item : Item) : List Item :=
  match item with
  | .dir name files =>
    if pyLower name == strOf "assets" then
      let existing := match lookupItem dest name with
        | some (.dir _ fs) => fs
        | _ => []
      upsertItem dest (.dir name (mergeFiles existing (files.filter fun f => referenced.contains f.1)))
    else upsertItem dest (.dir name files)
  | .file name c => upsertItem dest (.file name c)

/-- Source copy_with_asset_filter from the noting area into a destination
folder: the referenced-asset set comes from the noting area's README.md (empty
when it is absent or unreadable), and only files of interest are copied. -/
def copy_with_asset_filter (noting dest : List Item) : List Item :=
  let referenced := match lookupItem noting (strOf "README.md") with
    | some (.file _ c) => get_referenced_assets c
    | _ => []
  (get_files_of_interest noting).foldl (copyItemInto referenced) dest

/-- Association-list lookup (a folder of serialised subfolders, or the year
README store). -/
def alookup {k : Type} [BEq k] {b : Type} (l : List (k × b)) (key : k) : Option b :=
  (l.find? fun p => p.1 == key).map fun p => p.2

/-- Association-list update-or-append. -/
def aupsert {k : Type} [BEq k] {b : Type} (l : List (k × b)) (key : k) (v : b) : List (k × b) :=
  if l.any fun p => p.1 == key then
    l.map fun p => if p.1 == key then (key, v) else p
  else l ++ [(key, v)]

/-- Python format of a serial with 03d (zero-padded to width three, sign
included in the width). -/
def formatSerial3 (n : Int) : Str :=
  if n < 0 then
    let ds := natToStr n.natAbs
    '-' :: (List.replicate (2 - ds.length) '0' ++ ds)
  else padZeros 3 n.toNat

/-- Everything the three scripts read or mutate: the noting area and template
folders, the drafts and backup stores, the archive tree of date folders and
the per-year index documents. -/
structure NoteState where
  noting_area : List Item
  template : List Item
  drafts : List (Str × List Item)
  notes : List ((Str × Str × Str) × List Item)
  year_readmes : List (Str × Str)
  backups : List (Str × List Item)
deriving DecidableEq, Repr

/-- Outcome reported by finish_note. -/
inductive FinishOutcome where
  | finished
  | nothingToFinish
deriving DecidableEq, Repr

/-- Source finish_note.  The guard is has_changes; on success the date folder
is created and filled through copy_with_asset_filter, weather and temperature
are extracted from the archived README (the natural-info extraction feeds only
a progress print and carries no state), the noting area is cleared of every
item, a serialised backup folder is created holding a copy of the year README
when one exists, and the year README, when it exists, gets the new link. -/
def finish_note (s : NoteState) (now : Now) : NoteState × FinishOutcome :=
  if !has_changes s.noting_area s.template then (s, .nothingToFinish)
  else
    let year_str := yearStrOf now
    let month_str := monthStrOf now
    let date_str := dateStrOf now
    let key := (year_str, month_str, date_str)
    let archived := copy_with_asset_filter s.noting_area ((alookup s.notes key).getD [])
    let notes1 := aupsert s.notes key archived
    let tw := match lookupItem archived (strOf "README.md") with
      | some (.file _ c) => extract_weather_from_note c
      | _ => (strOf "Inconnu", strOf "Inconnu")
    let backup_serial := get_next_serial_number (some (s.backups.map fun p => p.1)) date_str
    let backup_name := date_str ++ '_' :: formatSerial3 backup_serial
    let yr := alookup s.year_readmes year_str
    let backup_contents : List Item := match yr with
      | some c => [.file (strOf "README.md") c]
      | none => []
    let backups1 := aupsert s.backups backup_name backup_contents
    let year_readmes1 := match yr with
      | some c =>
        let relative_link := strOf "./" ++ month_str ++ '/' :: date_str ++ strOf "/"
        aupsert s.year_readmes year_str (update_year_readme c relative_link now tw.1 tw.2)
      | none => s.year_readmes
    ({ s with noting_area := [], notes := notes1, backups := backups1,
              year_readmes := year_readmes1 }, .finished)

/-- Outcome reported by revert_note. -/
inductive RevertOutcome where
  | reverted
  | nothingToRevert
  | staleNote
  | badDate
deriving DecidableEq, Repr

/-- Date-folder names under the current year and month of the archive tree
(the listing get_latest_note_folder works on). -/
def monthFolderNames (s : NoteState) (year_str month_str : Str) : List Str :=
  (s.notes.filter fun e => e.1.1 == year_str && e.1.2.1 == month_str).map fun e => e.1.2.2

/-- Source get_latest_note_folder: latest date folder of the current year and
month. -/
def get_latest_note_folder (s : NoteState) (year_str month_str : Str) : Option Str :=
  get_latest_folder_by_date (some (monthFolderNames s year_str month_str))

/-- Modelled from the spec: "the most recent ArchiveEntry across the whole
archive tree (lexicographic max of the date-folder name)" — the claimed
locate rule of Revert, for comparison with the source's month-scoped one. -/
def specLatestNoteFolder (s : NoteState) : Option Str :=
  lexMax (s.notes.map fun e => e.1.2.2)

/-- Step 1 of source revert_note: snapshot the interest content of the noting
area into a new serialised draft and clear those items; this runs before any
guard. -/
def revertStep1 (s : NoteState) (now : Now) : NoteState :=
  let date_str := dateStrOf now
  let noting_contents := get_files_of_interest s.noting_area
  if !noting_contents.isEmpty then
    let serial := get_next_serial_number (some (s.drafts.map fun p => p.1)) date_str
    let draft_name := date_str ++ '_' :: formatSerial3 serial
    { s with drafts := aupsert s.drafts draft_name noting_contents,
             noting_area := s.noting_area.filter fun i => !(is_file_of_interest i) }
  else s

/-- Source revert_note.  After the draft-snapshot step the latest date folder
of the current year and month is located, its date parsed and checked against
the 24-hour window; on success the entry's interest content is restored, the
year README is overwritten from the latest backup (which is then deleted), and
the date folder is deleted (empty parents are pruned, which the model's keyed
tree renders invisible). -/
def revert_note (s : NoteState) (now : Now) : NoteState × RevertOutcome :=
  let year_str := yearStrOf now
  let month_str := monthStrOf now
  let s1 := revertStep1 s now
  match get_latest_note_folder s1 year_str month_str with
  | none => (s1, .nothingToRevert)
  | some latest_name =>
    match pyStrptimeYmd latest_name with
    | none => (s1, .badDate)
    | some (y, m, d) =>
      if secondsSinceMidnightOf now y m d > 86400 then (s1, .staleNote)
      else
        let key := (year_str, month_str, latest_name)
        let latest_contents := (alookup s1.notes key).getD []
        let noting2 := (latest_contents.filter fun i =>
            pyLower (itemName i) == strOf "readme.md" || pyLower (itemName i) == strOf "assets"
          ).foldl upsertItem s1.noting_area
        let restored :=
          match lexMax (s1.backups.map fun p => p.1) with
          | some backup_name =>
            let bc := (alookup s1.backups backup_name).getD []
            let yr' := match lookupItem bc (strOf "README.md") with
              | some (.file _ c) => aupsert s1.year_readmes year_str c
              | _ => s1.year_readmes
            (yr', s1.backups.filter fun (p : Str × List Item) => !(p.1 == backup_name))
          | none => (s1.year_readmes, s1.backups)
        ({ s1 with noting_area := noting2, year_readmes := restored.1,
                   backups := restored.2,
                   notes := s1.notes.filter fun e => !(e.1 == key) }, .reverted)

/-- Source start_note: snapshot interest content of the noting area to a new
serialised draft and clear those items (when any), then copy every template
item into the noting area. -/
def start_note (s : NoteState) (now : Now) : NoteState :=
  let noting_contents := get_files_of_interest s.noting_area
  let s1 :=
    if !noting_contents.isEmpty then
      let date_str := dateStrOf now
      let serial := get_next_serial_number (some (s.drafts.map fun p => p.1)) date_str
      let draft_name := date_str ++ '_' :: formatSerial3 serial
      { s with drafts := aupsert s.drafts draft_name noting_contents,
               noting_area := s.noting_area.filter fun i => !(is_file_of_interest i) }
    else s
  { s1 with noting_area := s1.template.foldl upsertItem s1.noting_area }

end Notes

namespace Notes

/-! Helper lemmas about the state model. -/

theorem finish_note_no_changes (s : NoteState) (now : Now)
    (h : has_changes s.noting_area s.template = false) :
    finish_note s now = (s, FinishOutcome.nothingToFinish) := by
  unfold finish_note
  rw [h]
  rfl

theorem finish_note_fields (s : NoteState) (now : Now)
    (hch : has_changes s.noting_area s.template = true) :
    (finish_note s now).1.noting_area = [] ∧ (finish_note s now).1.template = s.template := by
  unfold finish_note
  rw [hch]
  exact ⟨rfl, rfl⟩

theorem has_changes_nil_of_template_nil {template : List Item}
    (h : get_files_of_interest template = []) :
    has_changes [] template = false := by
  unfold has_changes
  rw [h]
  rfl

theorem revertStep1_notes (s : NoteState) (now : Now) :
    (revertStep1 s now).notes = s.notes := by
  unfold revertStep1
  dsimp only
  split <;> rfl

theorem revertStep1_year_readmes (s : NoteState) (now : Now) :
    (revertStep1 s now).year_readmes = s.year_readmes := by
  unfold revertStep1
  dsimp only
  split <;> rfl

theorem revertStep1_backups (s : NoteState) (now : Now) :
    (revertStep1 s now).backups = s.backups := by
  unfold revertStep1
  dsimp only
  split <;> rfl

theorem revertStep1_template (s : NoteState) (now : Now) :
    (revertStep1 s now).template = s.template := by
  unfold revertStep1
  dsimp only
  split <;> rfl

theorem get_latest_note_folder_revertStep1 (s : NoteState) (now : Now) (y m : Str) :
    get_latest_note_folder (revertStep1 s now) y m = get_latest_note_folder s y m := by
  unfold get_latest_note_folder monthFolderNames
  rw [revertStep1_notes]

theorem mem_noting_revertStep1 {s : NoteState} {now : Now} {item : Item}
    (hmem : item ∈ s.noting_area) (hni : is_file_of_interest item = false) :
    item ∈ (revertStep1 s now).noting_area := by
  unfold revertStep1
  dsimp only
  split
  · exact List.mem_filter.mpr ⟨hmem, by rw [hni]; rfl⟩
  · exact hmem

theorem mem_upsertItem_of_ne {items : List Item} {item j : Item}
    (hmem : item ∈ items) (hne : (itemName j == itemName item) = false) :
    item ∈ upsertItem items j := by
  unfold upsertItem
  split
  · have hni : (itemName item == itemName j) = false := by
      cases hb : itemName item == itemName j
      · rfl
      · exfalso
        have := eq_of_beq hb
        rw [this, beq_self_eq_true] at hne
        cases hne
    refine List.mem_map.mpr ⟨item, hmem, ?_⟩
    rw [hni]
    rfl
  · exact List.mem_append_left _ hmem

theorem mem_foldl_upsertItem {item : Item} :
    ∀ (pushed : List Item) (items : List Item), item ∈ items →
      (∀ j ∈ pushed, (itemName j == itemName item) = false) →
      item ∈ pushed.foldl upsertItem items
  | [], _, hmem, _ => hmem
  | j :: js, items, hmem, hall => by
    simp only [List.foldl_cons]
    exact mem_foldl_upsertItem js _
      (mem_upsertItem_of_ne hmem (hall j (List.mem_cons_self j js)))
      (fun k hk => hall k (List.mem_cons_of_mem j hk))

theorem alookup_aupsert_self {k : Type} [BEq k] [LawfulBEq k] {b : Type}
    (l : List (k × b)) (key : k) (v : b) :
    alookup (aupsert l key v) key = some v := by
  unfold aupsert
  by_cases h : (l.any fun p => p.1 == key) = true
  · rw [if_pos h]
    revert h
    induction l with
    | nil => intro h; simp at h
    | cons p ps ih =>
      intro h
      simp only [List.any_cons, Bool.or_eq_true] at h
      by_cases hp : (p.1 == key) = true
      · simp only [alookup, List.map_cons, if_pos hp, List.find?_cons]
        simp
      · have hps : (ps.any fun q => q.1 == key) = true := by
          rcases h with h1 | h2
          · exact absurd h1 hp
          · exact h2
        have := ih hps
        simp only [alookup, List.map_cons, if_neg hp, List.find?_cons] at this ⊢
        rw [show ((p.1 == key) = false) from by
          cases hb : p.1 == key
          · rfl
          · exact absurd hb hp]
        exact this
  · rw [if_neg h]
    have hnone : List.find? (fun p => p.1 == key) l = none := by
      apply List.find?_eq_none.mpr
      intro p hp hcon
      exact absurd (List.any_eq_true.mpr ⟨p, hp, hcon⟩) h
    unfold alookup
    rw [List.find?_append, hnone]
    simp

end Notes

namespace Notes

/-! Shared concrete fixtures for witnesses and counterexamples. -/

/-- A template folder holding one README. -/
def tmplFix : List Item := [Item.file (strOf "README.md") (strOf "T")]

/-- An instant used by the fixtures: 2024-01-15 00:00:00. -/
def nowJan : Now := ⟨2024, 1, 15, 0⟩

/-! Claim C5: Finish with no changes is a no-op. -/

/-- C5: whenever the working area's interest content does not differ from the
template's, finish_note leaves the whole state untouched and reports that
there is nothing to finish. -/
theorem c5_finish_no_changes_no_op (s : NoteState) (now : Now)
    (h : has_changes s.noting_area s.template = false) :
    finish_note s now = (s, FinishOutcome.nothingToFinish) :=
  finish_note_no_changes s now h

/-- C5 witness: a working area equal to the template passes through finish
unchanged. -/
theorem c5_finish_no_changes_no_op_witness :
    finish_note ⟨tmplFix, tmplFix, [], [], [], []⟩ nowJan
      = (⟨tmplFix, tmplFix, [], [], [], []⟩, FinishOutcome.nothingToFinish) :=
  c5_finish_no_changes_no_op ⟨tmplFix, tmplFix, [], [], [], []⟩ nowJan (by decide)

/-! Claim C3: Finish twice in a row. -/

/-- A working area differing from the template fixture. -/
def c3state : NoteState :=
  ⟨[Item.file (strOf "README.md") (strOf "N")], tmplFix, [], [], [], []⟩

/-- C3 counterexample: after a first successful finish, the second finish is
not a no-op — the cleared working area differs from the non-empty template, so
the guard passes again and a second backup folder is created. -/
theorem c3_counterexample :
    (finish_note c3state nowJan).2 = FinishOutcome.finished ∧
    (finish_note (finish_note c3state nowJan).1 nowJan).2 = FinishOutcome.finished ∧
    (finish_note c3state nowJan).1.backups.length = 1 ∧
    (finish_note (finish_note c3state nowJan).1 nowJan).1.backups.length = 2 := by
  refine ⟨by decide, by decide, by decide, by decide⟩

/-- C3 (amended): the second finish is a no-op only when the template holds no
file of interest — then the cleared working area matches the template and the
guard blocks the second call; in general (non-empty template) the guard passes
again and the archive mutation is repeated. -/
theorem c3_finish_twice_amended (s : NoteState) (now : Now)
    (h : get_files_of_interest s.template = []) :
    finish_note (finish_note s now).1 now
      = ((finish_note s now).1, FinishOutcome.nothingToFinish) := by
  cases hch : has_changes s.noting_area s.template
  · have h1 := finish_note_no_changes s now hch
    rw [h1]
    exact h1
  · have h2 := finish_note_fields s now hch
    have h3 : has_changes (finish_note s now).1.noting_area (finish_note s now).1.template
        = false := by
      rw [h2.1, h2.2]
      exact has_changes_nil_of_template_nil h
    exact finish_note_no_changes _ now h3

/-- An empty template, under which finish really is idempotent. -/
def c3stateEmptyTmpl : NoteState :=
  ⟨[Item.file (strOf "README.md") (strOf "N")], [], [], [], [], []⟩

/-- C3 amended witness. -/
theorem c3_finish_twice_amended_witness :
    finish_note (finish_note c3stateEmptyTmpl nowJan).1 nowJan
      = ((finish_note c3stateEmptyTmpl nowJan).1, FinishOutcome.nothingToFinish) :=
  c3_finish_twice_amended c3stateEmptyTmpl nowJan (by decide)

/-! Claim C10: Finish when the year index is absent. -/

/-- C10: when the guard passes but no year README exists, finish still
completes: the archive entry is written from the filtered copy, the working
area is cleared, the year README store is untouched (no link inserted), and a
backup folder for the date is still created, empty. -/
theorem c10_finish_without_year_index (s : NoteState) (now : Now)
    (hch : has_changes s.noting_area s.template = true)
    (hyr : alookup s.year_readmes (yearStrOf now) = none) :
    (finish_note s now).2 = FinishOutcome.finished ∧
    (finish_note s now).1.year_readmes = s.year_readmes ∧
    (finish_note s now).1.noting_area = [] ∧
    alookup (finish_note s now).1.notes (yearStrOf now, monthStrOf now, dateStrOf now)
      = some (copy_with_asset_filter s.noting_area
          ((alookup s.notes (yearStrOf now, monthStrOf now, dateStrOf now)).getD [])) ∧
    alookup (finish_note s now).1.backups
        (dateStrOf now ++ '_' :: formatSerial3
          (get_next_serial_number (some (s.backups.map fun p => p.1)) (dateStrOf now)))
      = some [] := by
  unfold finish_note
  rw [hch]
  dsimp only
  rw [hyr]
  dsimp only
  exact ⟨rfl, rfl, rfl, alookup_aupsert_self _ _ _, alookup_aupsert_self _ _ _⟩

/-- A state with changes and no year README. -/
def c10state : NoteState :=
  ⟨[Item.file (strOf "README.md") (strOf "N")], tmplFix, [], [], [], []⟩

/-- C10 witness. -/
theorem c10_finish_without_year_index_witness :
    (finish_note c10state nowJan).2 = FinishOutcome.finished ∧
    (finish_note c10state nowJan).1.year_readmes = c10state.year_readmes ∧
    (finish_note c10state nowJan).1.noting_area = [] ∧
    alookup (finish_note c10state nowJan).1.notes
        (yearStrOf nowJan, monthStrOf nowJan, dateStrOf nowJan)
      = some (copy_with_asset_filter c10state.noting_area
          ((alookup c10state.notes (yearStrOf nowJan, monthStrOf nowJan, dateStrOf nowJan)).getD
            [])) ∧
    alookup (finish_note c10state nowJan).1.backups
        (dateStrOf nowJan ++ '_' :: formatSerial3
          (get_next_serial_number (some (c10state.backups.map fun p => p.1)) (dateStrOf nowJan)))
      = some [] :=
  c10_finish_without_year_index c10state nowJan (by decide) (by decide)

end Notes

namespace Notes

/-! Claim C2: the freshness guard of Revert. -/

/-- A state whose only archive entry is two weeks old and whose working area
holds a note. -/
def c2state : NoteState :=
  ⟨[Item.file (strOf "README.md") (strOf "X")], tmplFix, [],
   [((strOf "2024", strOf "01", strOf "20240101"), [Item.file (strOf "README.md") (strOf "old")])],
   [(strOf "2024", strOf "YR")], []⟩

/-- 2024-01-17 00:00:00, more than 24 hours past the entry above. -/
def nowJan17 : Now := ⟨2024, 1, 17, 0⟩

/-- C2 counterexample: with a stale entry, revert aborts — but the working
area is not left unmutated as claimed: its note was already drafted away and
cleared before the freshness guard ran. -/
theorem c2_counterexample :
    (revert_note c2state nowJan17).2 = RevertOutcome.staleNote ∧
    (revert_note c2state nowJan17).1.noting_area ≠ c2state.noting_area := by
  refine ⟨by decide, by decide⟩

/-- C2 (amended): when revert aborts on the freshness guard, the archive tree,
the year READMEs and the backups are untouched; the working area, however, may
already have been snapshotted to a draft and cleared, since that step precedes
the guard. -/
theorem c2_revert_stale_amended (s : NoteState) (now : Now)
    (h : (revert_note s now).2 = RevertOutcome.staleNote) :
    (revert_note s now).1.notes = s.notes ∧
    (revert_note s now).1.year_readmes = s.year_readmes ∧
    (revert_note s now).1.backups = s.backups := by
  unfold revert_note at h ⊢
  dsimp only at h ⊢
  cases hL : get_latest_note_folder (revertStep1 s now) (yearStrOf now) (monthStrOf now) with
  | none =>
    rw [hL] at h
    simp at h
  | some latest =>
    rw [hL] at h
    dsimp only at h ⊢
    cases hP : pyStrptimeYmd latest with
    | none =>
      rw [hP] at h
      simp at h
    | some ymd =>
      rw [hP] at h
      obtain ⟨y, m, d⟩ := ymd
      dsimp only at h ⊢
      by_cases hT : secondsSinceMidnightOf now y m d > 86400
      · rw [if_pos hT]
        exact ⟨revertStep1_notes s now, revertStep1_year_readmes s now,
          revertStep1_backups s now⟩
      · rw [if_neg hT] at h
        simp at h

/-- C2 amended witness: the stale fixture. -/
theorem c2_revert_stale_amended_witness :
    (revert_note c2state nowJan17).1.notes = c2state.notes ∧
    (revert_note c2state nowJan17).1.year_readmes = c2state.year_readmes ∧
    (revert_note c2state nowJan17).1.backups = c2state.backups :=
  c2_revert_stale_amended c2state nowJan17 (by decide)

/-! Claim C7: where Revert looks for the entry to revert. -/

/-- A state whose only archive entry sits in January. -/
def c7state : NoteState :=
  ⟨[], tmplFix, [],
   [((strOf "2024", strOf "01", strOf "20240131"), [Item.file (strOf "README.md") (strOf "old")])],
   [], []⟩

/-- 2024-02-01 00:00:00: the January entry is within 24 hours, but a new month
has begun. -/
def nowFeb1 : Now := ⟨2024, 2, 1, 0⟩

/-- C7 counterexample: the archive holds a fresh entry (its lexicographic
maximum across the whole tree is 20240131), yet revert reports
nothing-to-revert and changes nothing, because the source only scans the
month folder of the current date. -/
theorem c7_counterexample :
    c7state.notes ≠ [] ∧
    specLatestNoteFolder c7state = some (strOf "20240131") ∧
    revert_note c7state nowFeb1 = (c7state, RevertOutcome.nothingToRevert) := by
  refine ⟨by decide, by decide, by decide⟩

/-- C7 (amended): revert locates its entry inside the current year and month
folder only; when that folder holds no date-named entry it reports
nothing-to-revert with the archive untouched (even if entries exist
elsewhere), and an entry of any other year or month is never deleted. -/
theorem c7_revert_scope_amended (s : NoteState) (now : Now) :
    (get_latest_note_folder s (yearStrOf now) (monthStrOf now) = none →
      (revert_note s now).2 = RevertOutcome.nothingToRevert ∧
      (revert_note s now).1.notes = s.notes) ∧
    (∀ e ∈ s.notes, (e.1.1 ≠ yearStrOf now ∨ e.1.2.1 ≠ monthStrOf now) →
      e ∈ (revert_note s now).1.notes) := by
  constructor
  · intro hnone
    unfold revert_note
    dsimp only
    rw [get_latest_note_folder_revertStep1, hnone]
    exact ⟨rfl, revertStep1_notes s now⟩
  · intro e he hym
    unfold revert_note
    dsimp only
    cases hL : get_latest_note_folder (revertStep1 s now) (yearStrOf now) (monthStrOf now) with
    | none =>
      dsimp only
      rw [revertStep1_notes]
      exact he
    | some latest =>
      dsimp only
      cases hP : pyStrptimeYmd latest with
      | none =>
        dsimp only
        rw [revertStep1_notes]
        exact he
      | some ymd =>
        obtain ⟨y, m, d⟩ := ymd
        dsimp only
        by_cases hT : secondsSinceMidnightOf now y m d > 86400
        · rw [if_pos hT]
          dsimp only
          rw [revertStep1_notes]
          exact he
        · rw [if_neg hT]
          dsimp only
          rw [revertStep1_notes]
          refine List.mem_filter.mpr ⟨he, ?_⟩
          cases hb : e.1 == (yearStrOf now, monthStrOf now, latest) with
          | false => rfl
          | true =>
            exfalso
            have heq : e.1 = (yearStrOf now, monthStrOf now, latest) := eq_of_beq hb
            rcases hym with hy | hm
            · exact hy (congrArg (fun t => t.1) heq)
            · exact hm (congrArg (fun t => t.2.1) heq)

/-- C7 amended witness: at the February instant the January entry survives and
revert reports nothing-to-revert. -/
theorem c7_revert_scope_amended_witness :
    (revert_note c7state nowFeb1).2 = RevertOutcome.nothingToRevert ∧
    ((strOf "2024", strOf "01", strOf "20240131"),
        [Item.file (strOf "README.md") (strOf "old")]) ∈ (revert_note c7state nowFeb1).1.notes := by
  have h := c7_revert_scope_amended c7state nowFeb1
  exact ⟨(h.1 (by decide)).1, h.2 _ (by decide) (by decide)⟩

end Notes

namespace Notes

/-! Claim C6: which transitions clear the working area with the interest
filter. -/

/-- A working area holding a changed note plus a stray scratch file. -/
def c6state : NoteState :=
  ⟨[Item.file (strOf "README.md") (strOf "N"), Item.file (strOf "scratch.txt") (strOf "S")],
   tmplFix, [], [], [], []⟩

/-- C6 counterexample: finish clears the working area without the interest
filter — the stray scratch.txt, which the claim says is left in place, is
deleted. -/
theorem c6_counterexample :
    ((c6state.noting_area.any fun i => itemName i == strOf "scratch.txt") = true) ∧
    (finish_note c6state nowJan).2 = FinishOutcome.finished ∧
    ((finish_note c6state nowJan).1.noting_area.any
        fun i => itemName i == strOf "scratch.txt") = false := by
  refine ⟨by decide, by decide, by decide⟩

/-- C6 (amended): Start and Revert clear with the interest filter — a
non-interest item of the working area survives them (for Start provided no
template item shares its name, since the template repopulation overwrites by
name) — while Finish, once its guard passes, clears the working area
unfiltered, removing stray items too. -/
theorem c6_filtered_clear_amended (s : NoteState) (now : Now) (item : Item)
    (hmem : item ∈ s.noting_area) (hni : is_file_of_interest item = false) :
    item ∈ (revert_note s now).1.noting_area ∧
    ((∀ t ∈ s.template, (itemName t == itemName item) = false) →
      item ∈ (start_note s now).noting_area) ∧
    (has_changes s.noting_area s.template = true →
      (finish_note s now).1.noting_area = []) := by
  refine ⟨?_, ?_, ?_⟩
  · have hstep := @mem_noting_revertStep1 s now item hmem hni
    unfold revert_note
    dsimp only
    cases hL : get_latest_note_folder (revertStep1 s now) (yearStrOf now) (monthStrOf now) with
    | none => exact hstep
    | some latest =>
      dsimp only
      cases hP : pyStrptimeYmd latest with
      | none => exact hstep
      | some ymd =>
        obtain ⟨y, m, d⟩ := ymd
        dsimp only
        by_cases hT : secondsSinceMidnightOf now y m d > 86400
        · rw [if_pos hT]
          exact hstep
        · rw [if_neg hT]
          dsimp only
          apply mem_foldl_upsertItem _ _ hstep
          intro j hj
          have hcond := (List.mem_filter.mp hj).2
          cases hb : itemName j == itemName item with
          | false => rfl
          | true =>
            exfalso
            have hname : itemName j = itemName item := eq_of_beq hb
            have hji : is_file_of_interest item = true := by
              unfold is_file_of_interest is_file_of_interest_name
              rw [← hname]
              exact hcond
            rw [hji] at hni
            cases hni
  · intro hdisj
    unfold start_note
    dsimp only
    split
    · apply mem_foldl_upsertItem _ _ (List.mem_filter.mpr ⟨hmem, by rw [hni]; rfl⟩)
      intro j hj
      exact hdisj j hj
    · exact mem_foldl_upsertItem _ _ hmem fun j hj => hdisj j hj
  · intro hch
    exact (finish_note_fields s now hch).1

/-- C6 amended witness: the stray scratch file survives revert and start in
the fixture state, and finish empties the area. -/
theorem c6_filtered_clear_amended_witness :
    Item.file (strOf "scratch.txt") (strOf "S") ∈ (revert_note c6state nowJan).1.noting_area ∧
    Item.file (strOf "scratch.txt") (strOf "S") ∈ (start_note c6state nowJan).noting_area ∧
    (finish_note c6state nowJan).1.noting_area = [] := by
  have h := c6_filtered_clear_amended c6state nowJan
    (Item.file (strOf "scratch.txt") (strOf "S")) (by decide) (by decide)
  exact ⟨h.1, h.2.1 (by decide), h.2.2 (by decide)⟩

end Notes

namespace Notes

/-! Claim C9: the asset filter of the archive copy. -/

/-- C9: the archive copy of finish (copy_with_asset_filter into the fresh
date folder) copies the README and exactly the asset files whose names the
document references through the literal embed syntax; every unreferenced
asset file is excluded. -/
theorem c9_asset_filter (noting : List Item) (doc : Str) (aname : Str)
    (fs : List (Str × Str))
    (hlook : lookupItem noting (strOf "README.md")
      = some (Item.file (strOf "README.md") doc))
    (hint : get_files_of_interest noting
      = [Item.file (strOf "README.md") doc, Item.dir aname fs])
    (ha : pyLower aname = strOf "assets") :
    copy_with_asset_filter noting []
      = [Item.file (strOf "README.md") doc,
         Item.dir aname (fs.filter fun f => (get_referenced_assets doc).contains f.1)] ∧
    ∀ f : Str × Str,
      (f ∈ fs.filter fun f => (get_referenced_assets doc).contains f.1) ↔
        (f ∈ fs ∧ (get_referenced_assets doc).contains f.1 = true) := by
  have hne : (strOf "README.md" == aname) = false := by
    cases hb : strOf "README.md" == aname with
    | false => rfl
    | true =>
      exfalso
      rw [← eq_of_beq hb] at ha
      exact absurd ha (by decide)
  have hassets : (pyLower aname == strOf "assets") = true := by
    rw [ha]
    exact beq_self_eq_true _
  constructor
  · unfold copy_with_asset_filter
    rw [hlook, hint]
    simp only [List.foldl_cons, List.foldl_nil]
    unfold copyItemInto upsertItem lookupItem mergeFiles
    simp [itemName, hne, hassets]
  · intro f
    simp [List.mem_filter]

/-- The P4 working area: a document referencing photo1.jpg only, an assets
folder holding photo1.jpg and photo2.jpg. -/
def c9noting : List Item :=
  [Item.file (strOf "README.md") (strOf "![x](./assets/photo1.jpg)"),
   Item.dir (strOf "assets") [(strOf "photo1.jpg", strOf "A"), (strOf "photo2.jpg", strOf "B")]]

/-- C9 witness: only photo1.jpg is archived. -/
theorem c9_asset_filter_witness :
    copy_with_asset_filter c9noting []
      = [Item.file (strOf "README.md") (strOf "![x](./assets/photo1.jpg)"),
         Item.dir (strOf "assets") [(strOf "photo1.jpg", strOf "A")]] :=
  ((c9_asset_filter c9noting (strOf "![x](./assets/photo1.jpg)") (strOf "assets")
      [(strOf "photo1.jpg", strOf "A"), (strOf "photo2.jpg", strOf "B")]
      (by decide) (by decide) (by decide)).1).trans (by decide)

end Notes

namespace Notes

/-! Specifications of the search primitives (phase one of the IndexEditor
verification). -/

theorem firstIdxAux_eq_some_iff {p : Nat → Bool} {start fuel i : Nat} :
    firstIdxAux p start fuel = some i ↔
      start ≤ i ∧ i < start + fuel ∧ p i = true ∧ ∀ j, start ≤ j → j < i → p j = false := by
  induction fuel generalizing start with
  | zero =>
    simp only [firstIdxAux]
    constructor
    · intro h; cases h
    · rintro ⟨h1, h2, _, _⟩; omega
  | succ fuel ih =>
    simp only [firstIdxAux]
    by_cases hp : p start = true
    · rw [if_pos hp]
      constructor
      · intro h
        cases h
        exact ⟨le_refl _, by omega, hp, fun j h1 h2 => absurd (lt_of_le_of_lt h1 h2) (lt_irrefl _)⟩
      · rintro ⟨h1, h2, h3, h4⟩
        by_cases hse : start = i
        · rw [hse]
        · have hlt : start < i := by omega
          have := h4 start (le_refl _) hlt
          rw [hp] at this
          cases this
    · rw [if_neg hp]
      rw [ih]
      have hps : p start = false := by
        cases hb : p start
        · rfl
        · exact absurd hb hp
      constructor
      · rintro ⟨h1, h2, h3, h4⟩
        refine ⟨by omega, by omega, h3, fun j hj1 hj2 => ?_⟩
        by_cases hje : j = start
        · rw [hje]; exact hps
        · exact h4 j (by omega) hj2
      · rintro ⟨h1, h2, h3, h4⟩
        have hne : start ≠ i := by
          rintro rfl
          exact hp h3
        exact ⟨by omega, by omega, h3, fun j hj1 hj2 => h4 j (by omega) hj2⟩

theorem firstIdxAux_eq_none_iff {p : Nat → Bool} {start fuel : Nat} :
    firstIdxAux p start fuel = none ↔ ∀ j, start ≤ j → j < start + fuel → p j = false := by
  induction fuel generalizing start with
  | zero =>
    simp only [firstIdxAux]
    constructor
    · intro _ j h1 h2
      omega
    · intro _
      trivial
  | succ fuel ih =>
    simp only [firstIdxAux]
    by_cases hp : p start = true
    · rw [if_pos hp]
      constructor
      · intro h; cases h
      · intro h
        have := h start (le_refl _) (by omega)
        rw [hp] at this
        cases this
    · rw [if_neg hp]
      rw [ih]
      have hps : p start = false := by
        cases hb : p start
        · rfl
        · exact absurd hb hp
      constructor
      · intro h j h1 h2
        by_cases hje : j = start
        · rw [hje]; exact hps
        · exact h j (by omega) (by omega)
      · intro h j h1 h2
        exact h j (by omega) (by omega)

theorem matchesAt_le_length {s pat : Str} {i : Nat} (hne : pat ≠ [])
    (h : matchesAt s pat i = true) : i < s.length := by
  unfold matchesAt at h
  have hpre : pat <+: s.drop i := List.isPrefixOf_iff_prefix.mp h
  have hlen : pat.length ≤ (s.drop i).length := hpre.length_le
  rw [List.length_drop] at hlen
  have : 0 < pat.length := List.length_pos.mpr hne
  omega

theorem findSubFrom_eq_some_of {s pat : Str} {start i : Nat} (hne : pat ≠ [])
    (hle : start ≤ i) (hm : matchesAt s pat i = true)
    (hfirst : ∀ j, start ≤ j → j < i → matchesAt s pat j = false) :
    findSubFrom s pat start = some i := by
  unfold findSubFrom
  rw [firstIdxAux_eq_some_iff]
  have hi := matchesAt_le_length hne hm
  exact ⟨hle, by omega, hm, hfirst⟩

theorem findSubFrom_eq_none_of {s pat : Str} {start : Nat}
    (h : ∀ j, start ≤ j → matchesAt s pat j = false) :
    findSubFrom s pat start = none := by
  unfold findSubFrom
  rw [firstIdxAux_eq_none_iff]
  exact fun j h1 _ => h j h1

theorem findCharFrom_eq_some_of {s : Str} {c : Char} {start i : Nat}
    (hle : start ≤ i) (hm : s.get? i = some c)
    (hfirst : ∀ j, start ≤ j → j < i → s.get? j ≠ some c) :
    findCharFrom s c start = some i := by
  unfold findCharFrom
  rw [firstIdxAux_eq_some_iff]
  have hi : i < s.length := by
    by_contra hcon
    rw [List.get?_eq_none.mpr (by omega)] at hm
    cases hm
  refine ⟨hle, by omega, by rw [hm]; exact beq_self_eq_true _, fun j h1 h2 => ?_⟩
  cases hj : s.get? j == some c
  · rfl
  · exact absurd (eq_of_beq hj) (hfirst j h1 h2)

theorem findCharFrom_eq_none_of {s : Str} {c : Char} {start : Nat}
    (h : ∀ j, start ≤ j → s.get? j ≠ some c) :
    findCharFrom s c start = none := by
  unfold findCharFrom
  rw [firstIdxAux_eq_none_iff]
  intro j h1 _
  cases hj : s.get? j == some c
  · rfl
  · exact absurd (eq_of_beq hj) (h j h1)

theorem rfindAux_eq_some_iff {p : Nat → Bool} {hi i : Nat} :
    rfindAux p hi = some i ↔ i < hi ∧ p i = true ∧ ∀ j, i < j → j < hi → p j = false := by
  induction hi with
  | zero =>
    simp only [rfindAux]
    constructor
    · intro h; cases h
    · rintro ⟨h1, _, _⟩; omega
  | succ hi ih =>
    simp only [rfindAux]
    by_cases hp : p hi = true
    · rw [if_pos hp]
      constructor
      · intro h
        cases h
        exact ⟨by omega, hp, fun j h1 h2 => by omega⟩
      · rintro ⟨h1, h2, h3⟩
        by_cases hie : i = hi
        · rw [hie]
        · have := h3 hi (by omega) (by omega)
          rw [hp] at this
          cases this
    · rw [if_neg hp]
      rw [ih]
      have hps : p hi = false := by
        cases hb : p hi
        · rfl
        · exact absurd hb hp
      constructor
      · rintro ⟨h1, h2, h3⟩
        have hne : i ≠ hi := by
          rintro rfl
          exact hp h2
        refine ⟨by omega, h2, fun j hj1 hj2 => ?_⟩
        by_cases hje : j = hi
        · rw [hje]; exact hps
        · exact h3 j hj1 (by omega)
      · rintro ⟨h1, h2, h3⟩
        have hne : i ≠ hi := by
          rintro rfl
          rw [hps] at h2
          cases h2
        exact ⟨by omega, h2, fun j hj1 hj2 => h3 j hj1 (by omega)⟩

theorem rfindCharBefore_eq_some_of {s : Str} {c : Char} {hi i : Nat}
    (hm : s.get? i = some c) (hlt : i < hi)
    (hlast : ∀ j, i < j → j < hi → s.get? j ≠ some c) :
    rfindCharBefore s c hi = some i := by
  unfold rfindCharBefore
  rw [rfindAux_eq_some_iff]
  have hil : i < s.length := by
    by_contra hcon
    rw [List.get?_eq_none.mpr (by omega)] at hm
    cases hm
  refine ⟨by omega, by rw [hm]; exact beq_self_eq_true _, fun j h1 h2 => ?_⟩
  cases hj : s.get? j == some c
  · rfl
  · exact absurd (eq_of_beq hj) (hlast j h1 (by omega))

end Notes

namespace Notes

/-! Infrastructure relating joined documents to their line lists (phase two of
the IndexEditor verification). -/

/-- Every line of the list is newline-free. -/
def nlFree (ls : List Str) : Prop := ∀ l ∈ ls, '\n' ∉ l

theorem joinNl_cons {ls : List Str} (l : Str) (h : ls ≠ []) :
    joinNl (l :: ls) = l ++ '\n' :: joinNl ls := by
  cases ls with
  | nil => cases h rfl
  | cons a as => rfl

theorem pySplitChar_ne_nil (sep : Char) (s : Str) : pySplitChar sep s ≠ [] := by
  cases s with
  | nil => simp [pySplitChar]
  | cons c rest =>
    unfold pySplitChar
    cases hr : pySplitChar sep rest with
    | nil => by_cases hc : c = sep <;> simp [hc]
    | cons a as => by_cases hc : c = sep <;> simp [hc]

theorem splitNl_single {l : Str} (h : '\n' ∉ l) : splitNl l = [l] := by
  induction l with
  | nil => rfl
  | cons c rest ih =>
    have hc : c ≠ '\n' := fun hcc => h (hcc ▸ List.mem_cons_self c rest)
    have hrest : '\n' ∉ rest := fun hm => h (List.mem_cons_of_mem c hm)
    have h2 : pySplitChar '\n' rest = [rest] := ih hrest
    show pySplitChar '\n' (c :: rest) = [c :: rest]
    rw [pySplitChar, h2]
    simp [hc]

theorem splitNl_cons_line {l rest : Str} (h : '\n' ∉ l) :
    splitNl (l ++ '\n' :: rest) = l :: splitNl rest := by
  induction l with
  | nil =>
    show pySplitChar '\n' ('\n' :: rest) = [] :: pySplitChar '\n' rest
    cases hr : pySplitChar '\n' rest with
    | nil => exact absurd hr (pySplitChar_ne_nil _ _)
    | cons a as =>
      rw [pySplitChar, hr]
      simp
  | cons c cs ih =>
    have hc : c ≠ '\n' := fun hcc => h (hcc ▸ List.mem_cons_self c cs)
    have hcs : '\n' ∉ cs := fun hm => h (List.mem_cons_of_mem c hm)
    have h2 : pySplitChar '\n' (cs ++ '\n' :: rest) = cs :: pySplitChar '\n' rest := ih hcs
    show pySplitChar '\n' (c :: (cs ++ '\n' :: rest)) = (c :: cs) :: pySplitChar '\n' rest
    rw [pySplitChar, h2]
    simp [hc]

theorem splitNl_joinNl : ∀ {ls : List Str}, ls ≠ [] → nlFree ls → splitNl (joinNl ls) = ls
  | [], h, _ => absurd rfl h
  | [l], _, hnl => by
    unfold joinNl
    exact splitNl_single (hnl l (List.mem_cons_self l []))
  | l :: l' :: ls, _, hnl => by
    rw [joinNl_cons l (by simp)]
    rw [splitNl_cons_line (hnl l (List.mem_cons_self _ _))]
    rw [splitNl_joinNl (by simp) (fun x hx => hnl x (List.mem_cons_of_mem l hx))]

/-- Character index of the start of line k in the joined document. -/
def linePos : List Str → Nat → Nat
  | _, 0 => 0
  | [], _ + 1 => 0
  | l :: ls, k + 1 => l.length + 1 + linePos ls k

theorem joinNl_length : ∀ {ls : List Str}, ls ≠ [] →
    (joinNl ls).length + 1 = linePos ls ls.length
  | [], h => absurd rfl h
  | [l], _ => by simp [joinNl, linePos]
  | l :: l' :: ls, _ => by
    rw [joinNl_cons l (by simp)]
    have hrec := @joinNl_length (l' :: ls) (by simp)
    show (l ++ '\n' :: joinNl (l' :: ls)).length + 1
      = linePos (l :: l' :: ls) ((l' :: ls).length + 1)
    rw [show linePos (l :: l' :: ls) ((l' :: ls).length + 1)
      = l.length + 1 + linePos (l' :: ls) (l' :: ls).length from rfl]
    simp only [List.length_append, List.length_cons] at hrec ⊢
    omega

theorem linePos_le_of_le : ∀ (ls : List Str) (j k : Nat), j ≤ k →
    linePos ls j ≤ linePos ls k := by
  intro ls
  induction ls with
  | nil =>
    intro j k _
    cases j <;> cases k <;> simp [linePos]
  | cons l rest ih =>
    intro j k hjk
    cases j with
    | zero => simp [linePos]
    | succ j' =>
      cases k with
      | zero => omega
      | succ k' =>
        simp only [linePos]
        have := ih j' k' (by omega)
        omega

theorem drop_append_len : ∀ (a b : Str) (n : Nat), (a ++ b).drop (a.length + n) = b.drop n := by
  intro a
  induction a with
  | nil => intro b n; simp
  | cons c cs ih =>
    intro b n
    simp only [List.cons_append, List.length_cons]
    rw [show cs.length + 1 + n = (cs.length + n) + 1 by omega]
    rw [List.drop_succ_cons]
    exact ih b n

theorem take_append_len : ∀ (a b : Str) (n : Nat), (a ++ b).take (a.length + n) = a ++ b.take n := by
  intro a
  induction a with
  | nil => intro b n; simp
  | cons c cs ih =>
    intro b n
    simp only [List.cons_append, List.length_cons]
    rw [show cs.length + 1 + n = (cs.length + n) + 1 by omega]
    rw [List.take_succ_cons]
    rw [ih b n]

theorem joinNl_drop : ∀ (ls : List Str) (k : Nat), k < ls.length →
    (joinNl ls).drop (linePos ls k) = joinNl (ls.drop k) := by
  intro ls
  induction ls with
  | nil => intro k h; simp at h
  | cons l rest ih =>
    intro k hk
    cases k with
    | zero => simp [linePos]
    | succ k' =>
      have hrest : rest ≠ [] := by
        intro hcon
        rw [hcon] at hk
        simp at hk
      rw [joinNl_cons l hrest]
      simp only [linePos, List.drop_succ_cons]
      rw [show l ++ '\n' :: joinNl rest = (l ++ ['\n']) ++ joinNl rest by simp]
      rw [show l.length + 1 + linePos rest k' = (l ++ ['\n']).length + linePos rest k' by simp]
      rw [drop_append_len]
      exact ih k' (by simpa using hk)

end Notes

namespace Notes

/-- Character length of a line block, each line counted with its newline. -/
def preLen (A : List Str) : Nat := (A.map fun l => l.length + 1).sum

theorem preLen_append (A B : List Str) : preLen (A ++ B) = preLen A + preLen B := by
  unfold preLen
  rw [List.map_append, List.sum_append]

theorem preLen_cons (l : Str) (A : List Str) : preLen (l :: A) = l.length + 1 + preLen A := by
  unfold preLen
  simp

theorem linePos_append (A B : List Str) : linePos (A ++ B) A.length = preLen A := by
  induction A with
  | nil => simp [linePos, preLen]
  | cons l rest ih =>
    show linePos (l :: (rest ++ B)) (rest.length + 1) = preLen (l :: rest)
    rw [show linePos (l :: (rest ++ B)) (rest.length + 1)
      = l.length + 1 + linePos (rest ++ B) rest.length from rfl]
    rw [ih, preLen_cons]

theorem linePos_self (A : List Str) : linePos A A.length = preLen A := by
  have := linePos_append A []
  rw [List.append_nil] at this
  exact this

theorem preLen_eq_joinNl_length {A : List Str} (hA : A ≠ []) :
    preLen A = (joinNl A).length + 1 := by
  rw [← linePos_self A]
  exact (joinNl_length hA).symm

theorem joinNl_append (A B : List Str) (hA : A ≠ []) (hB : B ≠ []) :
    joinNl (A ++ B) = joinNl A ++ '\n' :: joinNl B := by
  induction A with
  | nil => cases hA rfl
  | cons l rest ih =>
    by_cases hrne : rest = []
    · subst hrne
      show joinNl (l :: B) = joinNl [l] ++ '\n' :: joinNl B
      rw [joinNl_cons l hB]
      rfl
    · have hrB : rest ++ B ≠ [] := by
        intro hcon
        exact hrne (List.append_eq_nil.mp hcon).1
      rw [List.cons_append, joinNl_cons l hrB, ih hrne, joinNl_cons l hrne]
      simp

theorem joinNl_drop_pre (A B : List Str) (hB : B ≠ []) :
    (joinNl (A ++ B)).drop (preLen A) = joinNl B := by
  by_cases hA : A = []
  · subst hA
    simp [preLen]
  · rw [joinNl_append A B hA hB]
    rw [show joinNl A ++ '\n' :: joinNl B = (joinNl A ++ ['\n']) ++ joinNl B by simp]
    rw [preLen_eq_joinNl_length hA,
      show (joinNl A).length + 1 = (joinNl A ++ ['\n']).length + 0 by simp]
    rw [drop_append_len]
    rfl

theorem joinNl_take_pre (A B : List Str) (hA : A ≠ []) (hB : B ≠ []) :
    (joinNl (A ++ B)).take (preLen A - 1) = joinNl A := by
  rw [joinNl_append A B hA hB]
  rw [preLen_eq_joinNl_length hA]
  simp only [Nat.add_sub_cancel]
  rw [List.take_append_of_le_length (le_refl _)]
  exact List.take_length ..

theorem joinNl_take_pre_nl (A B : List Str) (hA : A ≠ []) (hB : B ≠ []) :
    (joinNl (A ++ B)).take (preLen A) = joinNl A ++ ['\n'] := by
  rw [joinNl_append A B hA hB]
  rw [show joinNl A ++ '\n' :: joinNl B = (joinNl A ++ ['\n']) ++ joinNl B by simp]
  rw [preLen_eq_joinNl_length hA,
    show (joinNl A).length + 1 = (joinNl A ++ ['\n']).length + 0 by simp]
  rw [take_append_len]
  simp

theorem matchesAt_iff_pref {s pat : Str} {i : Nat} :
    matchesAt s pat i = true ↔ pat <+: s.drop i := by
  unfold matchesAt
  exact List.isPrefixOf_iff_prefix

theorem matchesAt_bound {s pat : Str} {i : Nat} (hne : pat ≠ [])
    (h : matchesAt s pat i = true) : i + pat.length ≤ s.length := by
  have hpre := matchesAt_iff_pref.mp h
  have hlen := hpre.length_le
  rw [List.length_drop] at hlen
  have hpos : 0 < pat.length := List.length_pos.mpr hne
  by_cases hi : i ≤ s.length
  · omega
  · exfalso
    have hd : s.drop i = [] := List.drop_eq_nil_of_le (by omega)
    rw [hd] at hpre
    exact hne (List.prefix_nil.mp hpre)

theorem matchesAt_joinNl_pre {A B : List Str} {pat : Str} {t : Nat} (hB : B ≠ []) :
    matchesAt (joinNl (A ++ B)) pat (preLen A + t) = matchesAt (joinNl B) pat t := by
  unfold matchesAt
  rw [← List.drop_drop, joinNl_drop_pre A B hB]

end Notes

namespace Notes

theorem isPrefixOf_append_eq_left {pat x z : Str} (h : pat.length ≤ x.length) :
    List.isPrefixOf pat (x ++ z) = List.isPrefixOf pat x := by
  cases hm : List.isPrefixOf pat x with
  | true =>
    have hpre := List.isPrefixOf_iff_prefix.mp hm
    exact List.isPrefixOf_iff_prefix.mpr (hpre.trans (List.prefix_append x z))
  | false =>
    cases hmm : List.isPrefixOf pat (x ++ z) with
    | false => rfl
    | true =>
      exfalso
      have hpre := List.isPrefixOf_iff_prefix.mp hmm
      have heq : pat = (x ++ z).take pat.length := List.prefix_iff_eq_take.mp hpre
      rw [List.take_append_of_le_length h] at heq
      have hp : pat <+: x := by
        rw [heq]
        exact List.take_prefix _ _
      rw [List.isPrefixOf_iff_prefix.mpr hp] at hm
      cases hm

theorem matchesAt_head_eq {l : Str} {B : List Str} {pat : Str} {t : Nat} (hB : B ≠ [])
    (hfit : t + pat.length ≤ l.length) :
    matchesAt (joinNl (l :: B)) pat t = matchesAt l pat t := by
  rw [joinNl_cons l hB]
  unfold matchesAt
  rw [List.drop_append_of_le_length (by omega : t ≤ l.length)]
  exact isPrefixOf_append_eq_left (by rw [List.length_drop]; omega)

theorem matchesAt_head_overflow {l : Str} {B : List Str} {pat : Str} {t : Nat} (hB : B ≠ [])
    (hnl : '\n' ∉ pat) (ht : t ≤ l.length) (hov : l.length < t + pat.length) :
    matchesAt (joinNl (l :: B)) pat t = false := by
  rw [joinNl_cons l hB]
  cases hm : matchesAt (l ++ '\n' :: joinNl B) pat t with
  | false => rfl
  | true =>
    exfalso
    have hpre := matchesAt_iff_pref.mp hm
    rw [List.drop_append_of_le_length ht] at hpre
    have hidx : (l.drop t ++ '\n' :: joinNl B).get? (l.length - t) = some '\n' := by
      rw [List.get?_append_right (by rw [List.length_drop])]
      simp [List.length_drop]
    have hpeq : pat = (l.drop t ++ '\n' :: joinNl B).take pat.length :=
      List.prefix_iff_eq_take.mp hpre
    have hget : pat.get? (l.length - t) = some '\n' := by
      rw [hpeq, List.get?_take (by omega)]
      exact hidx
    exact hnl (List.get?_mem hget)

theorem matchesAt_joinNl_elim : ∀ {ls : List Str} {pat : Str} {i : Nat},
    nlFree ls → '\n' ∉ pat → pat ≠ [] → matchesAt (joinNl ls) pat i = true →
    ∃ A l B t, ls = A ++ l :: B ∧ i = preLen A + t ∧ t + pat.length ≤ l.length ∧
      matchesAt l pat t = true := by
  intro ls
  induction ls with
  | nil =>
    intro pat i _ _ hne h
    exfalso
    have hb := matchesAt_bound hne h
    have hp : 0 < pat.length := List.length_pos.mpr hne
    have : (joinNl []).length = 0 := rfl
    omega
  | cons l B ih =>
    intro pat i hnlf hnl hne h
    by_cases hB : B = []
    · subst hB
      have hb := matchesAt_bound hne h
      have hlen : (joinNl [l]).length = l.length := rfl
      exact ⟨[], l, [], i, rfl, by simp [preLen], by omega, h⟩
    · by_cases hfit : i + pat.length ≤ l.length
      · exact ⟨[], l, B, i, rfl, by simp [preLen], hfit,
          by rw [← matchesAt_head_eq hB hfit]; exact h⟩
      · by_cases hin : i ≤ l.length
        · exfalso
          rw [matchesAt_head_overflow hB hnl hin (by omega)] at h
          cases h
        · have hpl : preLen [l] = l.length + 1 := by simp [preLen]
          have ht' : i = preLen [l] + (i - (l.length + 1)) := by omega
          have h2 : matchesAt (joinNl ([l] ++ B)) pat
              (preLen [l] + (i - (l.length + 1))) = true := by
            rw [← ht']
            exact h
          rw [matchesAt_joinNl_pre hB] at h2
          obtain ⟨A', l', B', t, hBd, hit, hfit', hm⟩ :=
            ih (fun x hx => hnlf x (List.mem_cons_of_mem l hx)) hnl hne h2
          refine ⟨l :: A', l', B', t, by rw [hBd]; rfl, ?_, hfit', hm⟩
          rw [preLen_cons]
          omega

theorem matchesAt_joinNl_nlpat_elim : ∀ {ls : List Str} {q : Str} {i : Nat},
    nlFree ls → matchesAt (joinNl ls) ('\n' :: q) i = true →
    ∃ A l B, ls = A ++ l :: B ∧ B ≠ [] ∧ i = preLen A + l.length ∧
      matchesAt (joinNl B) q 0 = true := by
  intro ls
  induction ls with
  | nil =>
    intro q i _ h
    exfalso
    have hb := matchesAt_bound (by simp) h
    have : (joinNl []).length = 0 := rfl
    simp at hb
    omega
  | cons l B ih =>
    intro q i hnlf h
    have hnll : '\n' ∉ l := hnlf l (List.mem_cons_self _ _)
    by_cases hB : B = []
    · subst hB
      exfalso
      have hpre := matchesAt_iff_pref.mp h
      have hhead : (joinNl [l]).get? i = some '\n' := by
        have heq : '\n' :: q = ((joinNl [l]).drop i).take ('\n' :: q).length :=
          List.prefix_iff_eq_take.mp hpre
        have : ((joinNl [l]).drop i).get? 0 = some '\n' := by
          rw [← List.get?_take (by simp : 0 < ('\n' :: q).length), ← heq]
          rfl
        rw [List.get?_drop] at this
        rw [← this]
        norm_num
      exact hnll (List.get?_mem hhead)
    · by_cases hin : i < l.length
      · exfalso
        have hpre := matchesAt_iff_pref.mp h
        rw [joinNl_cons l hB, List.drop_append_of_le_length (by omega)] at hpre
        have hhead : (l.drop i ++ '\n' :: joinNl B).get? 0 = some '\n' := by
          have heq : '\n' :: q = (l.drop i ++ '\n' :: joinNl B).take ('\n' :: q).length :=
            List.prefix_iff_eq_take.mp hpre
          rw [← List.get?_take (by simp : 0 < ('\n' :: q).length), ← heq]
          rfl
        rw [List.get?_append (by rw [List.length_drop]; omega)] at hhead
        rw [List.get?_drop] at hhead
        exact hnll (List.get?_mem hhead)
      · by_cases hie : i = l.length
        · subst hie
          refine ⟨[], l, B, rfl, hB, by simp [preLen], ?_⟩
          have hpre := matchesAt_iff_pref.mp h
          rw [joinNl_cons l hB, List.drop_append_of_le_length (le_refl _),
            List.drop_length] at hpre
          simp only [List.nil_append] at hpre
          rw [matchesAt_iff_pref]
          rw [List.drop_zero]
          exact (List.cons_prefix_cons.mp hpre).2
        · have hpl : preLen [l] = l.length + 1 := by simp [preLen]
          have ht' : i = preLen [l] + (i - (l.length + 1)) := by omega
          have h2 : matchesAt (joinNl ([l] ++ B)) ('\n' :: q)
              (preLen [l] + (i - (l.length + 1))) = true := by
            rw [← ht']
            exact h
          rw [matchesAt_joinNl_pre hB] at h2
          obtain ⟨A', l', B', hBd, hB', hit, hm⟩ :=
            ih (fun x hx => hnlf x (List.mem_cons_of_mem l hx)) h2
          refine ⟨l :: A', l', B', by rw [hBd]; rfl, hB', ?_, hm⟩
          rw [preLen_cons]
          omega

theorem matchesAt_joinNl_nlpat_intro {A : List Str} {l : Str} {B : List Str} {q : Str}
    (hB : B ≠ []) (hq : matchesAt (joinNl B) q 0 = true) :
    matchesAt (joinNl (A ++ l :: B)) ('\n' :: q) (preLen A + l.length) = true := by
  have hcons : matchesAt (joinNl (l :: B)) ('\n' :: q) l.length = true := by
    rw [matchesAt_iff_pref]
    rw [joinNl_cons l hB, List.drop_append_of_le_length (le_refl _), List.drop_length]
    simp only [List.nil_append]
    rw [matchesAt_iff_pref, List.drop_zero] at hq
    exact List.cons_prefix_cons.mpr ⟨rfl, hq⟩
  have := @matchesAt_joinNl_pre A (l :: B) ('\n' :: q) l.length (by simp)
  rw [this]
  exact hcons

theorem matchesAt_joinNl_intro {A : List Str} {l : Str} {B : List Str} {pat : Str} {t : Nat}
    (hfit : t + pat.length ≤ l.length) (hne : pat ≠ [])
    (hm : matchesAt l pat t = true) :
    matchesAt (joinNl (A ++ l :: B)) pat (preLen A + t) = true := by
  have hpre := @matchesAt_joinNl_pre A (l :: B) pat t (by simp)
  rw [hpre]
  by_cases hB : B = []
  · subst hB
    exact hm
  · rw [matchesAt_head_eq hB hfit]
    exact hm

end Notes

namespace Notes

/-! Structured well-formed year documents (phase three of the IndexEditor
verification).  A document is a preamble, a list of month sections (a header
line and link lines separated by blank lines), a sentinel line and trailing
lines; rendering joins the lines with newlines.  The claims C1 and C8 are
settled for rendered documents. -/

/-- A link entry: display text, two-digit month directory, eight-digit date
folder. -/
structure MLink where
  disp : Str
  mm : Str
  date : Str
deriving DecidableEq, Repr

/-- The line a link renders to (the exact shape update_year_readme writes and
the removal pattern matches). -/
def renderLink (l : MLink) : Str :=
  strOf "[_" ++ l.disp ++ strOf "_](./" ++ l.mm ++ '/' :: l.date ++ strOf "/)"

/-- A month section: its name and its links. -/
structure MSec where
  name : Str
  links : List MLink
deriving DecidableEq, Repr

/-- Lines of a section: the header, a blank line, then each link followed by a
blank line. -/
def secLines (sec : MSec) : List Str :=
  (strOf "## " ++ sec.name) :: ([] : Str) :: sec.links.bind fun l => [renderLink l, []]

/-- A structured year document. -/
structure YDoc where
  pre : List Str
  secs : List MSec
  trail : List Str
deriving DecidableEq, Repr

/-- Lines of a document: preamble, sections, the sentinel, trailing lines. -/
def docLines (d : YDoc) : List Str :=
  d.pre ++ (d.secs.bind secLines) ++ [strOf "<br/>"] ++ d.trail

/-- Rendered document. -/
def renderDoc (d : YDoc) : Str := joinNl (docLines d)

/-- Whether a string occurs somewhere in another. -/
def containsSub (s pat : Str) : Bool := (findSubFrom s pat 0).isSome

/-- Characters allowed in display text: anything but newline, brackets,
parentheses and the hash. -/
def okDispChar (c : Char) : Bool :=
  !(c == '\n' || c == '[' || c == ']' || c == '(' || c == ')' || c == '#')

/-- Well-formed link. -/
def linkWfb (l : MLink) : Bool :=
  l.disp.all okDispChar && l.mm.length == 2 && l.mm.all pyIsDigit
    && l.date.length == 8 && l.date.all pyIsDigit

/-- Safe preamble or trailing line: no newline, no double hash, no bracket,
and not starting with the sentinel. -/
def lsafeb (l : Str) : Bool :=
  !(l.contains '\n') && !(containsSub l (strOf "##")) && !(l.contains '[')
    && !(pyStartsWith l (strOf "<br/>"))

/-- Well-formed section: nonempty word-character name, well-formed links. -/
def secWfb (sec : MSec) : Bool :=
  !sec.name.isEmpty && sec.name.all isWordChar && sec.links.all linkWfb

/-- No name in the list is a prefix of another. -/
def namesPrefixFree : List Str → Bool
  | [] => true
  | n :: ns => ns.all (fun m => !(n.isPrefixOf m) && !(m.isPrefixOf n)) && namesPrefixFree ns

/-- All date folder names of the document, in order. -/
def docDates (d : YDoc) : List Str := d.secs.bind fun sec => sec.links.map fun l => l.date

/-- Pairwise distinct strings. -/
def pairwiseNeStr : List Str → Bool
  | [] => true
  | x :: xs => xs.all (fun y => !(x == y)) && pairwiseNeStr xs

/-- Well-formed document. -/
def docWfb (d : YDoc) : Bool :=
  (d.pre ++ d.trail).all lsafeb && d.secs.all secWfb
    && namesPrefixFree (d.secs.map fun sec => sec.name)
    && pairwiseNeStr (docDates d)

end Notes

namespace Notes

/-! Character inventories of the rendered line kinds. -/

theorem strOf_chars {s : String} {c : Char} (h : c ∈ strOf s) : c ∈ s.data := h

theorem renderLink_eq_cons (l : MLink) :
    renderLink l = '[' :: '_' ::
      (l.disp ++ '_' :: ']' :: '(' :: '.' :: '/' ::
        (l.mm ++ '/' :: (l.date ++ [ '/', ')' ]))) := by
  unfold renderLink strOf
  simp

theorem mem_renderLink {l : MLink} {c : Char} (h : c ∈ renderLink l) :
    c ∈ l.disp ∨ c ∈ l.mm ∨ c ∈ l.date ∨
      c ∈ ([ '[', '_', ']', '(', '.', '/', ')' ] : Str) := by
  rw [renderLink_eq_cons] at h
  simp only [List.mem_cons, List.mem_append] at h
  rcases h with rfl | h
  · right; right; right; simp
  rcases h with rfl | h
  · right; right; right; simp
  rcases h with h | h
  · exact Or.inl h
  rcases h with rfl | h
  · right; right; right; simp
  rcases h with rfl | h
  · right; right; right; simp
  rcases h with rfl | h
  · right; right; right; simp
  rcases h with rfl | h
  · right; right; right; simp
  rcases h with rfl | h
  · right; right; right; simp
  rcases h with h | h
  · right; left; exact h
  rcases h with rfl | h
  · right; right; right; simp
  rcases h with h | h
  · right; right; left; exact h
  rcases h with rfl | h
  · right; right; right; simp
  rcases h with rfl | h
  · right; right; right; simp
  cases h

theorem pyIsDigit_char_facts {c : Char} (h : pyIsDigit c = true) :
    c ≠ '\n' ∧ c ≠ '#' ∧ c ≠ '[' ∧ c ≠ ']' ∧ c ≠ '<' := by
  unfold pyIsDigit at h
  rw [Bool.and_eq_true] at h
  obtain ⟨h1, h2⟩ := h
  rw [decide_eq_true_iff] at h1 h2
  refine ⟨?_, ?_, ?_, ?_, ?_⟩ <;> (rintro rfl; revert h1 h2; decide)

theorem okDispChar_facts {c : Char} (h : okDispChar c = true) :
    c ≠ '\n' ∧ c ≠ '[' ∧ c ≠ ']' ∧ c ≠ '(' ∧ c ≠ ')' ∧ c ≠ '#' := by
  unfold okDispChar at h
  simp only [Bool.not_eq_true', Bool.or_eq_false_iff] at h
  obtain ⟨⟨⟨⟨⟨h1, h2⟩, h3⟩, h4⟩, h5⟩, h6⟩ := h
  refine ⟨?_, ?_, ?_, ?_, ?_, ?_⟩ <;>
    (rintro rfl; simp_all)

theorem isWordChar_facts {c : Char} (h : isWordChar c = true) :
    c ≠ '\n' ∧ c ≠ '#' ∧ c ≠ '[' ∧ c ≠ '<' ∧ c ≠ ' ' := by
  unfold isWordChar at h
  rw [Bool.or_eq_true] at h
  rcases h with h | h
  · rw [Char.isAlphanum] at h
    rw [Bool.or_eq_true] at h
    rcases h with h | h
    · rw [Char.isAlpha] at h
      rw [Bool.or_eq_true] at h
      rcases h with h | h
      · rw [Char.isUpper] at h
        rw [Bool.and_eq_true, decide_eq_true_iff, decide_eq_true_iff] at h
        refine ⟨?_, ?_, ?_, ?_, ?_⟩ <;>
          (rintro rfl; revert h; decide)
      · rw [Char.isLower] at h
        rw [Bool.and_eq_true, decide_eq_true_iff, decide_eq_true_iff] at h
        refine ⟨?_, ?_, ?_, ?_, ?_⟩ <;>
          (rintro rfl; revert h; decide)
    · rw [Char.isDigit] at h
      rw [Bool.and_eq_true, decide_eq_true_iff, decide_eq_true_iff] at h
      refine ⟨?_, ?_, ?_, ?_, ?_⟩ <;>
        (rintro rfl; revert h; decide)
  · rw [beq_iff_eq] at h
    subst h
    refine ⟨?_, ?_, ?_, ?_, ?_⟩ <;> decide

theorem linkWf_no_newline {l : MLink} (h : linkWfb l = true) : '\n' ∉ renderLink l := by
  intro hc
  unfold linkWfb at h
  simp only [Bool.and_eq_true] at h
  obtain ⟨⟨⟨⟨hdisp, _⟩, hmm⟩, _⟩, hdate⟩ := h
  rcases mem_renderLink hc with hd | hm | hda | hlit
  · exact (okDispChar_facts (List.all_eq_true.mp hdisp _ hd)).1 rfl
  · exact (pyIsDigit_char_facts (List.all_eq_true.mp hmm _ hm)).1 rfl
  · exact (pyIsDigit_char_facts (List.all_eq_true.mp hdate _ hda)).1 rfl
  · simp at hlit

theorem linkWf_no_hash {l : MLink} (h : linkWfb l = true) : '#' ∉ renderLink l := by
  intro hc
  unfold linkWfb at h
  simp only [Bool.and_eq_true] at h
  obtain ⟨⟨⟨⟨hdisp, _⟩, hmm⟩, _⟩, hdate⟩ := h
  rcases mem_renderLink hc with hd | hm | hda | hlit
  · exact (okDispChar_facts (List.all_eq_true.mp hdisp _ hd)).2.2.2.2.2 rfl
  · exact (pyIsDigit_char_facts (List.all_eq_true.mp hmm _ hm)).2.1 rfl
  · exact (pyIsDigit_char_facts (List.all_eq_true.mp hdate _ hda)).2.1 rfl
  · simp at hlit

end Notes

namespace Notes

/-! Toolkit for locating pattern occurrences inside classified lines. -/

theorem matchesAt_subset {l pat : Str} {t : Nat} (h : matchesAt l pat t = true) : pat ⊆ l :=
  fun _ hc => List.drop_subset t l ((matchesAt_iff_pref.mp h).subset hc)

theorem matchesAt_mono {l pat pat' : Str} {t : Nat} (hp : pat' <+: pat)
    (h : matchesAt l pat t = true) : matchesAt l pat' t = true :=
  matchesAt_iff_pref.mpr (hp.trans (matchesAt_iff_pref.mp h))

theorem prefix_iff_get? : ∀ {pat y : Str},
    pat <+: y ↔ ∀ u, u < pat.length → y.get? u = pat.get? u := by
  intro pat
  induction pat with
  | nil =>
    intro y
    simp [List.nil_prefix]
  | cons c p ih =>
    intro y
    cases y with
    | nil =>
      constructor
      · intro h
        exact absurd (List.prefix_nil.mp h) (by simp)
      · intro h
        have := h 0 (by simp)
        cases this
    | cons a as =>
      rw [List.cons_prefix_cons]
      constructor
      · rintro ⟨rfl, hp⟩
        intro u hu
        cases u with
        | zero => rfl
        | succ u' => exact (ih.mp hp) u' (by simpa using hu)
      · intro h
        have h0 := h 0 (by simp)
        simp only [List.get?] at h0
        cases h0
        refine ⟨rfl, ih.mpr fun u hu => ?_⟩
        have := h (u+1) (by simpa using hu)
        simpa using this

theorem matchesAt_iff_get? {s pat : Str} {i : Nat} :
    matchesAt s pat i = true ↔ ∀ u, u < pat.length → s.get? (i + u) = pat.get? u := by
  rw [matchesAt_iff_pref, prefix_iff_get?]
  constructor
  · intro h u hu
    rw [← h u hu, List.get?_drop]
  · intro h u hu
    rw [List.get?_drop]
    exact h u hu

theorem matchesAt_singleton {s : Str} {c : Char} {i : Nat} :
    matchesAt s [c] i = true ↔ s.get? i = some c := by
  rw [matchesAt_iff_get?]
  constructor
  · intro h
    have := h 0 (by simp)
    simpa using this
  · intro h u hu
    have : u = 0 := by simpa using hu
    subst this
    simpa using h

theorem containsSub_of_matchesAt {l pat : Str} {t : Nat} (h : matchesAt l pat t = true) :
    containsSub l pat = true := by
  unfold containsSub
  cases hf : findSubFrom l pat 0 with
  | some v => rfl
  | none =>
    exfalso
    unfold findSubFrom at hf
    rw [firstIdxAux_eq_none_iff] at hf
    by_cases hne : pat = []
    · subst hne
      have := hf 0 (by omega) (by omega)
      unfold matchesAt at this
      simp [List.isPrefixOf] at this
    · have hb := matchesAt_bound hne h
      have := hf t (by omega) (by omega)
      rw [h] at this
      cases this

theorem not_matchesAt_of_not_containsSub {l pat : Str} {t : Nat}
    (h : containsSub l pat = false) : matchesAt l pat t = false := by
  cases hm : matchesAt l pat t with
  | false => rfl
  | true =>
    rw [containsSub_of_matchesAt hm] at h
    cases h

end Notes

namespace Notes

/-- Header line of a section name. -/
def hdrLine (name : Str) : Str := strOf "## " ++ name

theorem lsafeb_facts {l : Str} (h : lsafeb l = true) :
    '\n' ∉ l ∧ containsSub l (strOf "##") = false ∧ '[' ∉ l ∧
      pyStartsWith l (strOf "<br/>") = false := by
  unfold lsafeb at h
  simp only [Bool.and_eq_true, Bool.not_eq_true'] at h
  obtain ⟨⟨⟨h1, h2⟩, h3⟩, h4⟩ := h
  refine ⟨fun hc => ?_, h2, fun hc => ?_, h4⟩
  · have := List.elem_eq_true_of_mem hc
    rw [show l.contains '\n' = l.elem '\n' from rfl, this] at h1
    cases h1
  · have := List.elem_eq_true_of_mem hc
    rw [show l.contains '[' = l.elem '[' from rfl, this] at h3
    cases h3

theorem docWfb_pre_trail {d : YDoc} (h : docWfb d = true) :
    ∀ l ∈ d.pre ++ d.trail, lsafeb l = true := by
  unfold docWfb at h
  simp only [Bool.and_eq_true] at h
  exact fun l hl => List.all_eq_true.mp h.1.1.1 l hl

theorem docWfb_secs {d : YDoc} (h : docWfb d = true) :
    ∀ sec ∈ d.secs, secWfb sec = true := by
  unfold docWfb at h
  simp only [Bool.and_eq_true] at h
  exact fun sec hs => List.all_eq_true.mp h.1.1.2 sec hs

theorem docWfb_names {d : YDoc} (h : docWfb d = true) :
    namesPrefixFree (d.secs.map fun sec => sec.name) = true := by
  unfold docWfb at h
  simp only [Bool.and_eq_true] at h
  exact h.1.2

theorem docWfb_dates {d : YDoc} (h : docWfb d = true) :
    pairwiseNeStr (docDates d) = true := by
  unfold docWfb at h
  simp only [Bool.and_eq_true] at h
  exact h.2

theorem secWfb_facts {sec : MSec} (h : secWfb sec = true) :
    sec.name ≠ [] ∧ sec.name.all isWordChar = true ∧ ∀ lk ∈ sec.links, linkWfb lk = true := by
  unfold secWfb at h
  simp only [Bool.and_eq_true, Bool.not_eq_true'] at h
  obtain ⟨⟨h1, h2⟩, h3⟩ := h
  refine ⟨fun hc => ?_, h2, fun lk hlk => List.all_eq_true.mp h3 lk hlk⟩
  rw [hc] at h1
  cases h1

theorem docLines_cases {d : YDoc} {l : Str} (h : l ∈ docLines d) :
    l ∈ d.pre ∨ l ∈ d.trail ∨ l = strOf "<br/>" ∨ l = [] ∨
    (∃ sec, sec ∈ d.secs ∧ l = hdrLine sec.name) ∨
    (∃ sec lk, sec ∈ d.secs ∧ lk ∈ sec.links ∧ l = renderLink lk) := by
  unfold docLines at h
  simp only [List.mem_append, List.mem_singleton] at h
  rcases h with ((hpre | hbind) | hsent) | htrail
  · exact Or.inl hpre
  · rw [List.mem_bind] at hbind
    obtain ⟨sec, hsec, hl⟩ := hbind
    unfold secLines at hl
    simp only [List.mem_cons] at hl
    rcases hl with rfl | rfl | hl
    · exact Or.inr (Or.inr (Or.inr (Or.inr (Or.inl ⟨sec, hsec, rfl⟩))))
    · exact Or.inr (Or.inr (Or.inr (Or.inl rfl)))
    · rw [List.mem_bind] at hl
      obtain ⟨lk, hlk, hl⟩ := hl
      simp only [List.mem_cons] at hl
      rcases hl with rfl | rfl | hl
      · exact Or.inr (Or.inr (Or.inr (Or.inr (Or.inr ⟨sec, lk, hsec, hlk, rfl⟩))))
      · exact Or.inr (Or.inr (Or.inr (Or.inl rfl)))
      · cases hl
  · exact Or.inr (Or.inr (Or.inl hsent))
  · exact Or.inr (Or.inl htrail)

theorem hdrLine_no_newline {name : Str} (hw : name.all isWordChar = true) :
    '\n' ∉ hdrLine name := by
  intro hc
  unfold hdrLine at hc
  rw [List.mem_append] at hc
  rcases hc with hc | hc
  · simp [strOf] at hc
  · exact (isWordChar_facts (List.all_eq_true.mp hw _ hc)).1 rfl

theorem hdrLine_no_bracket {name : Str} (hw : name.all isWordChar = true) :
    '[' ∉ hdrLine name := by
  intro hc
  unfold hdrLine at hc
  rw [List.mem_append] at hc
  rcases hc with hc | hc
  · simp [strOf] at hc
  · exact (isWordChar_facts (List.all_eq_true.mp hw _ hc)).2.2.1 rfl

theorem nlFree_docLines {d : YDoc} (hwf : docWfb d = true) : nlFree (docLines d) := by
  intro l hl
  rcases docLines_cases hl with hp | ht | rfl | rfl | ⟨sec, hsec, rfl⟩ | ⟨sec, lk, hsec, hlk, rfl⟩
  · exact (lsafeb_facts (docWfb_pre_trail hwf l (List.mem_append_left _ hp))).1
  · exact (lsafeb_facts (docWfb_pre_trail hwf l (List.mem_append_right _ ht))).1
  · simp [strOf]
  · simp
  · exact hdrLine_no_newline (secWfb_facts (docWfb_secs hwf sec hsec)).2.1
  · exact linkWf_no_newline ((secWfb_facts (docWfb_secs hwf sec hsec)).2.2 lk hlk)

end Notes

namespace Notes

/-! Whitespace and stripping: pyStrip is invariant under whitespace padding
and fixes strings with non-whitespace ends. -/

theorem dropWhile_ws_append {p x : Str} (hp : ∀ c ∈ p, isWs c = true) :
    (p ++ x).dropWhile isWs = x.dropWhile isWs := by
  induction p with
  | nil => rfl
  | cons c t ih =>
    rw [List.cons_append, List.dropWhile_cons]
    rw [hp c (List.mem_cons_self _ _)]
    exact ih fun d hd => hp d (List.mem_cons_of_mem _ hd)

theorem dropWhile_all_ws_nil {x : Str} (hx : ∀ c ∈ x, isWs c = true) :
    x.dropWhile isWs = [] := by
  have := dropWhile_ws_append (x := ([] : Str)) hx
  rw [List.append_nil] at this
  exact this

theorem dropWhile_append_of_eq_nil {x q : Str} (h : x.dropWhile isWs = []) :
    (x ++ q).dropWhile isWs = q.dropWhile isWs :=
  dropWhile_ws_append (List.dropWhile_eq_nil_iff.mp h)

/-- dropWhile over an append when the left part leaves a residue. -/
theorem dropWhile_append_of_eq_cons {x q y : Str} {c : Char}
    (h : x.dropWhile isWs = c :: y) :
    (x ++ q).dropWhile isWs = c :: (y ++ q) := by
  induction x with
  | nil => simp at h
  | cons a t ih =>
    rw [List.cons_append]
    rw [List.dropWhile_cons] at h ⊢
    cases hc : isWs a with
    | true =>
      rw [hc] at h
      simp only [if_pos rfl] at h ⊢
      exact ih h
    | false =>
      rw [hc] at h
      simp only [Bool.false_eq_true, if_false] at h ⊢
      injection h with h1 h2
      subst h1
      subst h2
      rfl

theorem pyStrip_ws_left {p x : Str} (hp : ∀ c ∈ p, isWs c = true) :
    pyStrip (p ++ x) = pyStrip x := by
  unfold pyStrip
  rw [dropWhile_ws_append hp]

theorem pyStrip_ws_right {x q : Str} (hq : ∀ c ∈ q, isWs c = true) :
    pyStrip (x ++ q) = pyStrip x := by
  unfold pyStrip
  cases h : x.dropWhile isWs with
  | nil =>
    rw [dropWhile_append_of_eq_nil h, dropWhile_all_ws_nil hq]
  | cons c y =>
    rw [dropWhile_append_of_eq_cons h]
    rw [show (c :: (y ++ q)).reverse = q.reverse ++ (y.reverse ++ [c]) by simp]
    rw [show (c :: y).reverse = y.reverse ++ [c] by simp]
    rw [dropWhile_ws_append fun d hd => hq d (List.mem_reverse.mp hd)]

theorem pyStrip_cons_snoc {a b : Char} {s : Str} (ha : isWs a = false)
    (hb : isWs b = false) : pyStrip (a :: (s ++ [b])) = a :: (s ++ [b]) := by
  unfold pyStrip
  rw [List.dropWhile_cons, ha]
  simp only [Bool.false_eq_true, if_false]
  rw [show (a :: (s ++ [b])).reverse = b :: (s.reverse ++ [a]) by simp]
  rw [List.dropWhile_cons, hb]
  simp

theorem pyStrip_single {a : Char} (ha : isWs a = false) : pyStrip [a] = [a] := by
  simp [pyStrip, List.dropWhile_cons, ha]

theorem renderLink_head_last (lk : MLink) :
    renderLink lk = '[' ::
      (('_' :: lk.disp ++ '_' :: ']' :: '(' :: '.' :: '/' ::
        (lk.mm ++ '/' :: lk.date ++ ['/'])) ++ [')']) := by
  rw [renderLink_eq_cons]
  simp

theorem pyStrip_renderLink (lk : MLink) : pyStrip (renderLink lk) = renderLink lk := by
  rw [renderLink_head_last]
  exact pyStrip_cons_snoc (by decide) (by decide)

theorem isWordChar_not_ws {c : Char} (h : isWordChar c = true) : isWs c = false := by
  cases hw : isWs c with
  | false => rfl
  | true =>
    exfalso
    unfold isWs at hw
    simp only [Bool.or_eq_true, beq_iff_eq] at hw
    rcases hw with ((((rfl | rfl) | rfl) | rfl) | rfl) | rfl <;>
      (revert h; decide)

theorem pyStrip_hdrLine {name : Str} (h0 : name ≠ [])
    (hw : name.all isWordChar = true) : pyStrip (hdrLine name) = hdrLine name := by
  obtain ⟨t, b, ht⟩ := (List.eq_nil_or_concat name).resolve_left h0
  rw [List.concat_eq_append] at ht
  subst ht
  have hb : isWs b = false :=
    isWordChar_not_ws (List.all_eq_true.mp hw b (by simp))
  unfold hdrLine
  rw [show strOf "## " ++ (t ++ [b]) = '#' :: (('#' :: ' ' :: t) ++ [b]) by simp [strOf]]
  exact pyStrip_cons_snoc (by decide) hb

end Notes

namespace Notes

/-! Cut-point arithmetic on line lists: comparing two decompositions of the
same document by the character positions of their cuts. -/

theorem preLen_eq_zero {A : List Str} (h : preLen A = 0) : A = [] := by
  cases A with
  | nil => rfl
  | cons l t => rw [preLen_cons] at h; omega

theorem prefix_cut {A B A' B' : List Str} (h : A ++ B = A' ++ B')
    (hle : preLen A ≤ preLen A') : ∃ D, A' = A ++ D ∧ B = D ++ B' := by
  have hA : A <+: A ++ B := List.prefix_append A B
  have hA' : A' <+: A ++ B := by rw [h]; exact List.prefix_append A' B'
  rcases List.prefix_or_prefix_of_prefix hA hA' with hp | hp
  · obtain ⟨D, rfl⟩ := hp
    refine ⟨D, rfl, ?_⟩
    rw [List.append_assoc] at h
    exact List.append_cancel_left h
  · obtain ⟨t, hA2⟩ := hp
    have hz : preLen t = 0 := by
      rw [← hA2, preLen_append] at hle
      omega
    have ht := preLen_eq_zero hz
    subst ht
    rw [List.append_nil] at hA2
    subst hA2
    refine ⟨[], by rw [List.append_nil], ?_⟩
    rw [List.nil_append]
    exact List.append_cancel_left h

theorem line_of_between {P R S A B : List Str} {l : Str}
    (h : P ++ R ++ S = A ++ l :: B) (h1 : preLen P ≤ preLen A)
    (h2 : preLen A < preLen (P ++ R)) : l ∈ R := by
  rw [List.append_assoc] at h
  obtain ⟨D, hD1, hD2⟩ := prefix_cut h h1
  have hDR : preLen D ≤ preLen R := by
    rw [hD1, preLen_append] at h2
    rw [preLen_append] at h2
    omega
  obtain ⟨E, hE1, hE2⟩ := prefix_cut hD2.symm hDR
  cases E with
  | nil =>
    exfalso
    rw [List.append_nil] at hE1
    rw [hD1, preLen_append, hE1, preLen_append] at h2
    omega
  | cons e E' =>
    rw [List.cons_append] at hE2
    injection hE2 with he _
    rw [hE1, he]
    exact List.mem_append_right D (List.mem_cons_self _ _)

theorem append_cons_unique {α : Type} {m : α} :
    ∀ {a a' b b' : List α}, a ++ m :: b = a' ++ m :: b' → m ∉ a → m ∉ a' →
      a = a' ∧ b = b' := by
  intro a
  induction a with
  | nil =>
    intro a' b b' h _ hm'
    cases a' with
    | nil =>
      rw [List.nil_append, List.nil_append] at h
      injection h with _ h2
      exact ⟨rfl, h2⟩
    | cons x t =>
      exfalso
      rw [List.nil_append, List.cons_append] at h
      injection h with h1 _
      exact hm' (h1 ▸ List.mem_cons_self _ _)
  | cons x t ih =>
    intro a' b b' h hm hm'
    cases a' with
    | nil =>
      exfalso
      rw [List.nil_append, List.cons_append] at h
      injection h with h1 _
      exact hm (h1 ▸ List.mem_cons_self _ _)
    | cons y t' =>
      rw [List.cons_append, List.cons_append] at h
      injection h with h1 h2
      obtain ⟨ha, hb⟩ := ih h2 (fun hc => hm (List.mem_cons_of_mem _ hc))
        (fun hc => hm' (List.mem_cons_of_mem _ hc))
      exact ⟨by rw [h1, ha], hb⟩

theorem prefix_eq_of_length {α : Type} {a b c : List α} (h : a <+: b ++ c)
    (hl : a.length = b.length) : a = b := by
  obtain ⟨t, ht⟩ := h
  exact ((List.append_inj ht.symm hl.symm).1).symm

theorem pairwiseNeStr_iff_nodup : ∀ {L : List Str}, pairwiseNeStr L = true ↔ L.Nodup := by
  intro L
  induction L with
  | nil => simp [pairwiseNeStr]
  | cons x xs ih =>
    unfold pairwiseNeStr
    rw [Bool.and_eq_true, List.nodup_cons, ih]
    constructor
    · rintro ⟨h1, h2⟩
      refine ⟨fun hmem => ?_, h2⟩
      have := List.all_eq_true.mp h1 x hmem
      simp at this
    · rintro ⟨h1, h2⟩
      refine ⟨List.all_eq_true.mpr fun y hy => ?_, h2⟩
      simp only [Bool.not_eq_true']
      rw [beq_eq_false_iff_ne]
      rintro rfl
      exact h1 hy

theorem namesPrefixFree_pairwise : ∀ {ns : List Str}, namesPrefixFree ns = true →
    ns.Pairwise fun a b => ¬(a <+: b) ∧ ¬(b <+: a) := by
  intro ns
  induction ns with
  | nil => intro _; exact List.Pairwise.nil
  | cons x xs ih =>
    intro h
    unfold namesPrefixFree at h
    rw [Bool.and_eq_true] at h
    refine List.Pairwise.cons (fun y hy => ?_) (ih h.2)
    have := List.all_eq_true.mp h.1 y hy
    rw [Bool.and_eq_true] at this
    simp only [Bool.not_eq_true'] at this
    constructor
    · intro hc
      rw [List.isPrefixOf_iff_prefix.mpr hc] at this
      exact Bool.false_ne_true this.1.symm
    · intro hc
      rw [List.isPrefixOf_iff_prefix.mpr hc] at this
      exact Bool.false_ne_true this.2.symm

end Notes

namespace Notes

/-! Character access and slicing of joined documents. -/

theorem joinNl_get?_line {A : List Str} {l : Str} {B : List Str} {t : Nat}
    (ht : t < l.length) :
    (joinNl (A ++ l :: B)).get? (preLen A + t) = l.get? t := by
  have hstep : (joinNl (A ++ l :: B)).get? (preLen A + t)
      = ((joinNl (A ++ l :: B)).drop (preLen A)).get? t := by
    rw [List.get?_drop]
  rw [hstep, joinNl_drop_pre A (l :: B) (by simp)]
  cases B with
  | nil => rfl
  | cons b B' =>
    rw [joinNl_cons l (by simp)]
    rw [List.get?_append ht]

theorem joinNl_get?_nl {A : List Str} {l : Str} {B : List Str} (hB : B ≠ []) :
    (joinNl (A ++ l :: B)).get? (preLen A + l.length) = some '\n' := by
  have hstep : (joinNl (A ++ l :: B)).get? (preLen A + l.length)
      = ((joinNl (A ++ l :: B)).drop (preLen A)).get? l.length := by
    rw [List.get?_drop]
  rw [hstep, joinNl_drop_pre A (l :: B) (by simp), joinNl_cons l hB]
  rw [List.get?_append_right (le_refl _)]
  simp

theorem joinNl_get?_char_elim {ls : List Str} {c : Char} {i : Nat}
    (hnlf : nlFree ls) (hc : c ≠ '\n')
    (h : (joinNl ls).get? i = some c) :
    ∃ A l B t, ls = A ++ l :: B ∧ i = preLen A + t ∧ t < l.length ∧ l.get? t = some c := by
  have hm : matchesAt (joinNl ls) [c] i = true := matchesAt_singleton.mpr h
  have hnl : '\n' ∉ [c] := by
    simp only [List.mem_singleton]
    exact fun hx => hc hx.symm
  obtain ⟨A, l, B, t, h1, h2, h3, h4⟩ := matchesAt_joinNl_elim hnlf hnl (by simp) hm
  exact ⟨A, l, B, t, h1, h2, by simpa using h3, matchesAt_singleton.mp h4⟩

theorem joinNl_get?_nl_elim {ls : List Str} {i : Nat} (hnlf : nlFree ls)
    (h : (joinNl ls).get? i = some '\n') :
    ∃ A l B, ls = A ++ l :: B ∧ B ≠ [] ∧ i = preLen A + l.length := by
  have hm : matchesAt (joinNl ls) ['\n'] i = true := matchesAt_singleton.mpr h
  obtain ⟨A, l, B, h1, h2, h3, _⟩ := matchesAt_joinNl_nlpat_elim (q := []) hnlf hm
  exact ⟨A, l, B, h1, h2, h3⟩

theorem matchesAt_joinNl_head_zero {b : Str} {B : List Str} {q : Str} (hq : '\n' ∉ q) :
    matchesAt (joinNl (b :: B)) q 0 = pyStartsWith b q := by
  cases B with
  | nil =>
    show matchesAt b q 0 = pyStartsWith b q
    unfold matchesAt pyStartsWith
    rw [List.drop_zero]
  | cons x B' =>
    by_cases hfit : q.length ≤ b.length
    · rw [matchesAt_head_eq (by simp) (by omega)]
      unfold matchesAt pyStartsWith
      rw [List.drop_zero]
    · rw [matchesAt_head_overflow (by simp) hq (by omega) (by omega)]
      cases hps : pyStartsWith b q with
      | false => rfl
      | true =>
        exfalso
        have := (List.isPrefixOf_iff_prefix.mp hps).length_le
        omega

theorem pySlice_join_mid {P Q R : List Str} (hQ : Q ≠ []) (hR : R ≠ []) :
    pySlice (joinNl (P ++ Q ++ R)) (preLen P) (preLen (P ++ Q) - 1) = joinNl Q := by
  have hPQ : P ++ Q ≠ [] := by
    intro hcon
    exact hQ (List.append_eq_nil.mp hcon).2
  unfold pySlice
  rw [joinNl_take_pre (P ++ Q) R hPQ hR, joinNl_drop_pre P Q hQ]

theorem joinNl_drop_pre_nl {A B : List Str} (hA : A ≠ []) (hB : B ≠ []) :
    (joinNl (A ++ B)).drop (preLen A - 1) = '\n' :: joinNl B := by
  rw [joinNl_append A B hA hB, preLen_eq_joinNl_length hA]
  simp only [Nat.add_sub_cancel]
  rw [show (joinNl A).length = (joinNl A).length + 0 by omega, drop_append_len]
  rfl

theorem pySlice_join_mid_nl {P Q R : List Str} (hQ : Q ≠ []) (hR : R ≠ []) :
    pySlice (joinNl (P ++ Q ++ R)) (preLen P) (preLen (P ++ Q)) = joinNl Q ++ ['\n'] := by
  have hPQ : P ++ Q ≠ [] := by
    intro hcon
    exact hQ (List.append_eq_nil.mp hcon).2
  unfold pySlice
  rw [joinNl_take_pre_nl (P ++ Q) R hPQ hR]
  by_cases hP : P = []
  · subst hP
    simp [preLen]
  · rw [joinNl_append P Q hP hQ]
    rw [show joinNl P ++ '\n' :: joinNl Q ++ ['\n']
      = (joinNl P ++ ['\n']) ++ (joinNl Q ++ ['\n']) by simp]
    rw [preLen_eq_joinNl_length hP,
      show (joinNl P).length + 1 = (joinNl P ++ ['\n']).length + 0 by simp]
    rw [drop_append_len]
    rfl

theorem pySlice_join_mid_left {P Q R : List Str} (hP : P ≠ []) (hQ : Q ≠ []) (hR : R ≠ []) :
    pySlice (joinNl (P ++ Q ++ R)) (preLen P - 1) (preLen (P ++ Q) - 1) = '\n' :: joinNl Q := by
  have hPQ : P ++ Q ≠ [] := by
    intro hcon
    exact hQ (List.append_eq_nil.mp hcon).2
  unfold pySlice
  rw [joinNl_take_pre (P ++ Q) R hPQ hR]
  exact joinNl_drop_pre_nl hP hQ

theorem splice_drop_take {A B C : List Str} (hC : C ≠ []) :
    (joinNl (A ++ B ++ C)).take (preLen A) ++ (joinNl (A ++ B ++ C)).drop (preLen (A ++ B))
      = joinNl (A ++ C) := by
  have hdrop : (joinNl (A ++ B ++ C)).drop (preLen (A ++ B)) = joinNl C :=
    joinNl_drop_pre (A ++ B) C hC
  by_cases hA : A = []
  · subst hA
    rw [hdrop]
    simp only [List.nil_append]
    rw [show preLen ([] : List Str) = 0 from rfl, List.take_zero, List.nil_append]
  · have hBC : B ++ C ≠ [] := by
      intro hcon
      exact hC (List.append_eq_nil.mp hcon).2
    have htake : (joinNl (A ++ B ++ C)).take (preLen A) = joinNl A ++ ['\n'] := by
      rw [List.append_assoc]
      exact joinNl_take_pre_nl A (B ++ C) hA hBC
    rw [htake, hdrop, joinNl_append A C hA hC]
    simp

theorem splice_take_dropm1 {A B C : List Str} (hB : B ≠ []) (hC : C ≠ []) :
    (joinNl (A ++ B ++ C)).take (preLen A) ++ (joinNl (A ++ B ++ C)).drop (preLen (A ++ B) - 1)
      = joinNl (A ++ [[]] ++ C) := by
  have hAB : A ++ B ≠ [] := by
    intro hcon
    exact hB (List.append_eq_nil.mp hcon).2
  have hdrop : (joinNl (A ++ B ++ C)).drop (preLen (A ++ B) - 1) = '\n' :: joinNl C :=
    joinNl_drop_pre_nl hAB hC
  by_cases hA : A = []
  · subst hA
    rw [hdrop]
    simp only [List.nil_append]
    rw [show preLen ([] : List Str) = 0 from rfl, List.take_zero, List.nil_append]
    show '\n' :: joinNl C = joinNl (([] : Str) :: C)
    rw [joinNl_cons ([] : Str) hC]
    rfl
  · have hBC : B ++ C ≠ [] := by
      intro hcon
      exact hC (List.append_eq_nil.mp hcon).2
    have htake : (joinNl (A ++ B ++ C)).take (preLen A) = joinNl A ++ ['\n'] := by
      rw [List.append_assoc]
      exact joinNl_take_pre_nl A (B ++ C) hA hBC
    rw [htake, hdrop]
    rw [show A ++ [[]] ++ C = A ++ (([] : Str) :: C) by simp]
    rw [joinNl_append A (([] : Str) :: C) hA (by simp), joinNl_cons ([] : Str) hC]
    simp

theorem insert_splice {U V : List Str} {entry : Str} (hU : U ≠ []) (hV : V ≠ []) :
    (joinNl (U ++ V)).take (preLen U)
      ++ '\n' :: (entry ++ '\n' :: (joinNl (U ++ V)).drop (preLen U))
      = joinNl (U ++ [[], entry] ++ V) := by
  rw [joinNl_take_pre_nl U V hU hV, joinNl_drop_pre U V hV]
  rw [show U ++ [[], entry] ++ V = U ++ (([] : Str) :: entry :: V) by simp]
  rw [joinNl_append U (([] : Str) :: entry :: V) hU (by simp)]
  rw [joinNl_cons ([] : Str) (by simp : entry :: V ≠ []), joinNl_cons entry hV]
  simp

theorem remove_splice_blank {A1 V : List Str} {entry : Str} (hA1 : A1 ≠ []) (hV : V ≠ []) :
    (joinNl (A1 ++ [[], entry] ++ V)).take (preLen (A1 ++ [[]]) - 1)
      ++ (joinNl (A1 ++ [[], entry] ++ V)).drop (preLen (A1 ++ [[], entry]))
      = joinNl (A1 ++ V) := by
  have heq : A1 ++ [[], entry] ++ V = (A1 ++ [[]]) ++ [entry] ++ V := by simp
  rw [heq]
  have htake : (joinNl ((A1 ++ [[]]) ++ [entry] ++ V)).take (preLen (A1 ++ [[]]) - 1)
      = joinNl (A1 ++ [[]]) := by
    rw [List.append_assoc]
    exact joinNl_take_pre (A1 ++ [[]]) ([entry] ++ V) (by simp) (by simp)
  have hdrop : (joinNl ((A1 ++ [[]]) ++ [entry] ++ V)).drop (preLen ((A1 ++ [[]]) ++ [entry]))
      = joinNl V := by
    rw [show (A1 ++ [[]]) ++ [entry] ++ V = ((A1 ++ [[]]) ++ [entry]) ++ V by simp]
    exact joinNl_drop_pre ((A1 ++ [[]]) ++ [entry]) V hV
  rw [show preLen (A1 ++ [[], entry]) = preLen ((A1 ++ [[]]) ++ [entry]) by simp,
    htake, hdrop]
  rw [joinNl_append A1 [([] : Str)] hA1 (by simp), joinNl_append A1 V hA1 hV]
  simp only [List.append_assoc, List.cons_append, List.nil_append]
  rw [show joinNl [([] : Str)] = [] from rfl]
  simp

end Notes

namespace Notes

/-! Workhorses: computing the source's find and rfind calls on a joined
document from a decomposition of its line list. -/

theorem findSub_joinNl_at {ls A B : List Str} {l pat : Str} {start : Nat}
    (hnlf : nlFree ls) (hnl : '\n' ∉ pat) (hne : pat ≠ [])
    (hdec : ls = A ++ l :: B)
    (hm : matchesAt l pat 0 = true) (hfit : pat.length ≤ l.length)
    (hstart : start ≤ preLen A)
    (hprev : ∀ A' l' B' t, ls = A' ++ l' :: B' → start ≤ preLen A' + t →
        preLen A' + t < preLen A → t + pat.length ≤ l'.length →
        matchesAt l' pat t = false) :
    findSubFrom (joinNl ls) pat start = some (preLen A) := by
  subst hdec
  apply findSubFrom_eq_some_of hne hstart
  · have := matchesAt_joinNl_intro (A := A) (B := B) (t := 0) (by omega) hne hm
    rw [Nat.add_zero] at this
    exact this
  · intro j hj1 hj2
    cases hmj : matchesAt (joinNl (A ++ l :: B)) pat j with
    | false => rfl
    | true =>
      exfalso
      obtain ⟨A', l', B', t, hd, hjt, hfit', hm'⟩ :=
        matchesAt_joinNl_elim hnlf hnl hne hmj
      rw [hprev A' l' B' t hd (by omega) (by omega) hfit'] at hm'
      cases hm'

theorem findSub_joinNl_none {ls : List Str} {pat : Str} {start : Nat}
    (hnlf : nlFree ls) (hnl : '\n' ∉ pat) (hne : pat ≠ [])
    (hall : ∀ A' l' B' t, ls = A' ++ l' :: B' → start ≤ preLen A' + t →
        t + pat.length ≤ l'.length → matchesAt l' pat t = false) :
    findSubFrom (joinNl ls) pat start = none := by
  apply findSubFrom_eq_none_of
  intro j hj
  cases hmj : matchesAt (joinNl ls) pat j with
  | false => rfl
  | true =>
    exfalso
    obtain ⟨A', l', B', t, hd, hjt, hfit', hm'⟩ :=
      matchesAt_joinNl_elim hnlf hnl hne hmj
    rw [hall A' l' B' t hd (by omega) hfit'] at hm'
    cases hm'

theorem findSub_joinNl_nlpat_at {ls A B : List Str} {l b q : Str} {start : Nat}
    (hnlf : nlFree ls) (hq : '\n' ∉ q)
    (hdec : ls = A ++ l :: b :: B) (hb : pyStartsWith b q = true)
    (hstart : start ≤ preLen A + l.length)
    (hprev : ∀ A' l' b' B', ls = A' ++ l' :: b' :: B' →
        start ≤ preLen A' + l'.length → preLen A' + l'.length < preLen A + l.length →
        pyStartsWith b' q = false) :
    findSubFrom (joinNl ls) ('\n' :: q) start = some (preLen A + l.length) := by
  subst hdec
  apply findSubFrom_eq_some_of (by simp) hstart
  · exact matchesAt_joinNl_nlpat_intro (by simp)
      ((matchesAt_joinNl_head_zero hq).symm ▸ hb)
  · intro j hj1 hj2
    cases hmj : matchesAt (joinNl (A ++ l :: b :: B)) ('\n' :: q) j with
    | false => rfl
    | true =>
      exfalso
      obtain ⟨A₂, l₂, B₂, hd2', hB2, hj, hmq⟩ := matchesAt_joinNl_nlpat_elim hnlf hmj
      cases B₂ with
      | nil => exact hB2 rfl
      | cons b₂ T =>
        rw [matchesAt_joinNl_head_zero hq] at hmq
        rw [hprev A₂ l₂ b₂ T hd2' (by omega) (by omega)] at hmq
        cases hmq

theorem findSub_joinNl_nlpat_none {ls : List Str} {q : Str} {start : Nat}
    (hnlf : nlFree ls) (hq : '\n' ∉ q)
    (hall : ∀ A' l' b' B', ls = A' ++ l' :: b' :: B' →
        start ≤ preLen A' + l'.length → pyStartsWith b' q = false) :
    findSubFrom (joinNl ls) ('\n' :: q) start = none := by
  apply findSubFrom_eq_none_of
  intro j hj
  cases hmj : matchesAt (joinNl ls) ('\n' :: q) j with
  | false => rfl
  | true =>
    exfalso
    obtain ⟨A₂, l₂, B₂, hd2', hB2, hj, hmq⟩ := matchesAt_joinNl_nlpat_elim hnlf hmj
    cases B₂ with
    | nil => exact hB2 rfl
    | cons b₂ T =>
      rw [matchesAt_joinNl_head_zero hq] at hmq
      rw [hall A₂ l₂ b₂ T hd2' (by omega)] at hmq
      cases hmq

theorem preLen_singleton (l : Str) : preLen [l] = l.length + 1 := by
  simp [preLen]

theorem findChar_nl_at {ls A B : List Str} {l : Str} {start : Nat}
    (hnlf : nlFree ls) (hdec : ls = A ++ l :: B) (hB : B ≠ [])
    (h1 : preLen A ≤ start) (h2 : start ≤ preLen A + l.length) :
    findCharFrom (joinNl ls) '\n' start = some (preLen A + l.length) := by
  subst hdec
  apply findCharFrom_eq_some_of h2 (joinNl_get?_nl hB)
  intro j hj1 hj2 hcon
  obtain ⟨A₂, l₂, B₂, hd2, hB2, hj⟩ := joinNl_get?_nl_elim hnlf hcon
  have hre : A ++ (l :: B) = (A₂ ++ [l₂]) ++ B₂ := by
    rw [hd2]
    simp
  have hC : preLen (A₂ ++ [l₂]) = j + 1 := by
    rw [preLen_append, preLen_singleton]
    omega
  obtain ⟨D, hD1, hD2⟩ := prefix_cut hre (by omega)
  cases D with
  | nil =>
    rw [List.append_nil] at hD1
    rw [hD1] at hC
    omega
  | cons d D' =>
    rw [List.cons_append] at hD2
    injection hD2 with hdl _
    subst hdl
    rw [hD1, preLen_append, preLen_cons] at hC
    omega

theorem rfind_nl_at {ls A B : List Str} {l b : Str} {hi : Nat}
    (hnlf : nlFree ls) (hdec : ls = A ++ l :: b :: B)
    (hlo : preLen A + l.length < hi) (hhi : hi ≤ preLen A + l.length + 1 + b.length) :
    rfindCharBefore (joinNl ls) '\n' hi = some (preLen A + l.length) := by
  subst hdec
  apply rfindCharBefore_eq_some_of (joinNl_get?_nl (by simp)) hlo
  intro j hj1 hj2 hcon
  obtain ⟨A₂, l₂, B₂, hd2, hB2, hj⟩ := joinNl_get?_nl_elim hnlf hcon
  have hre : (A ++ [l]) ++ (b :: B) = (A₂ ++ [l₂]) ++ B₂ := by
    simpa using hd2
  have hC : preLen (A₂ ++ [l₂]) = j + 1 := by
    rw [preLen_append, preLen_singleton]
    omega
  have hAl : preLen (A ++ [l]) = preLen A + l.length + 1 := by
    rw [preLen_append, preLen_singleton]
    omega
  obtain ⟨D, hD1, hD2⟩ := prefix_cut hre (by omega)
  cases D with
  | nil =>
    rw [List.append_nil] at hD1
    rw [hD1, hAl] at hC
    omega
  | cons d D' =>
    rw [List.cons_append] at hD2
    injection hD2 with hdl _
    subst hdl
    rw [hD1, preLen_append, preLen_cons, hAl] at hC
    omega

end Notes

namespace Notes

/-! Generalised documents: month sections whose bodies are arbitrary
interleavings of blank lines and link lines.  A freshly rendered document is
the special case where every body is a blank followed by link lines each
followed by a blank; the state right after a link-line removal is covered by
the same shape. -/

/-- A rendered body line: blank, or a link line. -/
def bLine : Option MLink → Str
  | none => []
  | some lk => renderLink lk

/-- A generalised month section. -/
structure GSec where
  name : Str
  body : List (Option MLink)
deriving DecidableEq, Repr

/-- Lines of a generalised section. -/
def gsecLines (g : GSec) : List Str := hdrLine g.name :: g.body.map bLine

/-- Lines of a generalised document. -/
def gLines (pre : List Str) (gs : List GSec) (trail : List Str) : List Str :=
  pre ++ gs.bind gsecLines ++ [strOf "<br/>"] ++ trail

/-- Well-formed generalised section: nonempty word-character name, well-formed
links. -/
def gsecWfb (g : GSec) : Bool :=
  !g.name.isEmpty && g.name.all isWordChar
    && g.body.all fun o => match o with | none => true | some lk => linkWfb lk

/-- Well-formed generalised document. -/
def gWfb (pre : List Str) (gs : List GSec) (trail : List Str) : Bool :=
  (pre ++ trail).all lsafeb && gs.all gsecWfb

/-- The generalised view of a fully rendered section. -/
def toG (sec : MSec) : GSec :=
  ⟨sec.name, none :: sec.links.bind fun l => [some l, none]⟩

theorem bind_cons_eq {α β : Type} (x : α) (xs : List α) (f : α → List β) :
    (x :: xs).bind f = f x ++ xs.bind f := rfl

theorem gsecLines_toG (sec : MSec) : gsecLines (toG sec) = secLines sec := by
  unfold gsecLines toG secLines
  simp only [List.map_cons]
  congr 1
  congr 1
  induction sec.links with
  | nil => rfl
  | cons lk rest ih =>
    rw [bind_cons_eq, bind_cons_eq, List.map_append, ih]
    rfl

theorem bind_secLines_toG (secs : List MSec) :
    (secs.map toG).bind gsecLines = secs.bind secLines := by
  induction secs with
  | nil => rfl
  | cons sec rest ih =>
    rw [List.map_cons, bind_cons_eq, bind_cons_eq, ih, gsecLines_toG]

theorem docLines_eq_gLines (d : YDoc) :
    docLines d = gLines d.pre (d.secs.map toG) d.trail := by
  unfold docLines gLines
  rw [bind_secLines_toG]

theorem gWfb_parts {pre trail : List Str} {gs : List GSec}
    (h : gWfb pre gs trail = true) :
    (∀ l ∈ pre ++ trail, lsafeb l = true) ∧ ∀ g ∈ gs, gsecWfb g = true := by
  unfold gWfb at h
  rw [Bool.and_eq_true] at h
  exact ⟨fun l hl => List.all_eq_true.mp h.1 l hl, fun g hg => List.all_eq_true.mp h.2 g hg⟩

theorem gsecWfb_parts {g : GSec} (h : gsecWfb g = true) :
    g.name ≠ [] ∧ g.name.all isWordChar = true ∧
      ∀ lk, some lk ∈ g.body → linkWfb lk = true := by
  unfold gsecWfb at h
  simp only [Bool.and_eq_true] at h
  refine ⟨fun hc => ?_, h.1.2, fun lk hlk => ?_⟩
  · rw [hc] at h
    exact Bool.false_ne_true h.1.1
  · exact List.all_eq_true.mp h.2 (some lk) hlk

theorem gWfb_of_docWfb {d : YDoc} (h : docWfb d = true) :
    gWfb d.pre (d.secs.map toG) d.trail = true := by
  unfold gWfb
  rw [Bool.and_eq_true]
  constructor
  · unfold docWfb at h
    simp only [Bool.and_eq_true] at h
    exact h.1.1.1
  · rw [List.all_eq_true]
    intro g hg
    rw [List.mem_map] at hg
    obtain ⟨sec, hsec, rfl⟩ := hg
    obtain ⟨h0, hw, hl⟩ := secWfb_facts (docWfb_secs h sec hsec)
    unfold gsecWfb toG
    simp only [Bool.and_eq_true]
    refine ⟨⟨?_, hw⟩, ?_⟩
    · cases hname : sec.name with
      | nil => exact absurd hname h0
      | cons c t => rfl
    · rw [List.all_eq_true]
      intro o ho
      rw [List.mem_cons] at ho
      rcases ho with rfl | ho
      · rfl
      · rw [List.mem_bind] at ho
        obtain ⟨lk, hlk, hmem⟩ := ho
        simp only [List.mem_cons] at hmem
        rcases hmem with rfl | hmem
        · exact hl lk hlk
        · rcases hmem with rfl | hmem
          · rfl
          · cases hmem

theorem gLines_cases {pre trail : List Str} {gs : List GSec} {l : Str}
    (h : l ∈ gLines pre gs trail) :
    l ∈ pre ∨ l ∈ trail ∨ l = strOf "<br/>" ∨
    (∃ g, g ∈ gs ∧ l = hdrLine g.name) ∨ l = [] ∨
    (∃ g lk, g ∈ gs ∧ some lk ∈ g.body ∧ l = renderLink lk) := by
  unfold gLines at h
  simp only [List.mem_append, List.mem_singleton] at h
  rcases h with ((hpre | hbind) | hsent) | htrail
  · exact Or.inl hpre
  · rw [List.mem_bind] at hbind
    obtain ⟨g, hg, hl⟩ := hbind
    unfold gsecLines at hl
    rw [List.mem_cons] at hl
    rcases hl with rfl | hl
    · exact Or.inr (Or.inr (Or.inr (Or.inl ⟨g, hg, rfl⟩)))
    · rw [List.mem_map] at hl
      obtain ⟨o, ho, rfl⟩ := hl
      cases o with
      | none => exact Or.inr (Or.inr (Or.inr (Or.inr (Or.inl rfl))))
      | some lk =>
        exact Or.inr (Or.inr (Or.inr (Or.inr (Or.inr ⟨g, lk, hg, ho, rfl⟩))))
  · exact Or.inr (Or.inr (Or.inl hsent))
  · exact Or.inr (Or.inl htrail)

theorem nlFree_gLines {pre trail : List Str} {gs : List GSec}
    (hwf : gWfb pre gs trail = true) : nlFree (gLines pre gs trail) := by
  obtain ⟨hsafe, hsecs⟩ := gWfb_parts hwf
  intro l hl
  rcases gLines_cases hl with hp | ht | rfl | ⟨g, hg, rfl⟩ | rfl | ⟨g, lk, hg, hlk, rfl⟩
  · exact (lsafeb_facts (hsafe l (List.mem_append_left _ hp))).1
  · exact (lsafeb_facts (hsafe l (List.mem_append_right _ ht))).1
  · simp [strOf]
  · exact hdrLine_no_newline (gsecWfb_parts (hsecs g hg)).2.1
  · simp
  · exact linkWf_no_newline ((gsecWfb_parts (hsecs g hg)).2.2 lk hlk)

end Notes

namespace Notes

/-! Character positions inside the rendered line kinds. -/

theorem hdrLine_eq_cons (name : Str) : hdrLine name = '#' :: '#' :: ' ' :: name := rfl

theorem hash_pos_hdrLine {name : Str} (hw : name.all isWordChar = true) {u : Nat}
    (h : (hdrLine name).get? u = some '#') : u = 0 ∨ u = 1 := by
  rw [hdrLine_eq_cons] at h
  match u with
  | 0 => exact Or.inl rfl
  | 1 => exact Or.inr rfl
  | 2 => simp at h
  | v + 3 =>
    exfalso
    have hv : name.get? v = some '#' := h
    exact (isWordChar_facts (List.all_eq_true.mp hw _ (List.get?_mem hv))).2.1 rfl

theorem renderLink_tail_no_bracket {lk : MLink} (h : linkWfb lk = true) :
    '[' ∉ ('_' ::
      (lk.disp ++ '_' :: ']' :: '(' :: '.' :: '/' ::
        (lk.mm ++ '/' :: (lk.date ++ [ '/', ')' ])))) := by
  unfold linkWfb at h
  simp only [Bool.and_eq_true] at h
  obtain ⟨⟨⟨⟨hdisp, _⟩, hmm⟩, _⟩, hdate⟩ := h
  intro hc
  simp only [List.mem_cons, List.mem_append] at hc
  rcases hc with hc | hc
  · exact absurd hc (by decide)
  rcases hc with hc | hc
  · exact (okDispChar_facts (List.all_eq_true.mp hdisp _ hc)).2.1 rfl
  rcases hc with hc | hc
  · exact absurd hc (by decide)
  rcases hc with hc | hc
  · exact absurd hc (by decide)
  rcases hc with hc | hc
  · exact absurd hc (by decide)
  rcases hc with hc | hc
  · exact absurd hc (by decide)
  rcases hc with hc | hc
  · exact absurd hc (by decide)
  rcases hc with hc | hc
  · exact (pyIsDigit_char_facts (List.all_eq_true.mp hmm _ hc)).2.2.1 rfl
  rcases hc with hc | hc
  · exact absurd hc (by decide)
  rcases hc with hc | hc
  · exact (pyIsDigit_char_facts (List.all_eq_true.mp hdate _ hc)).2.2.1 rfl
  rcases hc with hc | hc
  · exact absurd hc (by decide)
  rcases hc with hc | hc
  · exact absurd hc (by decide)
  cases hc

theorem bracket_pos_renderLink {lk : MLink} (h : linkWfb lk = true) {u : Nat}
    (hg : (renderLink lk).get? u = some '[') : u = 0 := by
  match u with
  | 0 => rfl
  | v + 1 =>
    exfalso
    rw [renderLink_eq_cons] at hg
    exact renderLink_tail_no_bracket h (List.get?_mem (show _ = some '[' from hg))

theorem gLines_get_bracket {pre trail : List Str} {gs : List GSec} {i : Nat}
    (hwf : gWfb pre gs trail = true)
    (h : (joinNl (gLines pre gs trail)).get? i = some '[') :
    ∃ A lk B, gLines pre gs trail = A ++ renderLink lk :: B ∧ i = preLen A ∧
      linkWfb lk = true := by
  obtain ⟨A, l, B, t, hdec, hit, hlt, hget⟩ :=
    joinNl_get?_char_elim (nlFree_gLines hwf) (by decide) h
  have hmem : l ∈ gLines pre gs trail := by
    rw [hdec]
    exact List.mem_append_right A (List.mem_cons_self _ _)
  have hin : '[' ∈ l := List.get?_mem hget
  obtain ⟨hsafe, hsecs⟩ := gWfb_parts hwf
  rcases gLines_cases hmem with hp | ht | rfl | ⟨g, hg, rfl⟩ | rfl | ⟨g, lk, hg, hlk, rfl⟩
  · exact absurd hin (lsafeb_facts (hsafe l (List.mem_append_left _ hp))).2.2.1
  · exact absurd hin (lsafeb_facts (hsafe l (List.mem_append_right _ ht))).2.2.1
  · exact absurd hin (by decide)
  · exact absurd hin (hdrLine_no_bracket (gsecWfb_parts (hsecs g hg)).2.1)
  · cases hin
  · have hwflk := (gsecWfb_parts (hsecs g hg)).2.2 lk hlk
    have ht0 := bracket_pos_renderLink hwflk hget
    subst ht0
    exact ⟨A, lk, B, hdec, by omega, hwflk⟩

theorem joinNl_get?_end {A : List Str} {l : Str} :
    (joinNl (A ++ [l])).get? (preLen A + l.length) = none := by
  apply List.get?_eq_none.mpr
  have hlen := preLen_eq_joinNl_length (A := A ++ [l]) (by simp)
  rw [preLen_append, preLen_singleton] at hlen
  omega

theorem hash_pair_in_line {ls A B : List Str} {l : Str} {t : Nat}
    (hdec : ls = A ++ l :: B) (hlt : t < l.length)
    (hnext : (joinNl ls).get? (preLen A + t + 1) = some '#') :
    t + 1 < l.length ∧ l.get? (t + 1) = some '#' := by
  by_cases hfit : t + 1 < l.length
  · refine ⟨hfit, ?_⟩
    rw [hdec, show preLen A + t + 1 = preLen A + (t + 1) by omega,
      joinNl_get?_line hfit] at hnext
    exact hnext
  · exfalso
    have hte : t + 1 = l.length := by omega
    cases B with
    | nil =>
      rw [hdec, show preLen A + t + 1 = preLen A + l.length by omega,
        joinNl_get?_end] at hnext
      cases hnext
    | cons b B' =>
      rw [hdec, show preLen A + t + 1 = preLen A + l.length by omega,
        joinNl_get?_nl (by simp)] at hnext
      exact absurd hnext (by decide)

theorem monthStartAt_gLines_elim {pre trail : List Str} {gs : List GSec} {i : Nat}
    (hwf : gWfb pre gs trail = true)
    (h : monthStartAt (joinNl (gLines pre gs trail)) i = true) :
    ∃ A g B, gLines pre gs trail = A ++ hdrLine g.name :: B ∧ g ∈ gs ∧ i = preLen A := by
  unfold monthStartAt at h
  simp only [Bool.and_eq_true, beq_iff_eq] at h
  obtain ⟨⟨⟨h0, h1⟩, h2⟩, h3⟩ := h
  obtain ⟨A, l, B, t, hdec, hit, hlt, hget⟩ :=
    joinNl_get?_char_elim (nlFree_gLines hwf) (by decide) h0
  have hmem : l ∈ gLines pre gs trail := by
    rw [hdec]
    exact List.mem_append_right A (List.mem_cons_self _ _)
  obtain ⟨hsafe, hsecs⟩ := gWfb_parts hwf
  have hnext : (joinNl (gLines pre gs trail)).get? (preLen A + t + 1) = some '#' := by
    rw [show preLen A + t + 1 = i + 1 by omega]
    exact h1
  have hlsafe : lsafeb l = true → False := by
    intro hsf
    obtain ⟨hfit, hl1⟩ := hash_pair_in_line hdec hlt hnext
    have hm : matchesAt l (strOf "##") t = true := by
      rw [matchesAt_iff_get?]
      intro u hu
      have hu2 : u < 2 := by simpa [strOf] using hu
      interval_cases u
      · simpa [strOf] using hget
      · simpa [strOf] using hl1
    rw [not_matchesAt_of_not_containsSub (lsafeb_facts hsf).2.1] at hm
    cases hm
  rcases gLines_cases hmem with hp | ht | rfl | ⟨g, hg, rfl⟩ | rfl | ⟨g, lk, hg, hlk, rfl⟩
  · exact absurd (hsafe l (List.mem_append_left _ hp)) (fun hx => hlsafe hx)
  · exact absurd (hsafe l (List.mem_append_right _ ht)) (fun hx => hlsafe hx)
  · exact absurd (List.get?_mem hget) (by decide)
  · have hwfg := gsecWfb_parts (hsecs g hg)
    rcases hash_pos_hdrLine hwfg.2.1 hget with rfl | rfl
    · exact ⟨A, g, B, hdec, hg, by omega⟩
    · exfalso
      obtain ⟨hfit, hl1⟩ := hash_pair_in_line hdec hlt hnext
      rw [hdrLine_eq_cons] at hl1
      simp at hl1
  · exact absurd hget (by simp)
  · exact absurd (List.get?_mem hget)
      (linkWf_no_hash ((gsecWfb_parts (hsecs g hg)).2.2 lk hlk))

theorem monthStartAt_gLines_intro {pre trail : List Str} {gs : List GSec}
    {A B : List Str} {g : GSec}
    (hdec : gLines pre gs trail = A ++ hdrLine g.name :: B)
    (hgwf : gsecWfb g = true) :
    monthStartAt (joinNl (gLines pre gs trail)) (preLen A) = true := by
  obtain ⟨h0, hw, _⟩ := gsecWfb_parts hgwf
  obtain ⟨c, nt, hname⟩ : ∃ c nt, g.name = c :: nt := by
    cases hn : g.name with
    | nil => exact absurd hn h0
    | cons c nt => exact ⟨c, nt, rfl⟩
  have hlen : (hdrLine g.name).length = 3 + g.name.length := by
    rw [hdrLine_eq_cons]
    simp
    omega
  unfold monthStartAt
  rw [hdec]
  have g0 : (joinNl (A ++ hdrLine g.name :: B)).get? (preLen A + 0) = some '#' := by
    rw [joinNl_get?_line (by omega)]
    rw [hdrLine_eq_cons]
    rfl
  have g1 : (joinNl (A ++ hdrLine g.name :: B)).get? (preLen A + 1) = some '#' := by
    rw [joinNl_get?_line (by omega)]
    rw [hdrLine_eq_cons]
    rfl
  have g2 : (joinNl (A ++ hdrLine g.name :: B)).get? (preLen A + 2) = some ' ' := by
    rw [joinNl_get?_line (by omega)]
    rw [hdrLine_eq_cons]
    rfl
  have g3 : (joinNl (A ++ hdrLine g.name :: B)).get? (preLen A + 3) = some c := by
    rw [joinNl_get?_line (by rw [hlen, hname]; simp)]
    rw [hdrLine_eq_cons, hname]
    rfl
  rw [Nat.add_zero] at g0
  rw [g0, g1, g2, g3]
  have hcw : isWordChar c = true := List.all_eq_true.mp hw c (by rw [hname]; simp)
  simp [hcw]

end Notes

namespace Notes

theorem wordEndFrom_hdr {pre trail : List Str} {gs : List GSec} {A B : List Str} {g : GSec}
    (hdec : gLines pre gs trail = A ++ hdrLine g.name :: B) (hB : B ≠ [])
    (hgwf : gsecWfb g = true) :
    wordEndFrom (joinNl (gLines pre gs trail)) (preLen A + 3)
      = preLen A + 3 + g.name.length := by
  obtain ⟨h0, hw, _⟩ := gsecWfb_parts hgwf
  have hlen : (hdrLine g.name).length = 3 + g.name.length := by
    rw [hdrLine_eq_cons]
    simp
    omega
  have htarget : (joinNl (gLines pre gs trail)).get? (preLen A + 3 + g.name.length)
      = some '\n' := by
    rw [hdec, show preLen A + 3 + g.name.length = preLen A + (hdrLine g.name).length by omega]
    exact joinNl_get?_nl hB
  have hlt : preLen A + 3 + g.name.length < (joinNl (gLines pre gs trail)).length := by
    by_contra hcon
    rw [List.get?_eq_none.mpr (by omega)] at htarget
    cases htarget
  unfold wordEndFrom
  have hsome : firstIdxAux
      (fun j => !((((joinNl (gLines pre gs trail)).get? j).map isWordChar).getD false))
      (preLen A + 3) ((joinNl (gLines pre gs trail)).length + 1 - (preLen A + 3))
      = some (preLen A + 3 + g.name.length) := by
    rw [firstIdxAux_eq_some_iff]
    refine ⟨by omega, by omega, by rw [htarget]; decide, ?_⟩
    intro j hj1 hj2
    obtain ⟨u, hu, rfl⟩ : ∃ u, u < g.name.length ∧ j = preLen A + (3 + u) := by
      refine ⟨j - (preLen A + 3), by omega, by omega⟩
    obtain ⟨ch, hch⟩ : ∃ ch, g.name.get? u = some ch := by
      cases hgu : g.name.get? u with
      | none => rw [List.get?_eq_none] at hgu; omega
      | some ch => exact ⟨ch, rfl⟩
    have hgj : (joinNl (gLines pre gs trail)).get? (preLen A + (3 + u)) = some ch := by
      rw [hdec, joinNl_get?_line (by omega)]
      rw [hdrLine_eq_cons, show (3 : Nat) + u = u + 3 by omega]
      exact hch
    rw [hgj]
    have hchw : isWordChar ch = true := List.all_eq_true.mp hw ch (List.get?_mem hch)
    simp [hchw]
  rw [hsome]
  rfl

/-! Injectivity of link rendering. -/

theorem renderLink_decomp (lk : MLink) :
    renderLink lk = ('[' :: '_' :: (lk.disp ++ ['_'])) ++ ']' ::
      ('(' :: '.' :: '/' :: (lk.mm ++ '/' :: (lk.date ++ ['/', ')']))) := by
  rw [renderLink_eq_cons]
  simp

theorem renderLink_A_no_rbracket {lk : MLink} (h : linkWfb lk = true) :
    ']' ∉ ('[' :: '_' :: (lk.disp ++ ['_'])) := by
  unfold linkWfb at h
  simp only [Bool.and_eq_true] at h
  obtain ⟨⟨⟨⟨hdisp, _⟩, _⟩, _⟩, _⟩ := h
  intro hc
  simp only [List.mem_cons, List.mem_append, List.mem_singleton] at hc
  rcases hc with hc | hc | hc | hc
  · exact absurd hc (by decide)
  · exact absurd hc (by decide)
  · exact (okDispChar_facts (List.all_eq_true.mp hdisp _ hc)).2.2.1 rfl
  · exact absurd hc (by decide)

theorem linkWfb_lengths {lk : MLink} (h : linkWfb lk = true) :
    lk.mm.length = 2 ∧ lk.date.length = 8 := by
  unfold linkWfb at h
  simp only [Bool.and_eq_true, beq_iff_eq] at h
  exact ⟨h.1.1.1.2, h.1.2⟩

theorem renderLink_B_len {lk : MLink} (h : linkWfb lk = true) :
    ('(' :: '.' :: '/' :: (lk.mm ++ '/' :: (lk.date ++ ['/', ')']))).length = 16 := by
  obtain ⟨h1, h2⟩ := linkWfb_lengths h
  simp [h1, h2]

theorem renderLink_prefix_eq {a b : MLink} (ha : linkWfb a = true) (hb : linkWfb b = true)
    (hp : renderLink a <+: renderLink b) : renderLink a = renderLink b := by
  obtain ⟨t, ht⟩ := hp
  rw [renderLink_decomp a, renderLink_decomp b] at ht
  rw [List.append_assoc] at ht
  rw [show (']' :: ('(' :: '.' :: '/' :: (a.mm ++ '/' :: (a.date ++ ['/', ')'])))) ++ t
    = ']' :: (('(' :: '.' :: '/' :: (a.mm ++ '/' :: (a.date ++ ['/', ')']))) ++ t)
    from rfl] at ht
  obtain ⟨hA, hB⟩ := append_cons_unique ht
    (renderLink_A_no_rbracket ha) (renderLink_A_no_rbracket hb)
  have ht0 : t = [] := by
    have hlen := congrArg List.length hB
    rw [List.length_append, renderLink_B_len ha, renderLink_B_len hb] at hlen
    exact List.length_eq_zero.mp (by omega)
  subst ht0
  rw [List.append_nil] at hB
  rw [renderLink_decomp a, renderLink_decomp b, hA, hB]

theorem renderLink_inj_date {a b : MLink} (ha : linkWfb a = true) (hb : linkWfb b = true)
    (heq : renderLink a = renderLink b) : a.date = b.date := by
  have ht := heq
  rw [renderLink_decomp a, renderLink_decomp b] at ht
  obtain ⟨_, hB⟩ := append_cons_unique ht
    (renderLink_A_no_rbracket ha) (renderLink_A_no_rbracket hb)
  injection hB with _ hB1
  injection hB1 with _ hB2
  injection hB2 with _ hB3
  obtain ⟨_, hB4⟩ := List.append_inj hB3
    (by rw [(linkWfb_lengths ha).1, (linkWfb_lengths hb).1])
  injection hB4 with _ hB5
  obtain ⟨hd, _⟩ := List.append_inj hB5
    (by rw [(linkWfb_lengths ha).2, (linkWfb_lengths hb).2])
  exact hd

end Notes

namespace Notes

/-! The lazy scan of the link regular expression. -/

theorem lazyScanAux_eq_some_of {a : Type} {try1 : Nat → Option a} {s : Str} {r : a}
    {j j' fuel : Nat} (hj : j ≤ j') (hlt : j' < j + fuel) (hs : try1 j' = some r)
    (hprev : ∀ u, j ≤ u → u < j' → try1 u = none ∧ ∃ c, s.get? u = some c ∧ c ≠ '\n') :
    lazyScanAux try1 s j fuel = some r := by
  induction fuel generalizing j with
  | zero => omega
  | succ fuel ih =>
    unfold lazyScanAux
    by_cases hje : j = j'
    · subst hje
      rw [hs]
    · have hjlt : j < j' := by omega
      obtain ⟨hnone, c, hc, hcne⟩ := hprev j (le_refl _) hjlt
      simp only [hnone, hc]
      rw [if_neg hcne]
      exact ih (by omega) (by omega) fun u hu1 hu2 => hprev u (by omega) hu2

theorem lazyScanAux_eq_none_of {a : Type} {try1 : Nat → Option a} {s : Str}
    {j j' fuel : Nat} (hj : j ≤ j')
    (hstop : s.get? j' = none ∨ s.get? j' = some '\n')
    (hall : ∀ u, j ≤ u → u ≤ j' → try1 u = none) :
    lazyScanAux try1 s j fuel = none := by
  induction fuel generalizing j with
  | zero => rfl
  | succ fuel ih =>
    unfold lazyScanAux
    have hnone := hall j (le_refl _) hj
    by_cases hje : j = j'
    · subst hje
      rcases hstop with hs | hs
      · simp only [hnone, hs]
      · simp only [hnone, hs]
        simp
    · cases hgc : s.get? j with
      | none => simp only [hnone, hgc]
      | some c =>
        simp only [hnone, hgc]
        by_cases hcn : c = '\n'
        · rw [if_pos hcn]
        · rw [if_neg hcn]
          exact ih (by omega) fun u h1 h2 => hall u (by omega) h2

theorem get?_eq_of_drop_cons {s : Str} {j : Nat} {c : Char} {rest : Str}
    (h : s.drop j = c :: rest) : s.get? j = some c := by
  have hx : (s.drop j).get? 0 = s.get? (j + 0) := List.get?_drop s j 0
  rw [h] at hx
  rw [Nat.add_zero] at hx
  exact hx.symm

theorem get?_of_drop_append {s pre rest : Str} {i t : Nat}
    (h : s.drop i = pre ++ rest) (ht : t < pre.length) :
    s.get? (i + t) = pre.get? t := by
  have hx : (s.drop i).get? t = s.get? (i + t) := List.get?_drop s i t
  rw [h, List.get?_append ht] at hx
  exact hx.symm

theorem renderLink_B_no_rbracket {lk : MLink} (h : linkWfb lk = true) :
    ']' ∉ ('(' :: '.' :: '/' :: (lk.mm ++ '/' :: (lk.date ++ ['/', ')']))) := by
  obtain ⟨hmm, hdate⟩ : lk.mm.all pyIsDigit = true ∧ lk.date.all pyIsDigit = true := by
    unfold linkWfb at h
    simp only [Bool.and_eq_true] at h
    exact ⟨h.1.1.2, h.2⟩
  intro hc
  simp only [List.mem_cons, List.mem_append, List.mem_singleton] at hc
  rcases hc with hc | hc | hc | hc | hc | hc | hc | hc
  · exact absurd hc (by decide)
  · exact absurd hc (by decide)
  · exact absurd hc (by decide)
  · exact (pyIsDigit_char_facts (List.all_eq_true.mp hmm _ hc)).2.2.2.1 rfl
  · exact absurd hc (by decide)
  · exact (pyIsDigit_char_facts (List.all_eq_true.mp hdate _ hc)).2.2.2.1 rfl
  · exact absurd hc (by decide)
  · exact absurd hc (by decide)

theorem rbracket_pos_renderLink {lk : MLink} (h : linkWfb lk = true) {u : Nat}
    (hg : (renderLink lk).get? u = some ']') : u = 3 + lk.disp.length := by
  have hre := renderLink_decomp lk
  have hlenA : ('[' :: '_' :: (lk.disp ++ ['_'])).length = 3 + lk.disp.length := by
    simp
    omega
  by_cases hu : u < 3 + lk.disp.length
  · exfalso
    rw [hre, List.get?_append (by omega)] at hg
    exact renderLink_A_no_rbracket h (List.get?_mem hg)
  · by_cases hue : u = 3 + lk.disp.length
    · exact hue
    · exfalso
      rw [hre, List.get?_append_right (by omega)] at hg
      have hgt : 0 < u - ('[' :: '_' :: (lk.disp ++ ['_'])).length := by omega
      cases hv : u - ('[' :: '_' :: (lk.disp ++ ['_'])).length with
      | zero => omega
      | succ v =>
        rw [hv] at hg
        have : ('(' :: '.' :: '/' :: (lk.mm ++ '/' :: (lk.date ++ ['/', ')']))).get? v
            = some ']' := hg
        exact renderLink_B_no_rbracket h (List.get?_mem this)

theorem renderLink_get_disp {lk : MLink} {v : Nat} (hv : v < lk.disp.length) :
    (renderLink lk).get? (2 + v) = lk.disp.get? v := by
  rw [renderLink_eq_cons, show (2 : Nat) + v = v + 2 by omega]
  show (lk.disp ++ '_' :: ']' :: '(' :: '.' :: '/' ::
    (lk.mm ++ '/' :: (lk.date ++ [ '/', ')' ]))).get? v = lk.disp.get? v
  rw [List.get?_append hv]

theorem renderLink_get_underscore (lk : MLink) :
    (renderLink lk).get? (2 + lk.disp.length) = some '_' := by
  rw [renderLink_eq_cons, show (2 : Nat) + lk.disp.length = lk.disp.length + 2 by omega]
  show (lk.disp ++ '_' :: ']' :: '(' :: '.' :: '/' ::
    (lk.mm ++ '/' :: (lk.date ++ [ '/', ')' ]))).get? lk.disp.length = some '_'
  rw [List.get?_append_right (le_refl _)]
  simp

theorem renderLink_length (lk : MLink) (h : linkWfb lk = true) :
    (renderLink lk).length = lk.disp.length + 20 := by
  rw [renderLink_decomp]
  obtain ⟨h1, h2⟩ := linkWfb_lengths h
  simp [h1, h2]

end Notes

namespace Notes

theorem linkTailMatch_none_of_not_rbracket {s dfn : Str} {j : Nat}
    (h : s.get? j ≠ some ']') : linkTailMatch s dfn j = none := by
  unfold linkTailMatch
  cases hdp : s.drop j with
  | nil => rfl
  | cons c rest =>
    have hc : s.get? j = some c := get?_eq_of_drop_cons hdp
    split
    · rename_i d1 d2 r heq
      injection heq with h1 _
      exact absurd (h1 ▸ hc) h
    · rfl

theorem linkTailMatch_at_rbracket {s tail : Str} {lk : MLink} {i : Nat} {dfn : Str}
    (hwk : linkWfb lk = true) (hdfn : dfn.length = 8)
    (hdrop : s.drop i = renderLink lk ++ '\n' :: tail) :
    linkTailMatch s dfn (i + (3 + lk.disp.length))
      = if lk.date = dfn then some (i + (3 + lk.disp.length) + 7 + dfn.length + 2)
        else none := by
  obtain ⟨hmm2, hdate8⟩ := linkWfb_lengths hwk
  obtain ⟨m0, m1, hmmc⟩ := List.length_eq_two.mp hmm2
  have hdig : lk.mm.all pyIsDigit = true := by
    unfold linkWfb at hwk
    simp only [Bool.and_eq_true] at hwk
    exact hwk.1.1.2
  rw [hmmc] at hdig
  simp only [List.all_cons, List.all_nil, Bool.and_eq_true, Bool.and_true] at hdig
  have hdropj : s.drop (i + (3 + lk.disp.length))
      = ']' :: '(' :: '.' :: '/' :: m0 :: m1 :: '/' ::
        ((lk.date ++ ['/', ')']) ++ '\n' :: tail) := by
    have h1 : s.drop (i + (3 + lk.disp.length)) = (s.drop i).drop (3 + lk.disp.length) := by
      rw [List.drop_drop]
    rw [h1, hdrop, renderLink_eq_cons]
    rw [show ('[' :: '_' :: (lk.disp ++ '_' :: ']' :: '(' :: '.' :: '/' ::
        (lk.mm ++ '/' :: (lk.date ++ [ '/', ')' ])))) ++ '\n' :: tail
      = '[' :: '_' :: (lk.disp ++ ('_' :: (']' :: '(' :: '.' :: '/' ::
        (lk.mm ++ '/' :: (lk.date ++ [ '/', ')' ])) ++ '\n' :: tail))) by simp]
    rw [show 3 + lk.disp.length = lk.disp.length + 1 + 2 by omega]
    show (lk.disp ++ ('_' :: (']' :: '(' :: '.' :: '/' ::
        (lk.mm ++ '/' :: (lk.date ++ [ '/', ')' ])) ++ '\n' :: tail))).drop
          (lk.disp.length + 1) = _
    rw [drop_append_len]
    rw [hmmc]
    simp

  unfold linkTailMatch
  rw [hdropj]
  show (if pyIsDigit m0 && pyIsDigit m1
      && pyStartsWith ((lk.date ++ ['/', ')']) ++ '\n' :: tail) (dfn ++ strOf "/)")
    then some (i + (3 + lk.disp.length) + 7 + dfn.length + 2) else none) = _
  rw [hdig.1, hdig.2]
  by_cases hdd : lk.date = dfn
  · subst hdd
    have hps : pyStartsWith ((lk.date ++ ['/', ')']) ++ '\n' :: tail)
        (lk.date ++ strOf "/)") = true := by
      unfold pyStartsWith
      apply List.isPrefixOf_iff_prefix.mpr
      rw [show strOf "/)" = ['/', ')'] from rfl]
      exact List.prefix_append _ _
    rw [hps, if_pos rfl]
    simp
  · have hps : pyStartsWith ((lk.date ++ ['/', ')']) ++ '\n' :: tail)
        (dfn ++ strOf "/)") = false := by
      cases hps' : pyStartsWith ((lk.date ++ ['/', ')']) ++ '\n' :: tail)
          (dfn ++ strOf "/)") with
      | false => rfl
      | true =>
        exfalso
        have hpre := List.isPrefixOf_iff_prefix.mp hps'
        have hdpre : dfn <+: (lk.date ++ ['/', ')']) ++ '\n' :: tail :=
          (List.prefix_append dfn (strOf "/)")).trans hpre
        rw [List.append_assoc] at hdpre
        have := prefix_eq_of_length hdpre (by rw [hdfn, hdate8])
        exact hdd this.symm
    rw [hps]
    rw [if_neg hdd]
    simp

end Notes

namespace Notes

theorem linkMatchAt_at_link {s tail : Str} {lk : MLink} {i : Nat} {dfn : Str}
    (hwk : linkWfb lk = true) (hdfn : dfn.length = 8)
    (hdrop : s.drop i = renderLink lk ++ '\n' :: tail) :
    linkMatchAt s dfn i
      = if lk.date = dfn then some (i, i + (renderLink lk).length) else none := by
  have hlen := renderLink_length lk hwk
  have hdisp : lk.disp.all okDispChar = true := by
    unfold linkWfb at hwk
    simp only [Bool.and_eq_true] at hwk
    exact hwk.1.1.1.1
  have hsl : s.length = i + (renderLink lk).length + 1 + tail.length := by
    have hc := congrArg List.length hdrop
    rw [List.length_drop] at hc
    simp only [List.length_append, List.length_cons] at hc
    omega
  have hget0 : s.get? i = some '[' := by
    apply get?_eq_of_drop_cons
    rw [hdrop, renderLink_eq_cons]
    rfl
  have hget1 : s.get? (i + 1) = some '_' := by
    have := get?_of_drop_append hdrop (t := 1) (by omega)
    rw [this, renderLink_eq_cons]
    rfl
  have hmid : ∀ t, 2 ≤ t → t < 3 + lk.disp.length →
      ∃ c, s.get? (i + t) = some c ∧ c ≠ ']' ∧ c ≠ '\n' := by
    intro t h2 h3
    by_cases hv : t < 2 + lk.disp.length
    · obtain ⟨ch, hch⟩ : ∃ ch, lk.disp.get? (t - 2) = some ch := by
        cases hgu : lk.disp.get? (t - 2) with
        | none => rw [List.get?_eq_none] at hgu; omega
        | some ch => exact ⟨ch, rfl⟩
      have hgu : s.get? (i + t) = some ch := by
        rw [get?_of_drop_append hdrop (t := t) (by omega)]
        rw [show t = 2 + (t - 2) by omega, renderLink_get_disp (by omega)]
        exact hch
      have hok := okDispChar_facts (List.all_eq_true.mp hdisp ch (List.get?_mem hch))
      exact ⟨ch, hgu, hok.2.2.1, hok.1⟩
    · have hte : t = 2 + lk.disp.length := by omega
      refine ⟨'_', ?_, by decide, by decide⟩
      rw [get?_of_drop_append hdrop (t := t) (by omega), hte]
      exact renderLink_get_underscore lk
  have hgetnl : s.get? (i + (renderLink lk).length) = some '\n' := by
    have hx : (s.drop i).get? (renderLink lk).length
        = s.get? (i + (renderLink lk).length) := List.get?_drop s i _
    rw [hdrop, List.get?_append_right (le_refl _)] at hx
    simp only [Nat.sub_self] at hx
    exact hx.symm
  unfold linkMatchAt
  rw [hget0, hget1]
  simp only [beq_self_eq_true, Bool.and_self, if_true]
  by_cases hdd : lk.date = dfn
  · have hscan : lazyScanAux (linkTailMatch s dfn) s (i + 2) (s.length + 1 - (i + 2))
        = some (i + (3 + lk.disp.length) + 7 + dfn.length + 2) := by
      apply @lazyScanAux_eq_some_of _ _ _ _ _ (i + (3 + lk.disp.length)) _ (by omega) (by omega)
      · rw [linkTailMatch_at_rbracket hwk hdfn hdrop, if_pos hdd]
      · intro u hu1 hu2
        obtain ⟨c, hc, hc1, hc2⟩ := hmid (u - i) (by omega) (by omega)
        rw [show i + (u - i) = u by omega] at hc
        refine ⟨linkTailMatch_none_of_not_rbracket ?_, c, hc, hc2⟩
        rw [hc]
        intro hcon
        injection hcon with hcon
        exact hc1 hcon
    rw [hscan, if_pos hdd]
    rw [show i + (3 + lk.disp.length) + 7 + dfn.length + 2
      = i + (renderLink lk).length by omega]
  · have hscan : lazyScanAux (linkTailMatch s dfn) s (i + 2) (s.length + 1 - (i + 2))
        = none := by
      apply @lazyScanAux_eq_none_of _ _ _ _ (i + (renderLink lk).length) _ (by omega)
        (Or.inr hgetnl)
      intro u hu1 hu2
      by_cases hueq : u = i + (3 + lk.disp.length)
      · rw [hueq, linkTailMatch_at_rbracket hwk hdfn hdrop, if_neg hdd]
      · apply linkTailMatch_none_of_not_rbracket
        intro hcon
        by_cases hult : u < i + (renderLink lk).length
        · have hx : s.get? (i + (u - i)) = (renderLink lk).get? (u - i) :=
            get?_of_drop_append hdrop (by omega)
          rw [show i + (u - i) = u by omega] at hx
          rw [hx] at hcon
          have := rbracket_pos_renderLink hwk hcon
          omega
        · have hue : u = i + (renderLink lk).length := by omega
          rw [hue, hgetnl] at hcon
          injection hcon with hcon
          exact absurd hcon (by decide)
    rw [hscan, if_neg hdd]

theorem linkMatchAt_none_of_not_bracket {s dfn : Str} {i : Nat}
    (h : s.get? i ≠ some '[') : linkMatchAt s dfn i = none := by
  unfold linkMatchAt
  have hb : (s.get? i == some '[') = false := by
    cases hx : s.get? i == some '[' with
    | false => rfl
    | true => exact absurd (eq_of_beq hx) h
  rw [hb]
  simp

end Notes

namespace Notes

theorem gLines_link_not_last {pre trail : List Str} {gs : List GSec}
    {A' B' : List Str} {lk' : MLink}
    (hwf : gWfb pre gs trail = true)
    (hdec : gLines pre gs trail = A' ++ renderLink lk' :: B') : B' ≠ [] := by
  intro hcon
  subst hcon
  have h1 : (gLines pre gs trail).getLast? = some (renderLink lk') := by
    rw [hdec]
    exact List.getLast?_concat _
  have hbr : '[' ∈ renderLink lk' := by
    rw [renderLink_eq_cons]
    exact List.mem_cons_self _ _
  obtain ⟨hsafe, _⟩ := gWfb_parts hwf
  unfold gLines at h1
  cases htr : trail with
  | nil =>
    rw [htr, List.append_nil] at h1
    rw [show pre ++ gs.bind gsecLines ++ [strOf "<br/>"]
      = (pre ++ gs.bind gsecLines) ++ [strOf "<br/>"] by simp] at h1
    rw [List.getLast?_concat] at h1
    injection h1 with h1
    rw [← h1] at hbr
    exact absurd hbr (by decide)
  | cons t ts =>
    rw [htr] at h1
    rw [List.getLast?_append] at h1
    have hts : (t :: ts).getLast? = some ((t :: ts).getLast (by simp)) :=
      List.getLast?_eq_getLast _ _
    rw [hts] at h1
    simp only [Option.or_some] at h1
    injection h1 with h1
    have hmem : (t :: ts).getLast (by simp) ∈ t :: ts := List.getLast_mem _
    have hmem' : (t :: ts).getLast (by simp) ∈ trail := by
      rw [htr]
      exact hmem
    have hsf := hsafe _ (List.mem_append_right pre hmem')
    rw [h1] at hsf
    exact absurd hbr (lsafeb_facts hsf).2.2.1

theorem linkSearch_gLines {pre trail : List Str} {gs : List GSec} {dfn : Str}
    {A B : List Str} {lk : MLink}
    (hwf : gWfb pre gs trail = true) (hdfn : dfn.length = 8) (hwk : linkWfb lk = true)
    (hdec : gLines pre gs trail = A ++ renderLink lk :: B)
    (hlk : lk.date = dfn)
    (hfirst : ∀ A' lk' B', gLines pre gs trail = A' ++ renderLink lk' :: B' →
        linkWfb lk' = true → preLen A' < preLen A → lk'.date ≠ dfn) :
    linkSearch (joinNl (gLines pre gs trail)) dfn
      = some (preLen A, preLen A + (renderLink lk).length) := by
  have hB : B ≠ [] := gLines_link_not_last hwf hdec
  have hdrop : (joinNl (gLines pre gs trail)).drop (preLen A)
      = renderLink lk ++ '\n' :: joinNl B := by
    rw [hdec, joinNl_drop_pre A (renderLink lk :: B) (by simp), joinNl_cons _ hB]
  have hmatch : linkMatchAt (joinNl (gLines pre gs trail)) dfn (preLen A)
      = some (preLen A, preLen A + (renderLink lk).length) := by
    rw [linkMatchAt_at_link hwk hdfn hdrop, if_pos hlk]
  have hlt : preLen A < (joinNl (gLines pre gs trail)).length := by
    have hc := congrArg List.length hdrop
    rw [List.length_drop] at hc
    simp only [List.length_append, List.length_cons] at hc
    have := renderLink_length lk hwk
    omega
  unfold linkSearch
  have hidx : firstIdxAux
      (fun i => (linkMatchAt (joinNl (gLines pre gs trail)) dfn i).isSome) 0
      ((joinNl (gLines pre gs trail)).length + 1) = some (preLen A) := by
    rw [firstIdxAux_eq_some_iff]
    refine ⟨by omega, by omega, by rw [hmatch]; rfl, ?_⟩
    intro j _ hj2
    cases hgj : (joinNl (gLines pre gs trail)).get? j with
    | none =>
      rw [linkMatchAt_none_of_not_bracket (by rw [hgj]; intro hx; cases hx)]
      rfl
    | some c =>
      by_cases hcb : c = '['
      · subst hcb
        obtain ⟨A', lk', B', hdec', hj', hwk'⟩ := gLines_get_bracket hwf hgj
        have hB' : B' ≠ [] := gLines_link_not_last hwf hdec'
        have hdrop' : (joinNl (gLines pre gs trail)).drop (preLen A')
            = renderLink lk' ++ '\n' :: joinNl B' := by
          rw [hdec', joinNl_drop_pre A' (renderLink lk' :: B') (by simp), joinNl_cons _ hB']
        subst hj'
        rw [linkMatchAt_at_link hwk' hdfn hdrop',
          if_neg (hfirst A' lk' B' hdec' hwk' hj2)]
        rfl
      · rw [linkMatchAt_none_of_not_bracket
          (by rw [hgj]; intro hx; injection hx with hx; exact hcb hx)]
        rfl
  rw [hidx]
  exact hmatch

end Notes

namespace Notes

/-! Structural decoding of document cuts: a decomposition of the line list of
a generalised document pins the cut line to the preamble, a header, a body
line, the sentinel or the trail, with its structural position. -/

theorem cut_split {α : Type} : ∀ {X Y A B : List α} {l : α}, X ++ Y = A ++ l :: B →
    (∃ B₁, X = A ++ l :: B₁ ∧ B = B₁ ++ Y) ∨ (∃ A₂, Y = A₂ ++ l :: B ∧ A = X ++ A₂) := by
  intro X
  induction X with
  | nil =>
    intro Y A B l h
    rw [List.nil_append] at h
    exact Or.inr ⟨A, h, rfl⟩
  | cons x X' ih =>
    intro Y A B l h
    cases A with
    | nil =>
      rw [List.nil_append] at h
      rw [List.cons_append] at h
      injection h with h1 h2
      subst h1
      exact Or.inl ⟨X', by simp, h2.symm⟩
    | cons a A' =>
      rw [List.cons_append, List.cons_append] at h
      injection h with h1 h2
      subst h1
      rcases ih h2 with ⟨B₁, hx, hb⟩ | ⟨A₂, hy, ha⟩
      · exact Or.inl ⟨B₁, by rw [List.cons_append, hx], hb⟩
      · exact Or.inr ⟨A₂, hy, by rw [List.cons_append, ha]⟩

theorem map_cut {α β : Type} {f : α → β} : ∀ {xs : List α} {A B : List β} {l : β},
    xs.map f = A ++ l :: B →
    ∃ b₁ o b₂, xs = b₁ ++ o :: b₂ ∧ l = f o ∧ A = b₁.map f ∧ B = b₂.map f := by
  intro xs
  induction xs with
  | nil =>
    intro A B l h
    rw [List.map_nil] at h
    exact absurd h (by simp)
  | cons x xs' ih =>
    intro A B l h
    rw [List.map_cons] at h
    cases A with
    | nil =>
      rw [List.nil_append] at h
      injection h with h1 h2
      exact ⟨[], x, xs', rfl, h1.symm, rfl, h2.symm⟩
    | cons a A' =>
      rw [List.cons_append] at h
      injection h with h1 h2
      obtain ⟨b₁, o, b₂, hx, hl, ha, hb⟩ := ih h2
      exact ⟨x :: b₁, o, b₂, by rw [hx]; simp, hl,
        by rw [List.map_cons, ← h1, ha], hb⟩

theorem gs_bind_cut : ∀ {gs : List GSec} {A B : List Str} {l : Str},
    gs.bind gsecLines = A ++ l :: B →
    ∃ G₁ g G₂, gs = G₁ ++ g :: G₂ ∧
      ((l = hdrLine g.name ∧ A = G₁.bind gsecLines) ∨
       (∃ b₁ o b₂, g.body = b₁ ++ o :: b₂ ∧ l = bLine o ∧
         A = G₁.bind gsecLines ++ hdrLine g.name :: b₁.map bLine)) := by
  intro gs
  induction gs with
  | nil =>
    intro A B l h
    exact absurd h (by simp)
  | cons g gs' ih =>
    intro A B l h
    rw [bind_cons_eq] at h
    rcases cut_split h with ⟨B₁, hx, _⟩ | ⟨A₂, hy, ha⟩
    · unfold gsecLines at hx
      cases A with
      | nil =>
        rw [List.nil_append] at hx
        injection hx with h1 _
        exact ⟨[], g, gs', rfl, Or.inl ⟨h1.symm, rfl⟩⟩
      | cons a A' =>
        rw [List.cons_append] at hx
        injection hx with h1 h2
        obtain ⟨b₁, o, b₂, hbody, hl, ha', hb'⟩ := map_cut h2
        refine ⟨[], g, gs', rfl, Or.inr ⟨b₁, o, b₂, hbody, hl, ?_⟩⟩
        rw [show ([] : List GSec).bind gsecLines = [] from rfl, List.nil_append]
        rw [h1, ha']
    · obtain ⟨G₁, g', G₂, hgs, hcase⟩ := ih hy
      refine ⟨g :: G₁, g', G₂, by rw [hgs]; simp, ?_⟩
      rcases hcase with ⟨hl, hA₂⟩ | ⟨b₁, o, b₂, hbody, hl, hA₂⟩
      · exact Or.inl ⟨hl, by rw [ha, hA₂, bind_cons_eq]⟩
      · exact Or.inr ⟨b₁, o, b₂, hbody, hl, by rw [ha, hA₂, bind_cons_eq]; simp⟩

end Notes

namespace Notes

theorem gLines_cut {pre trail : List Str} {gs : List GSec} {A B : List Str} {l : Str}
    (hdec : gLines pre gs trail = A ++ l :: B) :
    (∃ p₁ p₂, pre = p₁ ++ l :: p₂ ∧ A = p₁) ∨
    (∃ G₁ g G₂, gs = G₁ ++ g :: G₂ ∧
      ((l = hdrLine g.name ∧ A = pre ++ G₁.bind gsecLines) ∨
       (∃ b₁ o b₂, g.body = b₁ ++ o :: b₂ ∧ l = bLine o ∧
         A = pre ++ G₁.bind gsecLines ++ hdrLine g.name :: b₁.map bLine))) ∨
    (l = strOf "<br/>" ∧ A = pre ++ gs.bind gsecLines) ∨
    (∃ t₁ t₂, trail = t₁ ++ l :: t₂ ∧ A = pre ++ gs.bind gsecLines ++ [strOf "<br/>"] ++ t₁) := by
  unfold gLines at hdec
  rw [List.append_assoc, List.append_assoc] at hdec
  rcases cut_split hdec with ⟨B₁, hx, _⟩ | ⟨A₂, hy, ha⟩
  · exact Or.inl ⟨A, B₁, hx, rfl⟩
  · rcases cut_split hy with ⟨B₂, hx2, _⟩ | ⟨A₃, hy2, ha2⟩
    · obtain ⟨G₁, g, G₂, hgs, hcase⟩ := gs_bind_cut hx2
      refine Or.inr (Or.inl ⟨G₁, g, G₂, hgs, ?_⟩)
      rcases hcase with ⟨hl, hA⟩ | ⟨b₁, o, b₂, hbody, hl, hA⟩
      · exact Or.inl ⟨hl, by rw [ha, hA]⟩
      · exact Or.inr ⟨b₁, o, b₂, hbody, hl, by rw [ha, hA]; simp⟩
    · rcases cut_split hy2 with ⟨B₃, hx3, _⟩ | ⟨A₄, hy3, ha3⟩
      · cases A₃ with
        | nil =>
          rw [List.nil_append] at hx3
          injection hx3 with h1 _
          refine Or.inr (Or.inr (Or.inl ⟨h1.symm, ?_⟩))
          rw [ha, ha2, List.append_nil]
        | cons a A₃' =>
          rw [List.cons_append] at hx3
          injection hx3 with _ h2
          exact absurd h2.symm (by simp)
      · refine Or.inr (Or.inr (Or.inr ⟨A₄, B, hy3, ?_⟩))
        rw [ha, ha2, ha3]
        simp

end Notes

namespace Notes

/-! Line-shape facts: how each line kind interacts with the header pattern,
the double hash and the sentinel. -/

theorem hdrLine_length (m : Str) : (hdrLine m).length = 3 + m.length := by
  rw [hdrLine_eq_cons]
  simp
  omega

theorem hdr_in_hdr {m nk : Str} (hk : nk.all isWordChar = true) {t : Nat}
    (h : matchesAt (hdrLine nk) (hdrLine m) t = true) : t = 0 ∧ m <+: nk := by
  have hpre := matchesAt_iff_pref.mp h
  rw [matchesAt_iff_get?] at h
  have h0 := h 0 (by rw [hdrLine_length]; omega)
  rw [Nat.add_zero] at h0
  have ht0 : t = 0 ∨ t = 1 := hash_pos_hdrLine hk (by rw [h0]; rfl)
  rcases ht0 with rfl | rfl
  · refine ⟨rfl, ?_⟩
    rw [List.drop_zero] at hpre
    rw [hdrLine_eq_cons, hdrLine_eq_cons] at hpre
    have h1 := (List.cons_prefix_cons.mp hpre).2
    have h2 := (List.cons_prefix_cons.mp h1).2
    exact (List.cons_prefix_cons.mp h2).2
  · exfalso
    have h1 := h 1 (by rw [hdrLine_length]; omega)
    rw [hdrLine_eq_cons, hdrLine_eq_cons] at h1
    simp at h1

theorem no_hdr_match_lsafe {l m : Str} {t : Nat} (hsf : lsafeb l = true) :
    matchesAt l (hdrLine m) t = false := by
  have hpp : strOf "##" <+: hdrLine m := ⟨' ' :: m, rfl⟩
  cases hm : matchesAt l (hdrLine m) t with
  | false => rfl
  | true =>
    exfalso
    have := matchesAt_mono hpp hm
    rw [not_matchesAt_of_not_containsSub (lsafeb_facts hsf).2.1] at this
    cases this

theorem no_hdr_match_bLine {o : Option MLink} {m : Str} {t : Nat}
    (ho : ∀ lk, o = some lk → linkWfb lk = true) :
    matchesAt (bLine o) (hdrLine m) t = false := by
  cases o with
  | none =>
    cases hm : matchesAt (bLine none) (hdrLine m) t with
    | false => rfl
    | true =>
      exfalso
      have hb := matchesAt_bound (by rw [hdrLine_eq_cons]; simp) hm
      rw [hdrLine_length] at hb
      have : (bLine none).length = 0 := rfl
      omega
  | some lk =>
    cases hm : matchesAt (bLine (some lk)) (hdrLine m) t with
    | false => rfl
    | true =>
      exfalso
      have hsub := matchesAt_subset hm
      have hh : '#' ∈ hdrLine m := by rw [hdrLine_eq_cons]; simp
      exact linkWf_no_hash (ho lk rfl) (hsub hh)

theorem no_hdr_match_sent {m : Str} {t : Nat} :
    matchesAt (strOf "<br/>") (hdrLine m) t = false := by
  cases hm : matchesAt (strOf "<br/>") (hdrLine m) t with
  | false => rfl
  | true =>
    exfalso
    have hsub := matchesAt_subset hm
    have hh : '#' ∈ hdrLine m := by rw [hdrLine_eq_cons]; simp
    exact absurd (hsub hh) (by decide)

theorem startsWith_hash2_lsafe {l : Str} (hsf : lsafeb l = true) :
    pyStartsWith l (strOf "##") = false := by
  cases hm : pyStartsWith l (strOf "##") with
  | false => rfl
  | true =>
    exfalso
    have hma : matchesAt l (strOf "##") 0 = true := by
      unfold matchesAt
      rw [List.drop_zero]
      exact hm
    rw [not_matchesAt_of_not_containsSub (lsafeb_facts hsf).2.1] at hma
    cases hma

theorem startsWith_hash2_bLine (o : Option MLink) :
    pyStartsWith (bLine o) (strOf "##") = false := by
  cases o with
  | none => rfl
  | some lk =>
    show pyStartsWith (renderLink lk) (strOf "##") = false
    rw [renderLink_eq_cons]
    rfl

theorem startsWith_hash2_sent : pyStartsWith (strOf "<br/>") (strOf "##") = false := by
  decide

theorem startsWith_hash2_hdr (name : Str) :
    pyStartsWith (hdrLine name) (strOf "##") = true := by
  rw [hdrLine_eq_cons]
  rfl

theorem startsWith_br_hdr (name : Str) :
    pyStartsWith (hdrLine name) (strOf "<br/>") = false := by
  rw [hdrLine_eq_cons]
  rfl

theorem startsWith_br_bLine (o : Option MLink) :
    pyStartsWith (bLine o) (strOf "<br/>") = false := by
  cases o with
  | none => rfl
  | some lk =>
    show pyStartsWith (renderLink lk) (strOf "<br/>") = false
    rw [renderLink_eq_cons]
    rfl

theorem startsWith_br_sent : pyStartsWith (strOf "<br/>") (strOf "<br/>") = true := by
  decide

end Notes

namespace Notes

theorem preLen_gsecLines (g : GSec) :
    preLen (gsecLines g) = 3 + g.name.length + 1 + preLen (g.body.map bLine) := by
  unfold gsecLines
  rw [preLen_cons, hdrLine_length]

/-- Spans (start, end) of the month-header matches of a section list rendered
from a base position. -/
def gHdrSpans (base : Nat) : List GSec → List (Nat × Nat)
  | [] => []
  | g :: rest => (base, base + 3 + g.name.length)
      :: gHdrSpans (base + preLen (gsecLines g)) rest

theorem gHdrSpans_cons (base : Nat) (g : GSec) (rest : List GSec) :
    gHdrSpans base (g :: rest)
      = (base, base + 3 + g.name.length)
        :: gHdrSpans (base + preLen (gsecLines g)) rest := rfl

theorem bind_append_eq {α β : Type} (xs ys : List α) (f : α → List β) :
    (xs ++ ys).bind f = xs.bind f ++ ys.bind f := by
  induction xs with
  | nil => rfl
  | cons x t ih => rw [List.cons_append, bind_cons_eq, bind_cons_eq, ih, List.append_assoc]

theorem hdrLine_ne_bLine {name : Str} {o : Option MLink} (h : hdrLine name = bLine o) :
    False := by
  cases o with
  | none => rw [hdrLine_eq_cons] at h; cases h
  | some lk =>
    rw [show bLine (some lk) = renderLink lk from rfl] at h
    rw [hdrLine_eq_cons, renderLink_eq_cons] at h
    injection h with h1 _
    exact absurd h1 (by decide)

theorem hdrLine_ne_sent {name : Str} (h : hdrLine name = strOf "<br/>") : False := by
  rw [hdrLine_eq_cons] at h
  injection h with h1 _
  exact absurd h1 (by decide)

theorem hdrLine_not_lsafe {name : Str} (h : lsafeb (hdrLine name) = true) : False := by
  have hm : matchesAt (hdrLine name) (strOf "##") 0 = true := by
    unfold matchesAt
    rw [List.drop_zero, hdrLine_eq_cons]
    rfl
  have := containsSub_of_matchesAt hm
  rw [(lsafeb_facts h).2.1] at this
  cases this

/-- A month-header match inside a well-formed generalised document sits at a
section boundary: either inside the consumed prefix D or at the head of the
remaining sections. -/
theorem monthStartAt_cut {pre trail : List Str} {gs : List GSec} {j : Nat}
    (hwf : gWfb pre gs trail = true)
    (h : monthStartAt (joinNl (gLines pre gs trail)) j = true) :
    ∃ G₁ g G₂, gs = G₁ ++ g :: G₂ ∧ j = preLen (pre ++ G₁.bind gsecLines) := by
  obtain ⟨A, g, B, hdec, hg, rfl⟩ := monthStartAt_gLines_elim hwf h
  obtain ⟨hsafe, hsecs⟩ := gWfb_parts hwf
  rcases gLines_cut hdec with ⟨p₁, p₂, hpre, rfl⟩ |
    ⟨G₁, g', G₂, hgs, hcase⟩ | ⟨hl, _⟩ | ⟨t₁, t₂, htr, rfl⟩
  · exfalso
    apply @hdrLine_not_lsafe g.name
    apply hsafe
    apply List.mem_append_left
    rw [hpre]
    simp
  · rcases hcase with ⟨hl, rfl⟩ | ⟨b₁, o, b₂, hbody, hl, rfl⟩
    · exact ⟨G₁, g', G₂, hgs, rfl⟩
    · exact absurd hl (fun hx => hdrLine_ne_bLine hx)
  · exact absurd hl (fun hx => hdrLine_ne_sent hx)
  · exfalso
    apply @hdrLine_not_lsafe g.name
    apply hsafe
    apply List.mem_append_right
    rw [htr]
    simp

theorem monthMatchesAux_gLines {pre trail : List Str} :
    ∀ (S D : List GSec) (pos fuel : Nat) (gs : List GSec),
    gs = D ++ S → gWfb pre gs trail = true →
    (∀ D₁ g D₂, D = D₁ ++ g :: D₂ → preLen (pre ++ D₁.bind gsecLines) < pos) →
    pos ≤ preLen (pre ++ D.bind gsecLines) →
    S.length + 1 ≤ fuel →
    monthMatchesAux (joinNl (gLines pre gs trail)) pos fuel
      = gHdrSpans (preLen (pre ++ D.bind gsecLines)) S := by
  intro S
  induction S with
  | nil =>
    intro D pos fuel gs hgs hwf hprev hpos hfuel
    cases fuel with
    | zero => omega
    | succ f =>
      unfold monthMatchesAux
      have hnone : firstIdxAux (fun i => monthStartAt (joinNl (gLines pre gs trail)) i)
          pos ((joinNl (gLines pre gs trail)).length + 1 - pos) = none := by
        rw [firstIdxAux_eq_none_iff]
        intro j hj1 _
        cases hmj : monthStartAt (joinNl (gLines pre gs trail)) j with
        | false => rfl
        | true =>
          exfalso
          obtain ⟨G₁, g, G₂, hcut, rfl⟩ := monthStartAt_cut hwf hmj
          rw [List.append_nil] at hgs
          subst hgs
          have := hprev G₁ g G₂ hcut
          omega
      rw [hnone]
      rfl
  | cons g S' ih =>
    intro D pos fuel gs hgs hwf hprev hpos hfuel
    cases fuel with
    | zero => omega
    | succ f =>
      have hgwf : gsecWfb g = true := by
        apply (gWfb_parts hwf).2
        rw [hgs]
        simp
      have hsplit : gLines pre gs trail = (pre ++ D.bind gsecLines)
          ++ hdrLine g.name :: (g.body.map bLine
              ++ (S'.bind gsecLines ++ ([strOf "<br/>"] ++ trail))) := by
        unfold gLines
        rw [hgs, bind_append_eq, bind_cons_eq]
        unfold gsecLines
        simp
      have hBne : (g.body.map bLine ++ (S'.bind gsecLines ++ ([strOf "<br/>"] ++ trail)))
          ≠ [] := by
        simp
      have hfirst : firstIdxAux (fun i => monthStartAt (joinNl (gLines pre gs trail)) i)
          pos ((joinNl (gLines pre gs trail)).length + 1 - pos)
          = some (preLen (pre ++ D.bind gsecLines)) := by
        rw [firstIdxAux_eq_some_iff]
        have hat := monthStartAt_gLines_intro hsplit hgwf
        have hget : (joinNl (gLines pre gs trail)).get? (preLen (pre ++ D.bind gsecLines))
            = some '#' := by
          rw [show preLen (pre ++ D.bind gsecLines)
              = preLen (pre ++ D.bind gsecLines) + 0 from rfl, hsplit,
            joinNl_get?_line (by rw [hdrLine_length]; omega), hdrLine_eq_cons]
          rfl
        have hlt : preLen (pre ++ D.bind gsecLines) < (joinNl (gLines pre gs trail)).length := by
          by_contra hcon
          rw [List.get?_eq_none.mpr (by omega)] at hget
          cases hget
        refine ⟨hpos, by omega, hat, ?_⟩
        intro j hj1 hj2
        cases hmj : monthStartAt (joinNl (gLines pre gs trail)) j with
        | false => rfl
        | true =>
          exfalso
          obtain ⟨G₁, g', G₂, hcut, rfl⟩ := monthStartAt_cut hwf hmj
          rw [hgs] at hcut
          rcases cut_split hcut with ⟨B₁, hD, _⟩ | ⟨A₂, hS, hG₁⟩
          · have := hprev G₁ g' B₁ hD
            omega
          · have hge : preLen (pre ++ D.bind gsecLines)
                ≤ preLen (pre ++ G₁.bind gsecLines) := by
              rw [hG₁, bind_append_eq, preLen_append, preLen_append, preLen_append]
              omega
            omega
      unfold monthMatchesAux
      rw [hfirst]
      show (preLen (pre ++ D.bind gsecLines),
          wordEndFrom (joinNl (gLines pre gs trail)) (preLen (pre ++ D.bind gsecLines) + 3))
        :: monthMatchesAux (joinNl (gLines pre gs trail))
          (wordEndFrom (joinNl (gLines pre gs trail)) (preLen (pre ++ D.bind gsecLines) + 3)) f
        = gHdrSpans (preLen (pre ++ D.bind gsecLines)) (g :: S')
      have hwe := wordEndFrom_hdr hsplit hBne hgwf
      rw [hwe]
      rw [ih (D ++ [g]) (preLen (pre ++ D.bind gsecLines) + 3 + g.name.length) f gs
        (by rw [hgs]; simp) hwf ?hprev ?hpos
        (by rw [List.length_cons] at hfuel; omega)]
      case hprev =>
        intro D₁ g'' D₂ hD
        rcases cut_split hD with ⟨B₁, hDD, _⟩ | ⟨A₂, hGG, hD₁⟩
        · have := hprev D₁ g'' B₁ hDD
          omega
        · cases A₂ with
          | nil =>
            rw [List.append_nil] at hD₁
            rw [hD₁]
            omega
          | cons a A₂' =>
            rw [List.cons_append] at hGG
            injection hGG with _ h2
            exact absurd h2.symm (by simp)
      case hpos =>
        rw [bind_append_eq, ← List.append_assoc,
          preLen_append (pre ++ D.bind gsecLines) ([g].bind gsecLines)]
        have h5 : preLen ([g].bind gsecLines) = preLen (gsecLines g) := by
          rw [bind_cons_eq]
          simp [preLen_append]
        rw [h5, preLen_gsecLines]
        omega
      show _ = gHdrSpans (preLen (pre ++ D.bind gsecLines)) (g :: S')
      have hbase : preLen (pre ++ (D ++ [g]).bind gsecLines)
          = preLen (pre ++ D.bind gsecLines) + preLen (gsecLines g) := by
        rw [bind_append_eq, ← List.append_assoc,
          preLen_append (pre ++ D.bind gsecLines) ([g].bind gsecLines)]
        have h5 : preLen ([g].bind gsecLines) = preLen (gsecLines g) := by
          rw [bind_cons_eq]
          simp [preLen_append]
        rw [h5]
      rw [hbase, gHdrSpans_cons]

theorem length_le_preLen (ls : List Str) : ls.length ≤ preLen ls := by
  induction ls with
  | nil => simp [preLen]
  | cons l t ih =>
    rw [preLen_cons, List.length_cons]
    omega

theorem length_le_bind_gsecLines (gs : List GSec) :
    gs.length ≤ (gs.bind gsecLines).length := by
  induction gs with
  | nil => simp
  | cons x xs ihx =>
    rw [bind_cons_eq, List.length_append, List.length_cons]
    have hx : 1 ≤ (gsecLines x).length := by
      unfold gsecLines
      simp
    omega

/-- The month-header matches of a rendered generalised document. -/
theorem monthMatches_gLines {pre trail : List Str} {gs : List GSec}
    (hwf : gWfb pre gs trail = true) :
    monthMatches (joinNl (gLines pre gs trail))
      = gHdrSpans (preLen pre) gs := by
  unfold monthMatches
  have hlen : gs.length + 1 ≤ (joinNl (gLines pre gs trail)).length + 1 := by
    have h1 : (gLines pre gs trail).length ≤ (joinNl (gLines pre gs trail)).length + 1 := by
      have h2 := preLen_eq_joinNl_length (A := gLines pre gs trail) (by unfold gLines; simp)
      have h3 := length_le_preLen (gLines pre gs trail)
      omega
    have h4 : gs.length + 1 ≤ (gLines pre gs trail).length := by
      have h5 := length_le_bind_gsecLines gs
      unfold gLines
      simp only [List.length_append, List.length_singleton]
      omega
    omega
  have := monthMatchesAux_gLines gs [] 0 ((joinNl (gLines pre gs trail)).length + 1) gs
    rfl hwf (by intro D₁ g D₂ h; exact absurd h (by simp)) (by simp) hlen
  rw [this]
  congr 1
  simp

end Notes

namespace Notes

/-! The empty-section check: stripping a rendered section body and looking
for a note line reduces to whether the body holds any link. -/

/-- Whether a section body holds at least one link line. -/
def bodyHasLink (body : List (Option MLink)) : Bool := body.any fun o => o.isSome

/-- First empty section of a section list, with its prefix and suffix. -/
def splitFirstEmpty : List GSec → Option (List GSec × GSec × List GSec)
  | [] => none
  | g :: rest =>
    if bodyHasLink g.body then
      (splitFirstEmpty rest).map fun x => (g :: x.1, x.2.1, x.2.2)
    else some ([], g, rest)

theorem mem_joinNl : ∀ {Q : List Str} {c : Char}, c ∈ joinNl Q →
    (∃ l ∈ Q, c ∈ l) ∨ c = '\n' := by
  intro Q
  induction Q with
  | nil => intro c h; cases h
  | cons l rest ih =>
    intro c h
    cases hr : rest with
    | nil =>
      rw [hr] at h
      exact Or.inl ⟨l, by simp, h⟩
    | cons x xs =>
      rw [hr] at h
      rw [joinNl_cons l (by simp)] at h
      rw [List.mem_append] at h
      rcases h with h | h
      · exact Or.inl ⟨l, by simp, h⟩
      · rw [List.mem_cons] at h
        rcases h with rfl | h
        · exact Or.inr rfl
        · have hcr : c ∈ joinNl rest := by rw [hr]; exact h
          rcases ih hcr with ⟨l', hl', hc⟩ | hc
          · rw [hr] at hl'
            exact Or.inl ⟨l', List.mem_cons_of_mem _ hl', hc⟩
          · exact Or.inr hc

theorem pyStrip_all_ws {s : Str} (h : ∀ c ∈ s, isWs c = true) : pyStrip s = [] := by
  unfold pyStrip
  rw [dropWhile_all_ws_nil h]
  rfl

theorem first_some_split {body : List (Option MLink)}
    (h : bodyHasLink body = true) :
    ∃ pref lk rest, body = pref ++ some lk :: rest ∧ ∀ o ∈ pref, o = none := by
  induction body with
  | nil => cases h
  | cons o rest ih =>
    cases o with
    | some lk => exact ⟨[], lk, rest, rfl, by simp⟩
    | none =>
      have hr : bodyHasLink rest = true := by
        unfold bodyHasLink at h ⊢
        simpa using h
      obtain ⟨pref, lk, rest', hdec, hall⟩ := ih hr
      refine ⟨none :: pref, lk, rest', by rw [hdec]; rfl, ?_⟩
      intro x hx
      rcases List.mem_cons.mp hx with rfl | hx
      · rfl
      · exact hall x hx

theorem last_some_split {body : List (Option MLink)}
    (h : bodyHasLink body = true) :
    ∃ rest lk suff, body = rest ++ some lk :: suff ∧ ∀ o ∈ suff, o = none := by
  induction body with
  | nil => cases h
  | cons o rest ih =>
    by_cases hr : bodyHasLink rest = true
    · obtain ⟨r2, lk, suff, hdec, hall⟩ := ih hr
      exact ⟨o :: r2, lk, suff, by rw [hdec]; rfl, hall⟩
    · cases o with
      | some lk =>
        refine ⟨[], lk, rest, rfl, ?_⟩
        intro x hx
        cases x with
        | none => rfl
        | some y =>
          exfalso
          apply hr
          unfold bodyHasLink
          rw [List.any_eq_true]
          exact ⟨some y, hx, rfl⟩
      | none =>
        exfalso
        apply hr
        unfold bodyHasLink at h ⊢
        simpa using h

theorem joinNl_blank_prefix : ∀ {n : Nat} {X : List Str}, X ≠ [] →
    joinNl (List.replicate n ([] : Str) ++ X) = List.replicate n '\n' ++ joinNl X := by
  intro n
  induction n with
  | zero => intro X _; simp
  | succ m ih =>
    intro X hX
    rw [List.replicate_succ, List.cons_append,
      joinNl_cons _ (by simp [hX]), ih hX]
    simp [List.replicate_succ]

theorem joinNl_replicate_blank : ∀ k : Nat,
    joinNl (List.replicate (k + 1) ([] : Str)) = List.replicate k '\n' := by
  intro k
  induction k with
  | zero => rfl
  | succ m ih =>
    rw [List.replicate_succ ([] : Str) (m + 1), joinNl_cons _ (by simp), ih]
    rw [List.replicate_succ '\n' m]
    simp

theorem joinNl_blank_suffix {X : List Str} (hX : X ≠ []) (m : Nat) :
    joinNl (X ++ List.replicate m ([] : Str)) = joinNl X ++ List.replicate m '\n' := by
  cases m with
  | zero => simp
  | succ m' =>
    rw [joinNl_append X _ hX (by simp), joinNl_replicate_blank]
    rw [List.replicate_succ '\n' m']

end Notes

namespace Notes

theorem pySlice_join_mid_left_nl {P Q R : List Str} (hP : P ≠ []) (hQ : Q ≠ [])
    (hR : R ≠ []) :
    pySlice (joinNl (P ++ Q ++ R)) (preLen P - 1) (preLen (P ++ Q))
      = '\n' :: (joinNl Q ++ ['\n']) := by
  have hPQ : P ++ Q ≠ [] := by
    intro hcon
    exact hQ (List.append_eq_nil.mp hcon).2
  unfold pySlice
  rw [joinNl_take_pre_nl (P ++ Q) R hPQ hR, joinNl_append P Q hP hQ]
  rw [show joinNl P ++ '\n' :: joinNl Q ++ ['\n']
    = joinNl P ++ ('\n' :: (joinNl Q ++ ['\n'])) by simp]
  rw [preLen_eq_joinNl_length hP]
  simp only [Nat.add_sub_cancel]
  rw [show (joinNl P).length = (joinNl P).length + 0 by omega, drop_append_len]
  rfl

theorem map_bLine_all_none {X : List (Option MLink)} (h : ∀ o ∈ X, o = none) :
    X.map bLine = List.replicate X.length ([] : Str) := by
  induction X with
  | nil => rfl
  | cons o rest ih =>
    rw [List.map_cons, List.length_cons, List.replicate_succ]
    rw [h o (List.mem_cons_self _ _)]
    rw [ih fun x hx => h x (List.mem_cons_of_mem _ hx)]
    rfl

theorem getLast?_renderLink (lk : MLink) : (renderLink lk).getLast? = some ')' := by
  rw [renderLink_head_last]
  rw [show '[' :: (('_' :: lk.disp ++ '_' :: ']' :: '(' :: '.' :: '/' ::
      (lk.mm ++ '/' :: lk.date ++ ['/'])) ++ [')'])
    = ('[' :: ('_' :: lk.disp ++ '_' :: ']' :: '(' :: '.' :: '/' ::
      (lk.mm ++ '/' :: lk.date ++ ['/']))) ++ [')'] by simp]
  exact List.getLast?_concat _

theorem getLast?_some_of_ne_nil {α : Type} {z : List α} (h : z ≠ []) :
    ∃ a, z.getLast? = some a ∧ a ∈ z := by
  refine ⟨z.getLast h, List.getLast?_eq_getLast z h, List.getLast_mem h⟩

theorem getLast?_joinNl_concat {Y : List Str} {z : Str} (hz : z ≠ []) :
    (joinNl (Y ++ [z])).getLast? = z.getLast? := by
  cases hY : Y with
  | nil => rfl
  | cons y ys =>
    rw [← hY, joinNl_append Y [z] (by rw [hY]; simp) (by simp)]
    rw [List.getLast?_append]
    obtain ⟨a, ha, _⟩ := getLast?_some_of_ne_nil hz
    have h2 : ('\n' :: joinNl [z]).getLast? = z.getLast? := by
      show ('\n' :: z).getLast? = z.getLast?
      rw [show '\n' :: z = ['\n'] ++ z by rfl, List.getLast?_append, ha]
      rfl
    rw [h2, ha]
    rfl

theorem pyStrip_fix_ends {s : Str} (h1 : s.get? 0 = some '[') (h2 : s.getLast? = some ')') :
    pyStrip s = s := by
  cases hs : s with
  | nil => rw [hs] at h1; cases h1
  | cons c t =>
    rw [hs] at h1 h2
    injection h1 with h1
    by_cases ht : t = []
    · exfalso
      subst ht
      rw [show [c].getLast? = some c from rfl] at h2
      injection h2 with h2
      rw [h2] at h1
      exact absurd h1 (by decide)
    · obtain ⟨t', b, htb⟩ := (List.eq_nil_or_concat t).resolve_left ht
      rw [List.concat_eq_append] at htb
      rw [htb, show c :: (t' ++ [b]) = (c :: t') ++ [b] by rfl,
        List.getLast?_concat] at h2
      injection h2 with h2
      rw [htb]
      exact pyStrip_cons_snoc (by rw [h1]; decide) (by rw [h2]; decide)

theorem joinNl_head_bracket {lk : MLink} (X : List Str) :
    (joinNl (renderLink lk :: X)).get? 0 = some '[' := by
  cases X with
  | nil =>
    show (renderLink lk).get? 0 = some '['
    rw [renderLink_eq_cons]
    rfl
  | cons x xs =>
    rw [joinNl_cons _ (by simp)]
    rw [renderLink_eq_cons]
    rfl

theorem scan_check_core {body : List (Option MLink)} {pad : Str}
    (hwfb : ∀ lk, some lk ∈ body → linkWfb lk = true)
    (hpad : ∀ c ∈ pad, isWs c = true) :
    ((splitNl (pyStrip ('\n' :: (joinNl (body.map bLine) ++ pad)))).any
        fun line => pyStartsWith (pyStrip line) (strOf "[_")) = bodyHasLink body := by
  cases hhl : bodyHasLink body with
  | false =>
    have hall : ∀ o ∈ body, o = none := by
      intro o ho
      cases o with
      | none => rfl
      | some lk =>
        exfalso
        have : bodyHasLink body = true := by
          unfold bodyHasLink
          rw [List.any_eq_true]
          exact ⟨some lk, ho, rfl⟩
        rw [hhl] at this
        cases this
    have hws : ∀ c ∈ ('\n' :: (joinNl (body.map bLine) ++ pad)), isWs c = true := by
      intro c hc
      rcases List.mem_cons.mp hc with rfl | hc
      · decide
      rcases List.mem_append.mp hc with hc | hc
      · rcases mem_joinNl hc with ⟨l, hl, hcl⟩ | rfl
        · rw [List.mem_map] at hl
          obtain ⟨o, ho, rfl⟩ := hl
          rw [hall o ho] at hcl
          cases hcl
        · decide
      · exact hpad c hc
    rw [pyStrip_all_ws hws]
    decide
  | true =>
    obtain ⟨pref, lk₁, rest, hsplit1, hprefn⟩ := first_some_split hhl
    obtain ⟨core, sf, hbody, hsfn, hchead, hclast⟩ :
        ∃ core sf, body = pref ++ core ++ sf ∧ (∀ o ∈ sf, o = none) ∧
          (∃ T, core = some lk₁ :: T) ∧ (∃ lk₂ Y, core = Y ++ [some lk₂]) := by
      by_cases hr : bodyHasLink rest = true
      · obtain ⟨r2, lk₂, suff, hrdec, hsuffn⟩ := last_some_split hr
        refine ⟨some lk₁ :: (r2 ++ [some lk₂]), suff, ?_, hsuffn,
          ⟨r2 ++ [some lk₂], rfl⟩, ⟨lk₂, some lk₁ :: r2, by simp⟩⟩
        rw [hsplit1, hrdec]
        simp
      · refine ⟨[some lk₁], rest, by rw [hsplit1]; simp, ?_,
          ⟨[], rfl⟩, ⟨lk₁, [], rfl⟩⟩
        intro o ho
        cases o with
        | none => rfl
        | some y =>
          exfalso
          apply hr
          unfold bodyHasLink
          rw [List.any_eq_true]
          exact ⟨some y, ho, rfl⟩
    obtain ⟨T, hT⟩ := hchead
    obtain ⟨lk₂, Y, hY⟩ := hclast
    have hcorene : core ≠ [] := by rw [hT]; simp
    have hcoremapne : core.map bLine ≠ [] := by rw [hT]; simp
    have hmap : body.map bLine
        = List.replicate pref.length ([] : Str) ++ core.map bLine
          ++ List.replicate sf.length ([] : Str) := by
      rw [hbody]
      rw [List.map_append, List.map_append]
      rw [map_bLine_all_none hprefn, map_bLine_all_none hsfn]
    have hjoin : joinNl (body.map bLine)
        = List.replicate pref.length '\n' ++ (joinNl (core.map bLine)
          ++ List.replicate sf.length '\n') := by
      rw [hmap, List.append_assoc, joinNl_blank_prefix (by simp [hcoremapne]),
        joinNl_blank_suffix hcoremapne]
    have hstr : pyStrip ('\n' :: (joinNl (body.map bLine) ++ pad))
        = pyStrip (joinNl (core.map bLine)) := by
      rw [hjoin]
      rw [show '\n' :: ((List.replicate pref.length '\n' ++ (joinNl (core.map bLine)
            ++ List.replicate sf.length '\n')) ++ pad)
        = ('\n' :: List.replicate pref.length '\n')
          ++ (joinNl (core.map bLine) ++ (List.replicate sf.length '\n' ++ pad)) by simp]
      rw [pyStrip_ws_left (by
        intro c hc
        rcases List.mem_cons.mp hc with rfl | hc
        · decide
        · rw [List.eq_of_mem_replicate hc]
          decide)]
      rw [show joinNl (core.map bLine) ++ (List.replicate sf.length '\n' ++ pad)
        = joinNl (core.map bLine) ++ (List.replicate sf.length '\n' ++ pad) from rfl]
      rw [pyStrip_ws_right (by
        intro c hc
        rcases List.mem_append.mp hc with hc | hc
        · rw [List.eq_of_mem_replicate hc]
          decide
        · exact hpad c hc)]
    have hfix : pyStrip (joinNl (core.map bLine)) = joinNl (core.map bLine) := by
      apply pyStrip_fix_ends
      · rw [hT, List.map_cons]
        exact joinNl_head_bracket _
      · rw [hY, List.map_append,
          show List.map bLine [some lk₂] = [renderLink lk₂] from rfl]
        rw [getLast?_joinNl_concat (by rw [renderLink_eq_cons]; exact List.cons_ne_nil _ _)]
        exact getLast?_renderLink lk₂
    rw [hstr, hfix]
    have hnlf : nlFree (core.map bLine) := by
      intro l hl
      rw [List.mem_map] at hl
      obtain ⟨o, ho, rfl⟩ := hl
      cases o with
      | none => decide
      | some lk =>
        apply linkWf_no_newline
        apply hwfb
        rw [hbody]
        simp only [List.mem_append]
        exact Or.inl (Or.inr ho)
    rw [splitNl_joinNl hcoremapne hnlf]
    rw [List.any_eq_true]
    refine ⟨renderLink lk₁, by rw [hT, List.map_cons]; exact List.mem_cons_self _ _, ?_⟩
    rw [pyStrip_renderLink]
    unfold pyStartsWith
    apply List.isPrefixOf_iff_prefix.mpr
    rw [renderLink_eq_cons, show strOf "[_" = ['[', '_'] from rfl]
    exact ⟨_, rfl⟩

end Notes

namespace Notes

theorem preLen_bind_snoc (pre : List Str) (D : List GSec) (g : GSec) :
    preLen (pre ++ (D ++ [g]).bind gsecLines)
      = preLen (pre ++ D.bind gsecLines) + preLen (gsecLines g) := by
  have h5 : [g].bind gsecLines = gsecLines g := by
    rw [bind_cons_eq]
    simp
  rw [bind_append_eq, ← List.append_assoc, h5, preLen_append]

theorem splitFirstEmpty_cons (g : GSec) (rest : List GSec) :
    splitFirstEmpty (g :: rest)
      = if bodyHasLink g.body then
          (splitFirstEmpty rest).map fun x => (g :: x.1, x.2.1, x.2.2)
        else some ([], g, rest) := rfl

theorem removeEmpty_cons_cons (s : Str) (m e n e2 : Nat) (rest : List (Nat × Nat)) :
    removeEmptyMonthSection s ((m, e) :: (n, e2) :: rest)
      = if !((splitNl (pyStrip (pySlice s e n))).any
            fun line => pyStartsWith (pyStrip line) (strOf "[_")) then
          s.take m ++ s.drop n
        else removeEmptyMonthSection s ((n, e2) :: rest) := rfl

theorem removeEmpty_single_find {s : Str} {m e k : Nat}
    (h : findSubFrom s (strOf "\n<br/>") e = some k) :
    removeEmptyMonthSection s [(m, e)]
      = if !((splitNl (pyStrip (pySlice s e k))).any
            fun line => pyStartsWith (pyStrip line) (strOf "[_")) then
          s.take m ++ s.drop k
        else s := by
  show (let nss := match findSubFrom s (strOf "\n<br/>") e with
      | some j => j
      | none => s.length
    if !((splitNl (pyStrip (pySlice s e nss))).any
        fun line => pyStartsWith (pyStrip line) (strOf "[_")) then
      s.take m ++ s.drop nss
    else removeEmptyMonthSection s []) = _
  rw [h]
  rfl

theorem findSub_br_gLines {pre trail : List Str} {gs : List GSec} {start : Nat}
    (hwf : gWfb pre gs trail = true)
    (hne : pre ++ gs.bind gsecLines ≠ [])
    (hstart : start ≤ preLen (pre ++ gs.bind gsecLines) - 1) :
    findSubFrom (joinNl (gLines pre gs trail)) (strOf "\n<br/>") start
      = some (preLen (pre ++ gs.bind gsecLines) - 1) := by
  obtain ⟨W, l, hW⟩ := (List.eq_nil_or_concat (pre ++ gs.bind gsecLines)).resolve_left hne
  rw [List.concat_eq_append] at hW
  have hdec : gLines pre gs trail = W ++ l :: strOf "<br/>" :: trail := by
    unfold gLines
    rw [hW]
    simp
  have htarget : preLen (pre ++ gs.bind gsecLines) - 1 = preLen W + l.length := by
    rw [hW, preLen_append, preLen_singleton]
    omega
  obtain ⟨hsafe, hsecs⟩ := gWfb_parts hwf
  rw [show strOf "\n<br/>" = '\n' :: strOf "<br/>" from rfl, htarget]
  rw [htarget] at hstart
  apply findSub_joinNl_nlpat_at (nlFree_gLines hwf) (by decide) hdec (by decide) hstart
  intro A' l' b' B' hd hge hlt
  have hcut := gLines_cut (show gLines pre gs trail = (A' ++ [l']) ++ b' :: B' by
    rw [hd]; simp)
  rcases hcut with ⟨p₁, p₂, hp, hA⟩ | ⟨G₁, g, G₂, hgs, hcase⟩ | ⟨hl, hA⟩ | ⟨t₁, t₂, ht, hA⟩
  · exact (lsafeb_facts (hsafe b' (List.mem_append_left _ (by rw [hp]; simp)))).2.2.2
  · rcases hcase with ⟨hl, hA⟩ | ⟨b₁, o, b₂, hbody, hl, hA⟩
    · rw [hl]
      exact startsWith_br_hdr _
    · rw [hl]
      exact startsWith_br_bLine o
  · exfalso
    have hpl : preLen (A' ++ [l']) = preLen (pre ++ gs.bind gsecLines) := by rw [hA]
    rw [preLen_append, preLen_singleton] at hpl
    omega
  · exact (lsafeb_facts (hsafe b' (List.mem_append_right _ (by rw [ht]; simp)))).2.2.2

end Notes

namespace Notes

/-- One full pass of the empty-section scan over the header spans of a
generalised document deletes exactly the first empty-bodied section (the body
slice keeps a note line iff the body holds a link): no empty section leaves the
text unchanged; a middle empty section is excised exactly; a trailing empty
section leaves one extra blank line. -/
theorem removeEmptyAux {pre trail : List Str} :
    ∀ (S D gs : List GSec), gs = D ++ S →
    gWfb pre gs trail = true →
    (∀ g ∈ gs, g.body ≠ []) →
    removeEmptyMonthSection (joinNl (gLines pre gs trail))
        (gHdrSpans (preLen (pre ++ D.bind gsecLines)) S)
      = (match splitFirstEmpty S with
        | none => joinNl (gLines pre gs trail)
        | some x =>
          if x.2.2.isEmpty then
            joinNl (pre ++ (D ++ x.1).bind gsecLines ++ [[]] ++ [strOf "<br/>"] ++ trail)
          else joinNl (pre ++ (D ++ x.1).bind gsecLines ++ x.2.2.bind gsecLines
            ++ [strOf "<br/>"] ++ trail)) := by
  intro S
  induction S with
  | nil =>
    intro D gs hgs hwf hbody
    rfl
  | cons g S' ih =>
    intro D gs hgs hwf hbody
    have hgwf : gsecWfb g = true := by
      apply (gWfb_parts hwf).2
      rw [hgs]
      simp
    have hgb : g.body ≠ [] := hbody g (by rw [hgs]; simp)
    have hgbmap : g.body.map bLine ≠ [] := by
      intro hcon
      exact hgb (List.map_eq_nil.mp hcon)
    have hwfb : ∀ lk, some lk ∈ g.body → linkWfb lk = true := (gsecWfb_parts hgwf).2.2
    have hPdec : gLines pre gs trail
        = (pre ++ D.bind gsecLines ++ [hdrLine g.name]) ++ g.body.map bLine
          ++ (S'.bind gsecLines ++ [strOf "<br/>"] ++ trail) := by
      unfold gLines
      rw [hgs, bind_append_eq, bind_cons_eq]
      rw [show gsecLines g = hdrLine g.name :: g.body.map bLine from rfl]
      simp
    have hmendP : preLen (pre ++ D.bind gsecLines) + 3 + g.name.length
        = preLen (pre ++ D.bind gsecLines ++ [hdrLine g.name]) - 1 := by
      rw [preLen_append (pre ++ D.bind gsecLines) [hdrLine g.name], preLen_singleton,
        hdrLine_length]
      omega
    have hnstartP : preLen (pre ++ D.bind gsecLines) + preLen (gsecLines g)
        = preLen ((pre ++ D.bind gsecLines ++ [hdrLine g.name]) ++ g.body.map bLine) := by
      rw [preLen_append (pre ++ D.bind gsecLines ++ [hdrLine g.name]) _,
        preLen_append (pre ++ D.bind gsecLines) [hdrLine g.name],
        preLen_singleton, hdrLine_length, preLen_gsecLines]
      omega
    cases S' with
    | cons g' S'' =>
      rw [gHdrSpans_cons, gHdrSpans_cons, removeEmpty_cons_cons]
      have hslice : pySlice (joinNl (gLines pre gs trail))
          (preLen (pre ++ D.bind gsecLines) + 3 + g.name.length)
          (preLen (pre ++ D.bind gsecLines) + preLen (gsecLines g))
          = '\n' :: (joinNl (g.body.map bLine) ++ ['\n']) := by
        rw [hmendP, hnstartP, hPdec]
        exact pySlice_join_mid_left_nl (by simp) hgbmap (by simp)
      rw [hslice]
      rw [show ('\n' :: (joinNl (g.body.map bLine) ++ ['\n']))
        = '\n' :: (joinNl (g.body.map bLine) ++ ['\n']) from rfl]
      rw [scan_check_core hwfb (by
        intro c hc
        rcases List.mem_singleton.mp hc with rfl
        decide)]
      cases hhl : bodyHasLink g.body with
      | true =>
        rw [show (!true) = false from rfl, if_neg (by simp)]
        rw [← gHdrSpans_cons]
        have hrec := ih (D ++ [g]) gs (by rw [hgs]; simp) hwf hbody
        rw [preLen_bind_snoc] at hrec
        rw [hrec]
        rw [splitFirstEmpty_cons g (g' :: S''), hhl]
        rw [if_pos rfl]
        cases hsp : splitFirstEmpty (g' :: S'') with
        | none => rfl
        | some x =>
          dsimp only [Option.map]
          rw [show (D ++ [g]) ++ x.1 = D ++ g :: x.1 by simp]
      | false =>
        rw [show (!false) = true from rfl, if_pos rfl]
        rw [show preLen (pre ++ D.bind gsecLines) + preLen (gsecLines g)
          = preLen ((pre ++ D.bind gsecLines) ++ gsecLines g) by simp [preLen_append]; omega]
        have hPdec2 : gLines pre gs trail
            = (pre ++ D.bind gsecLines) ++ gsecLines g
              ++ ((g' :: S'').bind gsecLines ++ [strOf "<br/>"] ++ trail) := by
          unfold gLines
          rw [hgs, bind_append_eq, bind_cons_eq]
          simp
        rw [hPdec2]
        rw [splice_drop_take
          (show (g' :: S'').bind gsecLines ++ [strOf "<br/>"] ++ trail ≠ [] by simp)]
        rw [splitFirstEmpty_cons g (g' :: S''), hhl]
        simp only [Bool.false_eq_true, if_false, List.isEmpty_cons, List.append_nil]
        congr 1
        simp
    | nil =>
      have hgsprod : gs = D ++ [g] := hgs
      have hbindne : pre ++ gs.bind gsecLines ≠ [] := by
        rw [hgsprod, bind_append_eq, bind_cons_eq]
        rw [show gsecLines g = hdrLine g.name :: g.body.map bLine from rfl]
        simp
      have hst : preLen (pre ++ D.bind gsecLines) + 3 + g.name.length
          ≤ preLen (pre ++ gs.bind gsecLines) - 1 := by
        rw [hgsprod, preLen_bind_snoc, preLen_gsecLines]
        omega
      have hbr := findSub_br_gLines hwf hbindne hst
      rw [gHdrSpans_cons]
      rw [show gHdrSpans (preLen (pre ++ D.bind gsecLines) + preLen (gsecLines g))
        ([] : List GSec) = [] from rfl]
      rw [removeEmpty_single_find hbr]
      have hlast : preLen (pre ++ gs.bind gsecLines)
          = preLen ((pre ++ D.bind gsecLines ++ [hdrLine g.name]) ++ g.body.map bLine) := by
        rw [hgsprod, preLen_bind_snoc]
        exact hnstartP
      have hslice : pySlice (joinNl (gLines pre gs trail))
          (preLen (pre ++ D.bind gsecLines) + 3 + g.name.length)
          (preLen (pre ++ gs.bind gsecLines) - 1)
          = '\n' :: joinNl (g.body.map bLine) := by
        rw [hmendP, hlast, hPdec]
        exact pySlice_join_mid_left (by simp) hgbmap (by simp)
      rw [hslice]
      rw [show ('\n' :: joinNl (g.body.map bLine))
        = '\n' :: (joinNl (g.body.map bLine) ++ []) by simp]
      rw [scan_check_core hwfb (by intro c hc; simp at hc)]
      cases hhl : bodyHasLink g.body with
      | true =>
        rw [show (!true) = false from rfl, if_neg (by simp)]
        rw [splitFirstEmpty_cons g [], hhl]
        rfl
      | false =>
        rw [show (!false) = true from rfl, if_pos rfl]
        rw [show preLen (pre ++ gs.bind gsecLines)
          = preLen ((pre ++ D.bind gsecLines) ++ gsecLines g) by
            rw [hgsprod, preLen_bind_snoc]
            simp [preLen_append]
            omega]
        have hPdec3 : gLines pre gs trail
            = (pre ++ D.bind gsecLines) ++ gsecLines g
              ++ ([strOf "<br/>"] ++ trail) := by
          unfold gLines
          rw [hgsprod, bind_append_eq, bind_cons_eq]
          simp
        rw [hPdec3]
        rw [splice_take_dropm1
          (show gsecLines g ≠ [] by
            rw [show gsecLines g = hdrLine g.name :: g.body.map bLine from rfl]
            simp)
          (show [strOf "<br/>"] ++ trail ≠ [] by simp)]
        rw [splitFirstEmpty_cons g [], hhl]
        simp only [Bool.false_eq_true, if_false, List.isEmpty_nil, if_true, List.append_nil]
        congr 1
        simp

end Notes

namespace Notes

/-- The scan run on a rendered generalised document with the spans produced by
the month-header regex: identity when every section holds a link, otherwise the
first link-free section is excised (with a leftover blank line when it is the
last section). -/
theorem removeEmpty_gLines {pre trail : List Str} {gs : List GSec}
    (hwf : gWfb pre gs trail = true) (hbody : ∀ g ∈ gs, g.body ≠ []) :
    removeEmptyMonthSection (joinNl (gLines pre gs trail))
        (monthMatches (joinNl (gLines pre gs trail)))
      = (match splitFirstEmpty gs with
        | none => joinNl (gLines pre gs trail)
        | some x =>
          if x.2.2.isEmpty then
            joinNl (pre ++ x.1.bind gsecLines ++ [[]] ++ [strOf "<br/>"] ++ trail)
          else joinNl (pre ++ x.1.bind gsecLines ++ x.2.2.bind gsecLines
            ++ [strOf "<br/>"] ++ trail)) := by
  rw [monthMatches_gLines hwf]
  have h := removeEmptyAux gs [] gs rfl hwf hbody
  rw [show preLen (pre ++ ([] : List GSec).bind gsecLines) = preLen pre by
    rw [show (([] : List GSec).bind gsecLines) = [] from rfl, List.append_nil]] at h
  rw [h]
  rfl

end Notes

namespace Notes

/-! Spec-level observables of a document: its month-header lines and its note
link lines.  These are the two quantities the Insert/Remove round-trip claim
compares. -/

/-- The month-section header lines of a document text. -/
def sectionHeaderLines (s : Str) : List Str :=
  (splitNl s).filter fun l => pyStartsWith l (strOf "## ")

/-- The note link lines of a document text (whitespace-stripped lines that
start a link). -/
def noteLines (s : Str) : List Str :=
  (splitNl s).filter fun l => pyStartsWith (pyStrip l) (strOf "[_")

/-- The rendered link lines of a generalised section list, in order. -/
def gNotes (gs : List GSec) : List Str :=
  gs.bind fun g => g.body.filterMap fun o => o.map renderLink

theorem mem_pyStrip {s : Str} {c : Char} (h : c ∈ pyStrip s) : c ∈ s := by
  unfold pyStrip at h
  rw [List.mem_reverse] at h
  have h2 := List.dropWhile_sublist (l := (s.dropWhile isWs).reverse) (p := isWs)
  have h3 := h2.mem h
  rw [List.mem_reverse] at h3
  exact (List.dropWhile_sublist (l := s) (p := isWs)).mem h3

theorem startsWith_mem_head {l q : Str} {c : Char}
    (h : pyStartsWith l (c :: q) = true) : c ∈ l := by
  unfold pyStartsWith at h
  obtain ⟨t, ht⟩ := List.isPrefixOf_iff_prefix.mp h
  rw [← ht]
  simp

theorem startsWith_of_prefix {l p q : Str} (hpq : p <+: q)
    (h : pyStartsWith l q = true) : pyStartsWith l p = true := by
  unfold pyStartsWith at *
  exact List.isPrefixOf_iff_prefix.mpr (hpq.trans (List.isPrefixOf_iff_prefix.mp h))

theorem startsWith_hdr3_lsafe {l : Str} (hsf : lsafeb l = true) :
    pyStartsWith l (strOf "## ") = false := by
  cases hm : pyStartsWith l (strOf "## ") with
  | false => rfl
  | true =>
    exfalso
    have h2 := startsWith_of_prefix (show strOf "##" <+: strOf "## " from ⟨[' '], rfl⟩) hm
    rw [startsWith_hash2_lsafe hsf] at h2
    cases h2

theorem startsWith_hdr3_bLine (o : Option MLink) :
    pyStartsWith (bLine o) (strOf "## ") = false := by
  cases o with
  | none => rfl
  | some lk =>
    show pyStartsWith (renderLink lk) (strOf "## ") = false
    rw [renderLink_eq_cons]
    rfl

theorem startsWith_hdr3_hdr (name : Str) :
    pyStartsWith (hdrLine name) (strOf "## ") = true := by
  unfold pyStartsWith
  apply List.isPrefixOf_iff_prefix.mpr
  exact ⟨name, rfl⟩

theorem note_pred_lsafe {l : Str} (hsf : lsafeb l = true) :
    pyStartsWith (pyStrip l) (strOf "[_") = false := by
  cases hm : pyStartsWith (pyStrip l) (strOf "[_") with
  | false => rfl
  | true =>
    exfalso
    have hb := startsWith_mem_head (show pyStartsWith (pyStrip l) ('[' :: strOf "_") = true from hm)
    exact (lsafeb_facts hsf).2.2.1 (mem_pyStrip hb)

theorem note_pred_hdr {name : Str} (h0 : name ≠ [])
    (hw : name.all isWordChar = true) :
    pyStartsWith (pyStrip (hdrLine name)) (strOf "[_") = false := by
  rw [pyStrip_hdrLine h0 hw, hdrLine_eq_cons]
  rfl

theorem note_pred_bLine_some (lk : MLink) :
    pyStartsWith (pyStrip (bLine (some lk))) (strOf "[_") = true := by
  show pyStartsWith (pyStrip (renderLink lk)) (strOf "[_") = true
  rw [pyStrip_renderLink]
  unfold pyStartsWith
  apply List.isPrefixOf_iff_prefix.mpr
  rw [renderLink_eq_cons, show strOf "[_" = ['[', '_'] from rfl]
  exact ⟨_, rfl⟩

end Notes

namespace Notes

theorem filter_hdr_body (body : List (Option MLink)) :
    (body.map bLine).filter (fun l => pyStartsWith l (strOf "## ")) = [] := by
  rw [List.filter_eq_nil]
  intro l hl
  rw [List.mem_map] at hl
  obtain ⟨o, _, rfl⟩ := hl
  rw [startsWith_hdr3_bLine o]
  simp

theorem filter_note_body (body : List (Option MLink)) :
    (body.map bLine).filter (fun l => pyStartsWith (pyStrip l) (strOf "[_"))
      = body.filterMap fun o => o.map renderLink := by
  induction body with
  | nil => rfl
  | cons o os ih =>
    rw [List.map_cons, List.filterMap_cons]
    cases o with
    | none =>
      simp only [List.filter_cons]
      rw [show pyStartsWith (pyStrip (bLine none)) (strOf "[_") = false by decide]
      simp only [Bool.false_eq_true, if_false]
      exact ih
    | some lk =>
      simp only [List.filter_cons]
      rw [note_pred_bLine_some lk, if_pos rfl]
      rw [ih]
      rfl

theorem filter_hdr_bind {gs : List GSec} :
    (gs.bind gsecLines).filter (fun l => pyStartsWith l (strOf "## "))
      = gs.map fun g => hdrLine g.name := by
  induction gs with
  | nil => rfl
  | cons g rest ih =>
    rw [bind_cons_eq, List.filter_append, List.map_cons, ih]
    congr 1
    rw [show gsecLines g = hdrLine g.name :: g.body.map bLine from rfl]
    simp only [List.filter_cons]
    rw [startsWith_hdr3_hdr g.name, if_pos rfl]
    rw [filter_hdr_body g.body]
    simp

theorem filter_note_bind {gs : List GSec} (hsecs : ∀ g ∈ gs, gsecWfb g = true) :
    (gs.bind gsecLines).filter (fun l => pyStartsWith (pyStrip l) (strOf "[_"))
      = gNotes gs := by
  induction gs with
  | nil => rfl
  | cons g rest ih =>
    rw [bind_cons_eq, List.filter_append]
    rw [ih (fun g' hg' => hsecs g' (List.mem_cons_of_mem _ hg'))]
    rw [show gNotes (g :: rest)
      = (g.body.filterMap fun o => o.map renderLink) ++ gNotes rest from rfl]
    congr 1
    obtain ⟨hn0, hnw, _⟩ := gsecWfb_parts (hsecs g (List.mem_cons_self _ _))
    rw [show gsecLines g = hdrLine g.name :: g.body.map bLine from rfl]
    simp only [List.filter_cons]
    rw [note_pred_hdr hn0 hnw]
    simp only [Bool.false_eq_true, if_false]
    exact filter_note_body g.body

theorem mem_shape_cases {pre trail mid : List Str} {gs : List GSec} {l : Str}
    (hl : l ∈ pre ++ gs.bind gsecLines ++ mid ++ [strOf "<br/>"] ++ trail) :
    l ∈ gLines pre gs trail ∨ l ∈ mid := by
  unfold gLines
  simp only [List.mem_append] at hl ⊢
  tauto

theorem nlFree_shape {pre trail mid : List Str} {gs : List GSec}
    (hwf : gWfb pre gs trail = true) (hmid : ∀ l ∈ mid, l = []) :
    nlFree (pre ++ gs.bind gsecLines ++ mid ++ [strOf "<br/>"] ++ trail) := by
  intro l hl
  rcases mem_shape_cases hl with h | h
  · exact nlFree_gLines hwf l h
  · rw [hmid l h]
    simp

theorem shape_ne_nil {pre trail mid : List Str} {gs : List GSec} :
    pre ++ gs.bind gsecLines ++ mid ++ [strOf "<br/>"] ++ trail ≠ [] := by
  simp

theorem sectionHeaderLines_shape {pre trail mid : List Str} {gs : List GSec}
    (hwf : gWfb pre gs trail = true) (hmid : ∀ l ∈ mid, l = []) :
    sectionHeaderLines (joinNl (pre ++ gs.bind gsecLines ++ mid ++ [strOf "<br/>"] ++ trail))
      = gs.map fun g => hdrLine g.name := by
  unfold sectionHeaderLines
  rw [splitNl_joinNl shape_ne_nil (nlFree_shape hwf hmid)]
  obtain ⟨hsafe, hsecs⟩ := gWfb_parts hwf
  have hp : List.filter (fun l => pyStartsWith l (strOf "## ")) pre = [] := by
    rw [List.filter_eq_nil]
    intro l hl
    rw [startsWith_hdr3_lsafe (hsafe l (List.mem_append_left _ hl))]
    simp
  have ht : List.filter (fun l => pyStartsWith l (strOf "## ")) trail = [] := by
    rw [List.filter_eq_nil]
    intro l hl
    rw [startsWith_hdr3_lsafe (hsafe l (List.mem_append_right _ hl))]
    simp
  have hm : List.filter (fun l => pyStartsWith l (strOf "## ")) mid = [] := by
    rw [List.filter_eq_nil]
    intro l hl
    rw [hmid l hl]
    decide
  have hs : List.filter (fun l => pyStartsWith l (strOf "## ")) [strOf "<br/>"] = [] := by
    decide
  rw [List.filter_append, List.filter_append, List.filter_append, List.filter_append,
    filter_hdr_bind, hp, ht, hm, hs]
  simp

theorem noteLines_shape {pre trail mid : List Str} {gs : List GSec}
    (hwf : gWfb pre gs trail = true) (hmid : ∀ l ∈ mid, l = []) :
    noteLines (joinNl (pre ++ gs.bind gsecLines ++ mid ++ [strOf "<br/>"] ++ trail))
      = gNotes gs := by
  unfold noteLines
  rw [splitNl_joinNl shape_ne_nil (nlFree_shape hwf hmid)]
  obtain ⟨hsafe, hsecs⟩ := gWfb_parts hwf
  have hp : List.filter (fun l => pyStartsWith (pyStrip l) (strOf "[_")) pre = [] := by
    rw [List.filter_eq_nil]
    intro l hl
    rw [note_pred_lsafe (hsafe l (List.mem_append_left _ hl))]
    simp
  have ht : List.filter (fun l => pyStartsWith (pyStrip l) (strOf "[_")) trail = [] := by
    rw [List.filter_eq_nil]
    intro l hl
    rw [note_pred_lsafe (hsafe l (List.mem_append_right _ hl))]
    simp
  have hm : List.filter (fun l => pyStartsWith (pyStrip l) (strOf "[_")) mid = [] := by
    rw [List.filter_eq_nil]
    intro l hl
    rw [hmid l hl]
    decide
  have hs : List.filter (fun l => pyStartsWith (pyStrip l) (strOf "[_")) [strOf "<br/>"] = []
      := by decide
  rw [List.filter_append, List.filter_append, List.filter_append, List.filter_append,
    filter_note_bind hsecs, hp, ht, hm, hs]
  simp

end Notes

namespace Notes

theorem splitFirstEmpty_some : ∀ {gs P : List GSec} {g : GSec} {S' : List GSec},
    splitFirstEmpty gs = some (P, g, S') →
    gs = P ++ g :: S' ∧ bodyHasLink g.body = false ∧ ∀ p ∈ P, bodyHasLink p.body = true := by
  intro gs
  induction gs with
  | nil =>
    intro P g S' h
    cases h
  | cons g₀ rest ih =>
    intro P g S' h
    rw [splitFirstEmpty_cons] at h
    cases hhl : bodyHasLink g₀.body with
    | false =>
      rw [hhl] at h
      simp only [Bool.false_eq_true, if_false] at h
      injection h with h'
      injection h' with h1 h2
      injection h2 with h3 h4
      subst h1
      subst h3
      subst h4
      exact ⟨by simp, hhl, by simp⟩
    | true =>
      rw [hhl] at h
      simp only [if_true] at h
      obtain ⟨y, hy, hf⟩ := Option.map_eq_some'.mp h
      injection hf with h1 h2
      injection h2 with h3 h4
      obtain ⟨hgs, hemp, hall⟩ := ih hy
      subst h1
      subst h3
      subst h4
      refine ⟨by rw [hgs]; simp, hemp, ?_⟩
      intro p hp
      rcases List.mem_cons.mp hp with rfl | hp'
      · exact hhl
      · exact hall p hp'

theorem splitFirstEmpty_none : ∀ {gs : List GSec},
    splitFirstEmpty gs = none → ∀ g ∈ gs, bodyHasLink g.body = true := by
  intro gs
  induction gs with
  | nil =>
    intro _ g hg
    cases hg
  | cons g₀ rest ih =>
    intro h g hg
    rw [splitFirstEmpty_cons] at h
    cases hhl : bodyHasLink g₀.body with
    | false =>
      rw [hhl] at h
      simp at h
    | true =>
      rw [hhl] at h
      simp only [if_true] at h
      rcases List.mem_cons.mp hg with rfl | hg'
      · exact hhl
      · exact ih (Option.map_eq_none'.mp h) g hg'

/-- The section list after deleting the first link-free section, if any. -/
def dropFirstEmptySecs (gs : List GSec) : List GSec :=
  match splitFirstEmpty gs with
  | none => gs
  | some x => x.1 ++ x.2.2

theorem gWfb_of_sub {pre trail : List Str} {gs gs' : List GSec}
    (hwf : gWfb pre gs trail = true) (hsub : ∀ g ∈ gs', g ∈ gs) :
    gWfb pre gs' trail = true := by
  obtain ⟨hsafe, hsecs⟩ := gWfb_parts hwf
  unfold gWfb
  rw [Bool.and_eq_true]
  constructor
  · rw [List.all_eq_true]
    exact hsafe
  · rw [List.all_eq_true]
    intro g hg
    exact hsecs g (hsub g hg)

theorem filterMap_none_of_no_link {body : List (Option MLink)}
    (h : bodyHasLink body = false) :
    body.filterMap (fun o => o.map renderLink) = [] := by
  rw [List.filterMap_eq_nil]
  intro o ho
  unfold bodyHasLink at h
  rw [List.any_eq_false] at h
  have := h o ho
  cases o with
  | none => rfl
  | some lk => simp at this

theorem gNotes_append (a b : List GSec) : gNotes (a ++ b) = gNotes a ++ gNotes b := by
  unfold gNotes
  rw [bind_append_eq]

end Notes

namespace Notes

/-- C8 (amended): on a well-formed rendered document whose sections all have
nonempty bodies, the empty-section scan of the IndexEditor removes exactly the
first link-free month section (and nothing else): the header lines afterwards
are those of the document with that one section dropped, and the note link
lines are unchanged.  The original claim fails on documents with a stray
double-hash line, where the month regex pseudo-matches inside it and the scan
destroys a nonempty section. -/
theorem c8_scan_amended {pre trail : List Str} {gs : List GSec}
    (hwf : gWfb pre gs trail = true) (hbody : ∀ g ∈ gs, g.body ≠ []) :
    sectionHeaderLines (removeEmptyMonthSection (joinNl (gLines pre gs trail))
        (monthMatches (joinNl (gLines pre gs trail))))
      = (dropFirstEmptySecs gs).map (fun g => hdrLine g.name)
    ∧ noteLines (removeEmptyMonthSection (joinNl (gLines pre gs trail))
        (monthMatches (joinNl (gLines pre gs trail))))
      = noteLines (joinNl (gLines pre gs trail)) := by
  have hG : gLines pre gs trail
      = pre ++ gs.bind gsecLines ++ ([] : List Str) ++ [strOf "<br/>"] ++ trail := by
    unfold gLines
    simp
  have hmidnil : ∀ l ∈ ([] : List Str), l = [] := by simp
  have hnotes0 : noteLines (joinNl (gLines pre gs trail)) = gNotes gs := by
    rw [hG]
    exact noteLines_shape hwf hmidnil
  have h := removeEmpty_gLines hwf hbody
  cases hsp : splitFirstEmpty gs with
  | none =>
    rw [hsp] at h
    dsimp only at h
    rw [h]
    unfold dropFirstEmptySecs
    rw [hsp]
    constructor
    · rw [hG]
      exact sectionHeaderLines_shape hwf hmidnil
    · rfl
  | some x =>
    obtain ⟨hgs, hemp, _⟩ := splitFirstEmpty_some (by rw [hsp])
    rw [hsp] at h
    dsimp only at h
    have hxsub : ∀ g ∈ x.1 ++ x.2.2, g ∈ gs := by
      intro g hg
      rw [hgs]
      rcases List.mem_append.mp hg with h1 | h2
      · exact List.mem_append_left _ h1
      · exact List.mem_append_right _ (List.mem_cons_of_mem _ h2)
    have hwf' : gWfb pre (x.1 ++ x.2.2) trail = true := gWfb_of_sub hwf hxsub
    have hnotes : gNotes (x.1 ++ x.2.2) = gNotes gs := by
      rw [hgs, gNotes_append, gNotes_append]
      rw [show gNotes (x.2.1 :: x.2.2)
        = (x.2.1.body.filterMap fun o => o.map renderLink) ++ gNotes x.2.2 from rfl]
      rw [filterMap_none_of_no_link hemp]
      simp
    unfold dropFirstEmptySecs
    rw [hsp]
    dsimp only
    cases hS : x.2.2.isEmpty with
    | true =>
      rw [hS] at h
      simp only [if_true] at h
      have hS' : x.2.2 = [] := List.isEmpty_iff.mp hS
      rw [h, hnotes0, hS']
      have hsub1 : ∀ g ∈ x.1, g ∈ gs := fun g hg => hxsub g (by rw [hS'] at *; simpa using hg)
      have hwf1 : gWfb pre x.1 trail = true := gWfb_of_sub hwf hsub1
      constructor
      · rw [sectionHeaderLines_shape hwf1 (by simp : ∀ l ∈ [([] : Str)], l = [])]
        simp
      · rw [noteLines_shape hwf1 (by simp : ∀ l ∈ [([] : Str)], l = [])]
        rw [← hnotes, hS']
        simp
    | false =>
      rw [hS] at h
      simp only [Bool.false_eq_true, if_false] at h
      have hsplit : pre ++ x.1.bind gsecLines ++ x.2.2.bind gsecLines
          ++ [strOf "<br/>"] ++ trail
          = pre ++ (x.1 ++ x.2.2).bind gsecLines ++ ([] : List Str)
            ++ [strOf "<br/>"] ++ trail := by
        rw [bind_append_eq]
        simp
      rw [h, hsplit, hnotes0]
      constructor
      · exact sectionHeaderLines_shape hwf' hmidnil
      · rw [noteLines_shape hwf' hmidnil, hnotes]

end Notes

namespace Notes

/-- Counterexample document for the scan claim: a stray triple-hash line sits
between two populated month sections. -/
def c8doc : Str := strOf "## Janvier\n\n[_1, a, b, c_](./01/20240101/)\n\n[_2, a, b, c_](./01/20240102/)\n\n### Extra\n## Fevrier\n\n[_3, a, b, c_](./02/20240203/)\n\n<br/>\n"

set_option maxRecDepth 40000 in
/-- C8 counterexample: removing the 20240102 link succeeds, and the scan then
destroys the nonempty Fevrier section (its header line disappears), because
the month pattern pseudo-matches inside the stray triple-hash line. -/
theorem c8_counterexample :
    (extract_note_link_from_readme c8doc (strOf "20240102")).2 = true
    ∧ strOf "## Fevrier" ∈ sectionHeaderLines c8doc
    ∧ strOf "## Fevrier" ∉ sectionHeaderLines
        (extract_note_link_from_readme c8doc (strOf "20240102")).1 := by
  decide

def c8lk1 : MLink := ⟨strOf "1, a, b, c", strOf "01", strOf "20240101"⟩

def c8gs : List GSec :=
  [⟨strOf "Janvier", [none, some c8lk1, none]⟩, ⟨strOf "Mars", [none]⟩]

def c8pre : List Str := [strOf "# 2024"]

set_option maxRecDepth 40000 in
theorem c8_scan_amended_witness :
    gWfb c8pre c8gs [] = true ∧ (∀ g ∈ c8gs, g.body ≠ []) ∧
    (sectionHeaderLines (removeEmptyMonthSection (joinNl (gLines c8pre c8gs []))
        (monthMatches (joinNl (gLines c8pre c8gs []))))
      = (dropFirstEmptySecs c8gs).map (fun g => hdrLine g.name)
    ∧ noteLines (removeEmptyMonthSection (joinNl (gLines c8pre c8gs []))
        (monthMatches (joinNl (gLines c8pre c8gs []))))
      = noteLines (joinNl (gLines c8pre c8gs []))) :=
  ⟨by decide, by decide, c8_scan_amended (by decide) (by decide)⟩

end Notes

namespace Notes

/-! Well-formedness of the pieces update_year_readme writes: month names are
nonempty word-character strings, weekday names and decimal digits are valid
display characters, and the strftime fields are fixed-width digit strings. -/

theorem get_french_month_wf {m : Nat} (h1 : 1 ≤ m) (h2 : m ≤ 12) :
    get_french_month m ≠ [] ∧ (get_french_month m).all isWordChar = true := by
  interval_cases m <;> exact ⟨by decide, by decide⟩

theorem frenchWeekdayName_disp (k : Nat) :
    (frenchWeekdayName k).all okDispChar = true := by
  match k with
  | 0 => decide
  | 1 => decide
  | 2 => decide
  | 3 => decide
  | 4 => decide
  | 5 => decide
  | 6 => decide
  | n+7 => rfl

theorem digit_char_isDigit {r : Nat} (h : r < 10) :
    pyIsDigit (Char.ofNat (48 + r)) = true := by
  interval_cases r <;> decide

theorem digit_char_disp {r : Nat} (h : r < 10) :
    okDispChar (Char.ofNat (48 + r)) = true := by
  interval_cases r <;> decide

theorem natDigitsAux_digits : ∀ (fuel n : Nat), (natDigitsAux n fuel).all pyIsDigit = true := by
  intro fuel
  induction fuel with
  | zero => intro n; rfl
  | succ fuel ih =>
    intro n
    show (if n = 0 then [] else natDigitsAux (n / 10) fuel ++ [Char.ofNat (48 + n % 10)]).all
        pyIsDigit = true
    by_cases hn : n = 0
    · rw [if_pos hn]
      rfl
    · rw [if_neg hn, List.all_append, ih (n / 10)]
      simp only [Bool.true_and, List.all_cons, List.all_nil, Bool.and_true]
      exact digit_char_isDigit (Nat.mod_lt n (by omega))

theorem natToStr_digits (n : Nat) : (natToStr n).all pyIsDigit = true := by
  unfold natToStr
  by_cases hn : n = 0
  · rw [if_pos hn]
    decide
  · rw [if_neg hn]
    exact natDigitsAux_digits n n

theorem isDigit_disp {c : Char} (h : pyIsDigit c = true) : okDispChar c = true := by
  cases ho : okDispChar c with
  | true => rfl
  | false =>
    exfalso
    unfold okDispChar at ho
    rw [Bool.not_eq_false'] at ho
    simp only [Bool.or_eq_true, beq_iff_eq] at ho
    rcases ho with ⟨⟨⟨⟨rfl | rfl⟩ | rfl⟩ | rfl⟩ | rfl⟩ | rfl <;> exact absurd h (by decide)

theorem all_digits_disp {s : Str} (h : s.all pyIsDigit = true) :
    s.all okDispChar = true := by
  rw [List.all_eq_true] at h ⊢
  intro c hc
  exact isDigit_disp (h c hc)

theorem natDigitsAux_length : ∀ (fuel n k : Nat), n < 10 ^ k →
    (natDigitsAux n fuel).length ≤ k := by
  intro fuel
  induction fuel with
  | zero =>
    intro n k _
    simp [natDigitsAux]
  | succ fuel ih =>
    intro n k hk
    show (if n = 0 then [] else natDigitsAux (n / 10) fuel
        ++ [Char.ofNat (48 + n % 10)]).length ≤ k
    by_cases hn : n = 0
    · rw [if_pos hn]
      simp
    · rw [if_neg hn]
      have hk1 : 1 ≤ k := by
        by_contra hcon
        have : k = 0 := by omega
        rw [this] at hk
        simp at hk
        omega
    
      have hdiv : n / 10 < 10 ^ (k - 1) := by
        rw [Nat.div_lt_iff_lt_mul (by omega)]
        calc n < 10 ^ k := hk
        _ = 10 ^ (k - 1) * 10 := by
          rw [← Nat.pow_succ]
          congr 1
          omega
      have := ih (n / 10) (k - 1) hdiv
      rw [List.length_append]
      simp only [List.length_cons, List.length_nil]
      omega

theorem natToStr_length_le {n k : Nat} (h1 : 1 ≤ k) (hk : n < 10 ^ k) :
    (natToStr n).length ≤ k := by
  unfold natToStr
  by_cases hn : n = 0
  · rw [if_pos hn]
    simpa using h1
  · rw [if_neg hn]
    exact natDigitsAux_length n n k hk

theorem padZeros_length {w n : Nat} (h1 : 1 ≤ w) (hk : n < 10 ^ w) :
    (padZeros w n).length = w := by
  unfold padZeros
  rw [List.length_append, List.length_replicate]
  have := natToStr_length_le h1 hk
  omega

theorem padZeros_digits (w n : Nat) : (padZeros w n).all pyIsDigit = true := by
  unfold padZeros
  rw [List.all_append, Bool.and_eq_true]
  constructor
  · rw [List.all_eq_true]
    intro c hc
    rw [List.eq_of_mem_replicate hc]
    decide
  · exact natToStr_digits n

theorem monthStrOf_wf {now : Now} (h : now.month < 100) :
    (monthStrOf now).length = 2 ∧ (monthStrOf now).all pyIsDigit = true := by
  refine ⟨padZeros_length (by omega) (by simpa using h), padZeros_digits 2 now.month⟩

theorem dateStrOf_wf {now : Now} (hy : now.year < 10000) (hm : now.month < 100)
    (hd : now.day < 100) :
    (dateStrOf now).length = 8 ∧ (dateStrOf now).all pyIsDigit = true := by
  unfold dateStrOf yearStrOf monthStrOf
  constructor
  · rw [List.length_append, List.length_append]
    rw [padZeros_length (by omega) (by simpa using hy),
      padZeros_length (by omega) (by simpa using hm),
      padZeros_length (by omega) (by simpa using hd)]
  · rw [List.all_append, List.all_append]
    rw [padZeros_digits, padZeros_digits, padZeros_digits]
    rfl

end Notes

namespace Notes

/-- The display text update_year_readme builds for the new entry. -/
def dispOf (now : Now) (temp weather : Str) : Str :=
  natToStr now.day ++ strOf ", " ++ get_french_weekday now ++ strOf ", "
    ++ temp ++ strOf ", " ++ weather

/-- The link the new entry renders, as a structured link. -/
def newLinkOf (now : Now) (temp weather : Str) : MLink :=
  ⟨dispOf now temp weather, monthStrOf now, dateStrOf now⟩

/-- The relative link finish_note passes to update_year_readme. -/
def linkArgOf (now : Now) : Str :=
  strOf "./" ++ monthStrOf now ++ '/' :: (dateStrOf now ++ strOf "/")

theorem new_entry_eq (now : Now) (temp weather : Str) :
    strOf "[_" ++ natToStr now.day ++ strOf ", " ++ get_french_weekday now ++ strOf ", "
      ++ temp ++ strOf ", " ++ weather ++ strOf "_](" ++ linkArgOf now ++ strOf ")"
    = renderLink (newLinkOf now temp weather) := by
  unfold renderLink newLinkOf dispOf linkArgOf strOf
  simp

theorem dispOf_ok {now : Now} {temp weather : Str}
    (ht : temp.all okDispChar = true) (hw : weather.all okDispChar = true) :
    (dispOf now temp weather).all okDispChar = true := by
  unfold dispOf
  rw [List.all_append, List.all_append, List.all_append, List.all_append, List.all_append,
    List.all_append]
  rw [all_digits_disp (natToStr_digits now.day), ht, hw]
  rw [show get_french_weekday now = frenchWeekdayName (pyWeekday now.year now.month now.day)
    from rfl]
  rw [frenchWeekdayName_disp]
  decide

theorem newLink_wfb {now : Now} {temp weather : Str} (hy : now.year < 10000)
    (hm : now.month < 100) (hd : now.day < 100)
    (ht : temp.all okDispChar = true) (hw : weather.all okDispChar = true) :
    linkWfb (newLinkOf now temp weather) = true := by
  unfold linkWfb newLinkOf
  simp only
  rw [dispOf_ok ht hw, (monthStrOf_wf hm).1, (monthStrOf_wf hm).2,
    (dateStrOf_wf hy hm hd).1, (dateStrOf_wf hy hm hd).2]
  decide

end Notes

namespace Notes

theorem matchesAt_get_head {l q : Str} {c : Char} {t : Nat}
    (h : matchesAt l (c :: q) t = true) : l.get? t = some c := by
  obtain ⟨r, hr⟩ := matchesAt_iff_pref.mp h
  exact get?_eq_of_drop_cons (show l.drop t = c :: (q ++ r) by rw [← hr]; rfl)

theorem prefix_append_left {p q : Str} (x : Str) (h : p <+: q) :
    (x ++ p) <+: (x ++ q) := by
  obtain ⟨t, ht⟩ := h
  exact ⟨t, by rw [List.append_assoc, ht]⟩

theorem sec_cut_trichotomy {G₁ G₂ G₁' G₂' : List GSec} {g g' : GSec}
    (h : G₁ ++ g :: G₂ = G₁' ++ g' :: G₂') :
    (∃ B₁, G₁ = G₁' ++ g' :: B₁) ∨ (G₁' = G₁ ∧ g' = g ∧ G₂' = G₂)
      ∨ (∃ A₂, G₁' = G₁ ++ g :: A₂ ∧ G₂ = A₂ ++ g' :: G₂') := by
  rcases cut_split h with ⟨B₁, h1, _⟩ | ⟨A₂, h2, h3⟩
  · exact Or.inl ⟨B₁, h1⟩
  · cases A₂ with
    | nil =>
      rw [List.append_nil] at h3
      injection h2 with he1 he2
      exact Or.inr (Or.inl ⟨h3, he1.symm, he2.symm⟩)
    | cons a A₂' =>
      injection h2 with he1 he2
      subst he1
      exact Or.inr (Or.inr ⟨A₂', by rw [h3], he2⟩)

theorem preLen_bind_mid (pre : List Str) (X : List GSec) (g : GSec) (Y : List GSec) :
    preLen (pre ++ (X ++ g :: Y).bind gsecLines)
      = preLen (pre ++ X.bind gsecLines) + preLen (gsecLines g) + preLen (Y.bind gsecLines) := by
  rw [bind_append_eq, bind_cons_eq]
  rw [preLen_append, preLen_append, preLen_append, preLen_append]
  omega

theorem hdr_pos_tri (pre : List Str) {G₁ G₂ G₁' G₂' : List GSec} {g g' : GSec}
    (h : G₁ ++ g :: G₂ = G₁' ++ g' :: G₂') :
    (preLen (pre ++ G₁'.bind gsecLines) + preLen (gsecLines g')
        ≤ preLen (pre ++ G₁.bind gsecLines))
    ∨ (G₁' = G₁ ∧ g' = g)
    ∨ preLen (pre ++ G₁.bind gsecLines) + preLen (gsecLines g)
        ≤ preLen (pre ++ G₁'.bind gsecLines) := by
  rcases sec_cut_trichotomy h with ⟨B₁, h1⟩ | ⟨h1, h2, _⟩ | ⟨A₂, h1, _⟩
  · left
    have := preLen_bind_mid pre G₁' g' B₁
    rw [← h1] at this
    omega
  · exact Or.inr (Or.inl ⟨h1, h2⟩)
  · right; right
    have := preLen_bind_mid pre G₁ g A₂
    rw [← h1] at this
    omega

theorem preLen_gsecLines_parts (g : GSec) {b₁ b₂ : List (Option MLink)} {o : Option MLink}
    (h : g.body = b₁ ++ o :: b₂) :
    preLen (gsecLines g) = (hdrLine g.name).length + 1 + preLen (b₁.map bLine)
      + ((bLine o).length + 1) + preLen (b₂.map bLine) := by
  rw [preLen_gsecLines, h, List.map_append, List.map_cons, preLen_append, preLen_cons,
    hdrLine_length]
  omega

end Notes

namespace Notes

theorem findSub_month_hdr {pre trail : List Str} {G₁ G₂ : List GSec} {g : GSec} {M : Str}
    (hwf : gWfb pre (G₁ ++ g :: G₂) trail = true)
    (hname : M <+: g.name)
    (hG₁ : ∀ g' ∈ G₁, ¬ (M <+: g'.name)) :
    findSubFrom (joinNl (gLines pre (G₁ ++ g :: G₂) trail)) (hdrLine M) 0
      = some (preLen (pre ++ G₁.bind gsecLines)) := by
  obtain ⟨hsafe, hsecs⟩ := gWfb_parts hwf
  have hgwf := hsecs g (by simp)
  have hgs : gLines pre (G₁ ++ g :: G₂) trail
      = (pre ++ G₁.bind gsecLines) ++ hdrLine g.name
        :: (g.body.map bLine ++ (G₂.bind gsecLines ++ [strOf "<br/>"] ++ trail)) := by
    unfold gLines
    rw [bind_append_eq, bind_cons_eq]
    rw [show gsecLines g = hdrLine g.name :: g.body.map bLine from rfl]
    simp
  have hpfx : hdrLine M <+: hdrLine g.name := prefix_append_left (strOf "## ") hname
  have hMnl : '\n' ∉ hdrLine M := by
    intro hc
    have := @hdrLine_no_newline g.name (by
      rw [List.all_eq_true]
      intro c hc'
      exact List.all_eq_true.mp (gsecWfb_parts hgwf).2.1 c hc')
    exact this (hpfx.subset hc)
  apply findSub_joinNl_at (nlFree_gLines hwf) hMnl (by rw [hdrLine_eq_cons]; simp) hgs
    (matchesAt_iff_pref.mpr (by rw [List.drop_zero]; exact hpfx))
    hpfx.length_le (by omega)
  intro A' l' B' t hd _ hlt hfit'
  rcases gLines_cut hd with ⟨p₁, p₂, hp, hA⟩ | ⟨G₁', g', G₂', hgs', hcase⟩
    | ⟨hl, hA⟩ | ⟨t₁, t₂, ht, hA⟩
  · exact no_hdr_match_lsafe (hsafe l' (List.mem_append_left _ (by rw [hp]; simp)))
  · rcases hcase with ⟨hl, hA⟩ | ⟨b₁', o, b₂', hbody', hl, hA⟩
    · cases hx : matchesAt l' (hdrLine M) t with
      | false => rfl
      | true =>
        exfalso
        rw [hl] at hx
        obtain ⟨ht0, hMp⟩ := hdr_in_hdr (gsecWfb_parts (hsecs g' (by rw [hgs']; simp))).2.1 hx
        subst ht0
        rcases sec_cut_trichotomy hgs' with ⟨B₁, h1⟩ | ⟨h1, h2, _⟩ | ⟨A₂, h1, _⟩
        · exact hG₁ g' (by rw [h1]; simp) hMp
        · subst h1
          rw [hA] at hlt
          omega
        · have hple := preLen_bind_mid pre G₁ g A₂
          rw [← h1] at hple
          rw [hA] at hlt
          have hppos : preLen (gsecLines g) > 0 := by
            rw [preLen_gsecLines]
            omega
          omega
    · rw [hl]
      apply no_hdr_match_bLine
      intro lk hlk
      subst hlk
      exact (gsecWfb_parts (hsecs g' (by rw [hgs']; simp))).2.2 lk
        (by rw [hbody']; simp)
  · rw [hl]
    exact no_hdr_match_sent
  · exact no_hdr_match_lsafe (hsafe l' (List.mem_append_right _ (by rw [ht]; simp)))

end Notes

namespace Notes

theorem hdr_pair_pos {pre : List Str} {G₁' : List GSec} {A' : List Str} {l' : Str}
    (hA : A' ++ [l'] = pre ++ G₁'.bind gsecLines) :
    preLen A' + l'.length = preLen (pre ++ G₁'.bind gsecLines) - 1
    ∧ 1 ≤ preLen (pre ++ G₁'.bind gsecLines) := by
  have h2 : preLen (A' ++ [l']) = preLen (pre ++ G₁'.bind gsecLines) := by rw [hA]
  rw [preLen_append, preLen_singleton] at h2
  omega

theorem findSub_nexthdr_some {pre trail : List Str} {G₁ G₂' : List GSec} {g g₂ : GSec}
    (hwf : gWfb pre (G₁ ++ g :: g₂ :: G₂') trail = true)
    (hgb : g.body ≠ []) :
    findSubFrom (joinNl (gLines pre (G₁ ++ g :: g₂ :: G₂') trail)) (strOf "\n##")
        (preLen (pre ++ G₁.bind gsecLines ++ [hdrLine g.name]))
      = some (preLen (pre ++ G₁.bind gsecLines) + preLen (gsecLines g) - 1) := by
  obtain ⟨hsafe, hsecs⟩ := gWfb_parts hwf
  obtain ⟨bs, obl, hbs⟩ := (List.eq_nil_or_concat g.body).resolve_left hgb
  rw [List.concat_eq_append] at hbs
  have hdec : gLines pre (G₁ ++ g :: g₂ :: G₂') trail
      = (pre ++ G₁.bind gsecLines ++ hdrLine g.name :: bs.map bLine)
        ++ bLine obl :: hdrLine g₂.name
        :: (g₂.body.map bLine ++ (G₂'.bind gsecLines ++ [strOf "<br/>"] ++ trail)) := by
    unfold gLines
    rw [bind_append_eq, bind_cons_eq, bind_cons_eq]
    rw [show gsecLines g = hdrLine g.name :: g.body.map bLine from rfl]
    rw [show gsecLines g₂ = hdrLine g₂.name :: g₂.body.map bLine from rfl]
    rw [hbs]
    simp
  have hstartle : preLen (pre ++ G₁.bind gsecLines ++ [hdrLine g.name])
      ≤ preLen (pre ++ G₁.bind gsecLines ++ hdrLine g.name :: bs.map bLine)
        + (bLine obl).length := by
    rw [preLen_append, preLen_append (pre ++ G₁.bind gsecLines) _, preLen_singleton,
      preLen_cons]
    omega
  have htgt : preLen (pre ++ G₁.bind gsecLines) + preLen (gsecLines g) - 1
      = preLen (pre ++ G₁.bind gsecLines ++ hdrLine g.name :: bs.map bLine)
        + (bLine obl).length := by
    rw [preLen_gsecLines_parts g hbs]
    rw [preLen_append (pre ++ G₁.bind gsecLines) (hdrLine g.name :: bs.map bLine),
      preLen_cons]
    rw [show preLen (List.map bLine ([] : List (Option MLink))) = 0 from rfl]
    omega
  rw [show strOf "\n##" = '\n' :: strOf "##" from rfl, htgt]
  apply findSub_joinNl_nlpat_at (nlFree_gLines hwf) (by decide) hdec
    (startsWith_hash2_hdr g₂.name) (by rw [← htgt]; omega)
  intro A' l' b' B' hd hge hlt
  rcases gLines_cut (show gLines pre (G₁ ++ g :: g₂ :: G₂') trail = (A' ++ [l']) ++ b' :: B'
      by rw [hd]; simp) with
    ⟨p₁, p₂, hp, hA⟩ | ⟨G₁', g', G₂'', hgs', hcase⟩ | ⟨hl, hA⟩ | ⟨t₁, t₂, ht, hA⟩
  · exact startsWith_hash2_lsafe (hsafe b' (List.mem_append_left _ (by rw [hp]; simp)))
  · rcases hcase with ⟨hl, hA⟩ | ⟨b₁', o, b₂', hbody', hl, hA⟩
    · exfalso
      obtain ⟨hA', hpos⟩ := hdr_pair_pos hA
      rw [hA'] at hge hlt
      rw [preLen_append (pre ++ G₁.bind gsecLines) [hdrLine g.name], preLen_singleton]
        at hge
      rw [← htgt] at hlt
      rcases sec_cut_trichotomy hgs' with ⟨B₁, h1⟩ | ⟨h1, h2, _⟩ | ⟨A₂, h1, _⟩
      · have hple := preLen_bind_mid pre G₁' g' B₁
        rw [← h1] at hple
        have hgpos : 0 < preLen (gsecLines g') := by
          rw [preLen_gsecLines]
          omega
        omega
      · subst h1
        omega
      · have hple := preLen_bind_mid pre G₁ g A₂
        rw [← h1] at hple
        omega
    · rw [hl]
      exact startsWith_hash2_bLine o
  · rw [hl]
    exact startsWith_hash2_sent
  · exact startsWith_hash2_lsafe (hsafe b' (List.mem_append_right _ (by rw [ht]; simp)))

theorem findSub_nexthdr_none {pre trail : List Str} {G₁ : List GSec} {g : GSec}
    (hwf : gWfb pre (G₁ ++ [g]) trail = true) :
    findSubFrom (joinNl (gLines pre (G₁ ++ [g]) trail)) (strOf "\n##")
        (preLen (pre ++ G₁.bind gsecLines ++ [hdrLine g.name]))
      = none := by
  obtain ⟨hsafe, hsecs⟩ := gWfb_parts hwf
  rw [show strOf "\n##" = '\n' :: strOf "##" from rfl]
  apply findSub_joinNl_nlpat_none (nlFree_gLines hwf) (by decide)
  intro A' l' b' B' hd hge
  rcases gLines_cut (show gLines pre (G₁ ++ [g]) trail = (A' ++ [l']) ++ b' :: B'
      by rw [hd]; simp) with
    ⟨p₁, p₂, hp, hA⟩ | ⟨G₁', g', G₂'', hgs', hcase⟩ | ⟨hl, hA⟩ | ⟨t₁, t₂, ht, hA⟩
  · exact startsWith_hash2_lsafe (hsafe b' (List.mem_append_left _ (by rw [hp]; simp)))
  · rcases hcase with ⟨hl, hA⟩ | ⟨b₁', o, b₂', hbody', hl, hA⟩
    · exfalso
      obtain ⟨hA', hpos⟩ := hdr_pair_pos hA
      rw [hA'] at hge
      rw [preLen_append (pre ++ G₁.bind gsecLines) [hdrLine g.name], preLen_singleton]
        at hge
      rcases sec_cut_trichotomy (show G₁ ++ g :: ([] : List GSec) = G₁' ++ g' :: G₂''
          from hgs') with ⟨B₁, h1⟩ | ⟨h1, h2, _⟩ | ⟨A₂, h1, h2⟩
      · have hple := preLen_bind_mid pre G₁' g' B₁
        rw [← h1] at hple
        have hgpos : 0 < preLen (gsecLines g') := by
          rw [preLen_gsecLines]
          omega
        omega
      · subst h1
        omega
      · exact absurd h2.symm (by simp)
    · rw [hl]
      exact startsWith_hash2_bLine o
  · rw [hl]
    exact startsWith_hash2_sent
  · exact startsWith_hash2_lsafe (hsafe b' (List.mem_append_right _ (by rw [ht]; simp)))

end Notes

namespace Notes

theorem findSub_lastlink {pre trail : List Str} {G₁ G₂ : List GSec} {g : GSec}
    {b₁ b₂ : List (Option MLink)} {lk : MLink}
    (hwf : gWfb pre (G₁ ++ g :: G₂) trail = true)
    (hbody : g.body = b₁ ++ some lk :: b₂)
    (huniq : ∀ o ∈ b₁, ∀ lk', o = some lk' → renderLink lk' ≠ renderLink lk) :
    findSubFrom (joinNl (gLines pre (G₁ ++ g :: G₂) trail)) (renderLink lk)
        (preLen (pre ++ G₁.bind gsecLines ++ [hdrLine g.name]))
      = some (preLen (pre ++ G₁.bind gsecLines ++ hdrLine g.name :: b₁.map bLine)) := by
  obtain ⟨hsafe, hsecs⟩ := gWfb_parts hwf
  have hgwf := hsecs g (by simp)
  have hlkwf : linkWfb lk = true :=
    (gsecWfb_parts hgwf).2.2 lk (by rw [hbody]; simp)
  have hdec : gLines pre (G₁ ++ g :: G₂) trail
      = (pre ++ G₁.bind gsecLines ++ hdrLine g.name :: b₁.map bLine)
        ++ renderLink lk :: (b₂.map bLine ++ (G₂.bind gsecLines ++ [strOf "<br/>"] ++ trail)) := by
    unfold gLines
    rw [bind_append_eq, bind_cons_eq]
    rw [show gsecLines g = hdrLine g.name :: g.body.map bLine from rfl]
    rw [hbody]
    simp [bLine]
  have hstartle : preLen (pre ++ G₁.bind gsecLines ++ [hdrLine g.name])
      ≤ preLen (pre ++ G₁.bind gsecLines ++ hdrLine g.name :: b₁.map bLine) := by
    rw [preLen_append, preLen_append (pre ++ G₁.bind gsecLines) _, preLen_singleton,
      preLen_cons]
    omega
  apply findSub_joinNl_at (nlFree_gLines hwf) (linkWf_no_newline hlkwf)
    (by rw [renderLink_eq_cons]; simp) hdec
    (matchesAt_iff_pref.mpr (by rw [List.drop_zero])) (le_refl _) hstartle
  intro A' l' B' t hd hge hlt hfit'
  cases hx : matchesAt l' (renderLink lk) t with
  | false => rfl
  | true =>
    exfalso
    have hhead : l'.get? t = some '[' := by
      rw [renderLink_eq_cons] at hx
      exact matchesAt_get_head hx
    rcases gLines_cut hd with ⟨p₁, p₂, hp, hA⟩ | ⟨G₁', g', G₂', hgs', hcase⟩
      | ⟨hl, hA⟩ | ⟨t₁, t₂, ht, hA⟩
    · exact (lsafeb_facts (hsafe l' (List.mem_append_left _ (by rw [hp]; simp)))).2.2.1
        (List.get?_mem hhead)
    · rcases hcase with ⟨hl, hA⟩ | ⟨b₁', o, b₂', hbody', hl, hA⟩
      · rw [hl] at hhead
        exact hdrLine_no_bracket (gsecWfb_parts (hsecs g' (by rw [hgs']; simp))).2.1
          (List.get?_mem hhead)
      · cases o with
        | none =>
          rw [hl] at hhead
          cases t <;> cases hhead
        | some lk' =>
          have hlk'wf : linkWfb lk' = true :=
            (gsecWfb_parts (hsecs g' (by rw [hgs']; simp))).2.2 lk'
              (by rw [hbody']; simp)
          rw [hl] at hhead hx
          have ht0 : t = 0 := bracket_pos_renderLink hlk'wf hhead
          subst ht0
          have heq : renderLink lk = renderLink lk' :=
            renderLink_prefix_eq hlkwf hlk'wf
              (by have := matchesAt_iff_pref.mp hx; rwa [List.drop_zero] at this)
          have hpA' : preLen A' = preLen (pre ++ G₁'.bind gsecLines)
              + ((hdrLine g'.name).length + 1) + preLen (b₁'.map bLine) := by
            rw [hA, preLen_append, preLen_cons]
            omega
          have hpA1 : preLen (pre ++ G₁.bind gsecLines ++ hdrLine g.name :: b₁.map bLine)
              = preLen (pre ++ G₁.bind gsecLines) + ((hdrLine g.name).length + 1)
                + preLen (b₁.map bLine) := by
            rw [preLen_append (pre ++ G₁.bind gsecLines) _, preLen_cons]
            omega
          rw [hpA1] at hlt
          rw [Nat.add_zero] at hge
          rw [preLen_append (pre ++ G₁.bind gsecLines) [hdrLine g.name], preLen_singleton]
            at hge
          have hparts' := preLen_gsecLines_parts g' hbody'
          rcases sec_cut_trichotomy hgs' with ⟨B₁, h1⟩ | ⟨h1, h2, _⟩ | ⟨A₂, h1, _⟩
          · have hple := preLen_bind_mid pre G₁' g' B₁
            rw [← h1] at hple
            omega
          · subst h1
            subst h2
            rw [hbody'] at hbody
            rcases cut_split hbody.symm with ⟨B₁b, hb1, _⟩ | ⟨A₂b, hb2, hb3⟩
            · exact huniq (some lk') (by rw [hb1]; simp) lk' rfl heq.symm
            · have hmm : preLen (b₁'.map bLine)
                  = preLen (b₁.map bLine) + preLen (A₂b.map bLine) := by
                rw [hb3, List.map_append, preLen_append]
              omega
          · have hple := preLen_bind_mid pre G₁ g A₂
            rw [← h1] at hple
            have hparts := preLen_gsecLines_parts g hbody
            omega
    · rw [hl] at hhead
      have : '[' ∈ strOf "<br/>" := List.get?_mem hhead
      exact absurd this (by decide)
    · exact (lsafeb_facts (hsafe l' (List.mem_append_right _ (by rw [ht]; simp)))).2.2.1
        (List.get?_mem hhead)

end Notes

namespace Notes

theorem preLen_gLines (pre trail : List Str) (gs : List GSec) :
    preLen (gLines pre gs trail)
      = preLen pre + preLen (gs.bind gsecLines) + 6 + preLen trail := by
  unfold gLines
  rw [preLen_append, preLen_append, preLen_append, preLen_singleton]
  have h5 : List.length (strOf "<br/>") = 5 := rfl
  omega

theorem gLines_ne_nil {pre trail : List Str} {gs : List GSec} :
    gLines pre gs trail ≠ [] := by
  unfold gLines
  simp

theorem update_gLines_present {pre trail : List Str} {G₁ G₂ : List GSec} {g : GSec}
    {now : Now} {temp weather : Str} {b₁ b₂ : List (Option MLink)} {lk : MLink}
    (hwf : gWfb pre (G₁ ++ g :: G₂) trail = true)
    (hname : get_french_month now.month <+: g.name)
    (hG₁ : ∀ g' ∈ G₁, ¬ (get_french_month now.month <+: g'.name))
    (hbody : g.body = b₁ ++ some lk :: b₂)
    (hb₂ : ∀ o ∈ b₂, o = none)
    (huniq : ∀ o ∈ b₁, ∀ lk', o = some lk' → renderLink lk' ≠ renderLink lk) :
    update_year_readme (joinNl (gLines pre (G₁ ++ g :: G₂) trail)) (linkArgOf now) now
        temp weather
      = joinNl (gLines pre
          (G₁ ++ (⟨g.name, b₁ ++ some lk :: none
              :: some (newLinkOf now temp weather) :: b₂⟩ : GSec) :: G₂) trail) := by
  obtain ⟨hsafe, hsecs⟩ := gWfb_parts hwf
  have hgwf := hsecs g (by simp)
  have hgb : g.body ≠ [] := by rw [hbody]; simp
  have hgbmap : g.body.map bLine ≠ [] := fun hc => hgb (List.map_eq_nil.mp hc)
  have h1 : findSubFrom (joinNl (gLines pre (G₁ ++ g :: G₂) trail))
      (strOf "## " ++ get_french_month now.month) 0
      = some (preLen (pre ++ G₁.bind gsecLines)) := by
    rw [show strOf "## " ++ get_french_month now.month
      = hdrLine (get_french_month now.month) from rfl]
    exact findSub_month_hdr hwf hname hG₁
  have hdec0 : gLines pre (G₁ ++ g :: G₂) trail
      = (pre ++ G₁.bind gsecLines) ++ hdrLine g.name
        :: (g.body.map bLine ++ (G₂.bind gsecLines ++ [strOf "<br/>"] ++ trail)) := by
    unfold gLines
    rw [bind_append_eq, bind_cons_eq]
    rw [show gsecLines g = hdrLine g.name :: g.body.map bLine from rfl]
    simp
  have h2 : findCharFrom (joinNl (gLines pre (G₁ ++ g :: G₂) trail)) '\n'
      (preLen (pre ++ G₁.bind gsecLines))
      = some (preLen (pre ++ G₁.bind gsecLines) + (hdrLine g.name).length) := by
    exact findChar_nl_at (nlFree_gLines hwf) hdec0 (by simp) (le_refl _) (by omega)
  have hcanon : preLen (pre ++ G₁.bind gsecLines) + (hdrLine g.name).length + 1
      = preLen (pre ++ G₁.bind gsecLines ++ [hdrLine g.name]) := by
    rw [preLen_append (pre ++ G₁.bind gsecLines) [hdrLine g.name], preLen_singleton]
    omega
  have h4 : findSubFrom (joinNl (gLines pre (G₁ ++ g :: G₂) trail)) (strOf "\n<br/>")
      (preLen (pre ++ G₁.bind gsecLines ++ [hdrLine g.name]))
      = some (preLen (pre ++ (G₁ ++ g :: G₂).bind gsecLines) - 1) := by
    apply findSub_br_gLines hwf
    · rw [bind_append_eq, bind_cons_eq]
      rw [show gsecLines g = hdrLine g.name :: g.body.map bLine from rfl]
      simp
    · have hmid := preLen_bind_mid pre G₁ g G₂
      have hparts := preLen_gsecLines_parts g hbody
      rw [preLen_append (pre ++ G₁.bind gsecLines) [hdrLine g.name], preLen_singleton]
      omega
  have hPdec : gLines pre (G₁ ++ g :: G₂) trail
      = (pre ++ G₁.bind gsecLines ++ [hdrLine g.name]) ++ g.body.map bLine
        ++ (G₂.bind gsecLines ++ [strOf "<br/>"] ++ trail) := by
    unfold gLines
    rw [bind_append_eq, bind_cons_eq]
    rw [show gsecLines g = hdrLine g.name :: g.body.map bLine from rfl]
    simp
  have hslice : pySlice (joinNl (gLines pre (G₁ ++ g :: G₂) trail))
      (preLen (pre ++ G₁.bind gsecLines ++ [hdrLine g.name]))
      (preLen (pre ++ G₁.bind gsecLines) + preLen (gsecLines g) - 1)
      = joinNl (g.body.map bLine) := by
    rw [hPdec]
    rw [show preLen (pre ++ G₁.bind gsecLines) + preLen (gsecLines g) - 1
      = preLen ((pre ++ G₁.bind gsecLines ++ [hdrLine g.name]) ++ g.body.map bLine) - 1 by
        rw [preLen_append (pre ++ G₁.bind gsecLines ++ [hdrLine g.name]) (g.body.map bLine),
          preLen_append (pre ++ G₁.bind gsecLines) [hdrLine g.name], preLen_singleton,
          preLen_gsecLines, hdrLine_length]
        omega]
    exact pySlice_join_mid hgbmap (by simp)
  have hsplitbody : splitNl (joinNl (g.body.map bLine)) = g.body.map bLine := by
    apply splitNl_joinNl hgbmap
    intro l hl
    rw [List.mem_map] at hl
    obtain ⟨o, ho, rfl⟩ := hl
    cases o with
    | none => simp [bLine]
    | some lk' =>
      exact linkWf_no_newline ((gsecWfb_parts hgwf).2.2 lk' ho)
  have h9 : (g.body.filterMap fun o => o.map renderLink).getLast?
      = some (renderLink lk) := by
    rw [hbody, List.filterMap_append]
    rw [show List.filterMap (fun o => Option.map renderLink o) (some lk :: b₂)
      = renderLink lk :: List.filterMap (fun o => Option.map renderLink o) b₂ from rfl]
    rw [show List.filterMap (fun o => Option.map renderLink o) b₂ = [] from
      List.filterMap_eq_nil.mpr (fun o ho => by rw [hb₂ o ho]; rfl)]
    exact List.getLast?_concat _
  have h10 : findSubFrom (joinNl (gLines pre (G₁ ++ g :: G₂) trail)) (renderLink lk)
      (preLen (pre ++ G₁.bind gsecLines ++ [hdrLine g.name]))
      = some (preLen (pre ++ G₁.bind gsecLines ++ hdrLine g.name :: b₁.map bLine)) :=
    findSub_lastlink hwf hbody huniq
  have hA1dec : gLines pre (G₁ ++ g :: G₂) trail
      = (pre ++ G₁.bind gsecLines ++ hdrLine g.name :: b₁.map bLine)
        ++ renderLink lk
          :: (b₂.map bLine ++ (G₂.bind gsecLines ++ [strOf "<br/>"] ++ trail)) := by
    unfold gLines
    rw [bind_append_eq, bind_cons_eq]
    rw [show gsecLines g = hdrLine g.name :: g.body.map bLine from rfl]
    rw [hbody]
    simp [bLine]
  have h11 : findCharFrom (joinNl (gLines pre (G₁ ++ g :: G₂) trail)) '\n'
      (preLen (pre ++ G₁.bind gsecLines ++ hdrLine g.name :: b₁.map bLine))
      = some (preLen (pre ++ G₁.bind gsecLines ++ hdrLine g.name :: b₁.map bLine)
          + (renderLink lk).length) := by
    exact findChar_nl_at (nlFree_gLines hwf) hA1dec (by simp) (le_refl _) (by omega)
  have hcanon2 : preLen (pre ++ G₁.bind gsecLines ++ hdrLine g.name :: b₁.map bLine)
        + (renderLink lk).length + 1
      = preLen ((pre ++ G₁.bind gsecLines ++ hdrLine g.name :: b₁.map bLine)
          ++ [renderLink lk]) := by
    rw [preLen_append (pre ++ G₁.bind gsecLines ++ hdrLine g.name :: b₁.map bLine)
      [renderLink lk], preLen_singleton]
    omega
  have hUV : gLines pre (G₁ ++ g :: G₂) trail
      = ((pre ++ G₁.bind gsecLines ++ hdrLine g.name :: b₁.map bLine) ++ [renderLink lk])
        ++ (b₂.map bLine ++ (G₂.bind gsecLines ++ [strOf "<br/>"] ++ trail)) := by
    rw [hA1dec]
    simp
  have hUne : (pre ++ G₁.bind gsecLines ++ hdrLine g.name :: b₁.map bLine)
      ++ [renderLink lk] ≠ [] := by simp
  have hVne : b₂.map bLine ++ (G₂.bind gsecLines ++ [strOf "<br/>"] ++ trail) ≠ [] := by
    simp
  have hfinal : ((pre ++ G₁.bind gsecLines ++ hdrLine g.name :: b₁.map bLine)
        ++ [renderLink lk]) ++ [[], renderLink (newLinkOf now temp weather)]
        ++ (b₂.map bLine ++ (G₂.bind gsecLines ++ [strOf "<br/>"] ++ trail))
      = gLines pre
          (G₁ ++ (⟨g.name, b₁ ++ some lk :: none
              :: some (newLinkOf now temp weather) :: b₂⟩ : GSec) :: G₂) trail := by
    unfold gLines
    rw [bind_append_eq, bind_cons_eq]
    rw [show gsecLines (⟨g.name, b₁ ++ some lk :: none
        :: some (newLinkOf now temp weather) :: b₂⟩ : GSec)
      = hdrLine g.name :: (b₁ ++ some lk :: none
          :: some (newLinkOf now temp weather) :: b₂).map bLine from rfl]
    simp [bLine]
  unfold update_year_readme
  simp only [h1, h2]
  rw [hcanon]
  cases G₂ with
  | nil =>
    have h3 := findSub_nexthdr_none (by rwa [show G₁ ++ [g] = G₁ ++ g :: ([] : List GSec)
      from rfl] at hwf)
    have hlen := preLen_eq_joinNl_length
      (@gLines_ne_nil pre trail (G₁ ++ g :: ([] : List GSec)))
    have hglen := preLen_gLines pre trail (G₁ ++ g :: ([] : List GSec))
    have hmid := preLen_bind_mid pre G₁ g ([] : List GSec)
    have hpa : preLen (pre ++ (G₁ ++ g :: ([] : List GSec)).bind gsecLines)
        = preLen pre + preLen ((G₁ ++ g :: ([] : List GSec)).bind gsecLines) :=
      preLen_append pre ((G₁ ++ g :: ([] : List GSec)).bind gsecLines)
    have h0b : preLen ((([] : List GSec)).bind gsecLines) = 0 := rfl
    have hparts := preLen_gsecLines_parts g hbody
    simp only [h3, h4]
    have hminred : min (joinNl (gLines pre (G₁ ++ g :: ([] : List GSec)) trail)).length
        (preLen (pre ++ (G₁ ++ g :: ([] : List GSec)).bind gsecLines) - 1)
        = preLen (pre ++ G₁.bind gsecLines) + preLen (gsecLines g) - 1 := by
      omega
    rw [hminred]
    simp only [hslice, hsplitbody, filter_note_body, h9]
    simp only [h10, Option.getD_some]
    simp only [h11]
    rw [hcanon2, new_entry_eq, hUV]
    rw [insert_splice hUne hVne]
    congr 1
  | cons g₂ G₂' =>
    have h3 := findSub_nexthdr_some hwf hgb
    have hlen := preLen_eq_joinNl_length
      (@gLines_ne_nil pre trail (G₁ ++ g :: g₂ :: G₂'))
    have hglen := preLen_gLines pre trail (G₁ ++ g :: g₂ :: G₂')
    have hmid := preLen_bind_mid pre G₁ g (g₂ :: G₂')
    have hpa : preLen (pre ++ (G₁ ++ g :: g₂ :: G₂').bind gsecLines)
        = preLen pre + preLen ((G₁ ++ g :: g₂ :: G₂').bind gsecLines) :=
      preLen_append pre ((G₁ ++ g :: g₂ :: G₂').bind gsecLines)
    have hparts := preLen_gsecLines_parts g hbody
    simp only [h3, h4]
    have hminred : min (joinNl (gLines pre (G₁ ++ g :: g₂ :: G₂') trail)).length
        (min (preLen (pre ++ G₁.bind gsecLines) + preLen (gsecLines g) - 1)
          (preLen (pre ++ (G₁ ++ g :: g₂ :: G₂').bind gsecLines) - 1))
        = preLen (pre ++ G₁.bind gsecLines) + preLen (gsecLines g) - 1 := by
      have hg2pos : 0 < preLen (gsecLines g₂) := by
        rw [preLen_gsecLines]
        omega
      omega
    rw [hminred]
    simp only [hslice, hsplitbody, filter_note_body, h9]
    simp only [h10, Option.getD_some]
    simp only [h11]
    rw [hcanon2, new_entry_eq, hUV]
    rw [insert_splice hUne hVne]
    congr 1

end Notes

namespace Notes

theorem findSub_month_hdr_none {pre trail : List Str} {gs : List GSec} {M : Str}
    (hwf : gWfb pre gs trail = true)
    (hMnl : '\n' ∉ M)
    (habs : ∀ g' ∈ gs, ¬ (M <+: g'.name)) :
    findSubFrom (joinNl (gLines pre gs trail)) (hdrLine M) 0 = none := by
  obtain ⟨hsafe, hsecs⟩ := gWfb_parts hwf
  apply findSub_joinNl_none (nlFree_gLines hwf) ?hnl (by rw [hdrLine_eq_cons]; simp)
  case hnl =>
    rw [hdrLine_eq_cons]
    simp only [List.mem_cons]
    intro hc
    rcases hc with h | h | h | h
    · cases h
    · cases h
    · cases h
    · exact hMnl h
  intro A' l' B' t hd _ _
  rcases gLines_cut hd with ⟨p₁, p₂, hp, hA⟩ | ⟨G₁', g', G₂', hgs', hcase⟩
    | ⟨hl, hA⟩ | ⟨t₁, t₂, ht, hA⟩
  · exact no_hdr_match_lsafe (hsafe l' (List.mem_append_left _ (by rw [hp]; simp)))
  · rcases hcase with ⟨hl, hA⟩ | ⟨b₁', o, b₂', hbody', hl, hA⟩
    · cases hx : matchesAt l' (hdrLine M) t with
      | false => rfl
      | true =>
        exfalso
        rw [hl] at hx
        obtain ⟨_, hMp⟩ := hdr_in_hdr (gsecWfb_parts (hsecs g' (by rw [hgs']; simp))).2.1 hx
        exact habs g' (by rw [hgs']; simp) hMp
    · rw [hl]
      apply no_hdr_match_bLine
      intro lk hlk
      subst hlk
      exact (gsecWfb_parts (hsecs g' (by rw [hgs']; simp))).2.2 lk (by rw [hbody']; simp)
  · rw [hl]
    exact no_hdr_match_sent
  · exact no_hdr_match_lsafe (hsafe l' (List.mem_append_right _ (by rw [ht]; simp)))

theorem insert_splice_new_section {W T : List Str} {M entry : Str}
    (hW : W ≠ []) (hT : T ≠ []) :
    (joinNl (W ++ T)).take (preLen W - 1) ++ strOf "\n## " ++ M ++ strOf "\n\n"
        ++ entry ++ '\n' :: (joinNl (W ++ T)).drop (preLen W - 1)
      = joinNl (W ++ [hdrLine M, [], entry, []] ++ T) := by
  rw [joinNl_take_pre W T hW hT, joinNl_drop_pre_nl hW hT]
  rw [show W ++ [hdrLine M, [], entry, []] ++ T
    = W ++ (hdrLine M :: ([] : Str) :: entry :: ([] : Str) :: T) by simp]
  rw [joinNl_append W (hdrLine M :: ([] : Str) :: entry :: ([] : Str) :: T) hW (by simp)]
  rw [joinNl_cons (hdrLine M) (by simp : (([] : Str) :: entry :: ([] : Str) :: T) ≠ [])]
  rw [joinNl_cons ([] : Str) (by simp : (entry :: ([] : Str) :: T) ≠ [])]
  rw [joinNl_cons entry (by simp : (([] : Str) :: T) ≠ [])]
  rw [joinNl_cons ([] : Str) hT]
  rw [hdrLine_eq_cons]
  simp [strOf]

theorem update_gLines_absent {pre trail : List Str} {gs : List GSec}
    {now : Now} {temp weather : Str}
    (hwf : gWfb pre gs trail = true)
    (hMnl : '\n' ∉ get_french_month now.month)
    (habs : ∀ g' ∈ gs, ¬ (get_french_month now.month <+: g'.name))
    (hbne : pre ++ gs.bind gsecLines ≠ []) :
    update_year_readme (joinNl (gLines pre gs trail)) (linkArgOf now) now temp weather
      = joinNl (gLines pre
          (gs ++ [⟨get_french_month now.month,
            [none, some (newLinkOf now temp weather), none]⟩]) trail) := by
  have h1 : findSubFrom (joinNl (gLines pre gs trail))
      (strOf "## " ++ get_french_month now.month) 0 = none := by
    rw [show strOf "## " ++ get_french_month now.month
      = hdrLine (get_french_month now.month) from rfl]
    exact findSub_month_hdr_none hwf hMnl habs
  have h2 : findSubFrom (joinNl (gLines pre gs trail)) (strOf "\n<br/>") 0
      = some (preLen (pre ++ gs.bind gsecLines) - 1) :=
    findSub_br_gLines hwf hbne (by omega)
  have hWT : gLines pre gs trail
      = (pre ++ gs.bind gsecLines) ++ ([strOf "<br/>"] ++ trail) := by
    unfold gLines
    simp
  have hfinal : (pre ++ gs.bind gsecLines)
        ++ [hdrLine (get_french_month now.month), [],
            renderLink (newLinkOf now temp weather), []]
        ++ ([strOf "<br/>"] ++ trail)
      = gLines pre
          (gs ++ [⟨get_french_month now.month,
            [none, some (newLinkOf now temp weather), none]⟩]) trail := by
    unfold gLines
    rw [bind_append_eq, bind_cons_eq]
    rw [show gsecLines (⟨get_french_month now.month,
        [none, some (newLinkOf now temp weather), none]⟩ : GSec)
      = hdrLine (get_french_month now.month)
          :: [[], renderLink (newLinkOf now temp weather), []] from rfl]
    simp
  unfold update_year_readme
  simp only [h1, h2]
  rw [new_entry_eq, hWT]
  rw [insert_splice_new_section hbne (by simp)]
  congr 1

end Notes

namespace Notes

theorem renderLink_ne_hdr (lk : MLink) (name : Str) : renderLink lk ≠ hdrLine name := by
  rw [renderLink_eq_cons, hdrLine_eq_cons]
  intro hc
  injection hc with h1 _
  cases h1

theorem renderLink_ne_sent (lk : MLink) : renderLink lk ≠ strOf "<br/>" := by
  rw [renderLink_eq_cons, show strOf "<br/>" = '<' :: strOf "br/>" from rfl]
  intro hc
  injection hc with h1 _
  cases h1

theorem bracket_mem_renderLink (lk : MLink) : '[' ∈ renderLink lk := by
  rw [renderLink_eq_cons]
  simp

theorem links_before_ne {pre trail : List Str} {G₁ G₂ : List GSec} {g : GSec}
    {bfr aft : List (Option MLink)} {lk : MLink} {dfn : Str}
    (hwf : gWfb pre (G₁ ++ g :: G₂) trail = true)
    (hbody : g.body = bfr ++ some lk :: aft)
    (hG₁ : ∀ g' ∈ G₁, ∀ lk', some lk' ∈ g'.body → lk'.date ≠ dfn)
    (hbfr : ∀ o ∈ bfr, ∀ lk', o = some lk' → lk'.date ≠ dfn) :
    ∀ A' lk' B', gLines pre (G₁ ++ g :: G₂) trail = A' ++ renderLink lk' :: B' →
      linkWfb lk' = true
      → preLen A' < preLen (pre ++ G₁.bind gsecLines ++ hdrLine g.name :: bfr.map bLine)
      → lk'.date ≠ dfn := by
  obtain ⟨hsafe, hsecs⟩ := gWfb_parts hwf
  intro A' lk' B' hd hwfk' hlt hdd
  rcases gLines_cut hd with ⟨p₁, p₂, hp, hA⟩ | ⟨G₁'', g'', G₂'', hgs', hcase⟩
    | ⟨hl, hA⟩ | ⟨t₁, t₂, ht, hA⟩
  · exact (lsafeb_facts (hsafe (renderLink lk')
      (List.mem_append_left _ (by rw [hp]; simp)))).2.2.1 (bracket_mem_renderLink lk')
  · rcases hcase with ⟨hl, hA⟩ | ⟨c₁, o, c₂, hbody'', hl, hA⟩
    · exact renderLink_ne_hdr lk' g''.name hl
    · cases o with
      | none =>
        rw [renderLink_eq_cons] at hl
        cases hl
      | some lk'' =>
        have hwf'' : linkWfb lk'' = true :=
          (gsecWfb_parts (hsecs g'' (by rw [hgs']; simp))).2.2 lk''
            (by rw [hbody'']; simp)
        have hdate : lk'.date = lk''.date := renderLink_inj_date hwfk' hwf'' hl
        have hpA' : preLen A' = preLen (pre ++ G₁''.bind gsecLines)
            + ((hdrLine g''.name).length + 1) + preLen (c₁.map bLine) := by
          rw [hA, preLen_append, preLen_cons]
          omega
        have hpA : preLen (pre ++ G₁.bind gsecLines ++ hdrLine g.name :: bfr.map bLine)
            = preLen (pre ++ G₁.bind gsecLines) + ((hdrLine g.name).length + 1)
              + preLen (bfr.map bLine) := by
          rw [preLen_append (pre ++ G₁.bind gsecLines) _, preLen_cons]
          omega
        rw [hpA'] at hlt
        rw [hpA] at hlt
        rcases sec_cut_trichotomy hgs' with ⟨B₁, h1⟩ | ⟨h1, h2, _⟩ | ⟨A₂, h1, _⟩
        · apply hG₁ g'' (by rw [h1]; simp) lk'' (by rw [hbody'']; simp)
          rw [← hdate]
          exact hdd
        · subst h1
          subst h2
          rw [hbody''] at hbody
          rcases cut_split hbody.symm with ⟨B₁b, hb1, _⟩ | ⟨A₂b, hb2, hb3⟩
          · apply hbfr (some lk'') (by rw [hb1]; simp) lk'' rfl
            rw [← hdate]
            exact hdd
          · have hmm2 : preLen (c₁.map bLine)
                = preLen (bfr.map bLine) + preLen (A₂b.map bLine) := by
              rw [hb3, List.map_append, preLen_append]
            omega
        · have hple := preLen_bind_mid pre G₁ g A₂
          rw [← h1] at hple
          have hparts := preLen_gsecLines_parts g hbody
          omega
  · exact renderLink_ne_sent lk' hl
  · exact (lsafeb_facts (hsafe (renderLink lk')
      (List.mem_append_right _ (by rw [ht]; simp)))).2.2.1 (bracket_mem_renderLink lk')

end Notes

namespace Notes

theorem extract_gLines_eat {pre trail : List Str} {G₁ G₂ : List GSec} {g : GSec}
    {b₁' b₂ : List (Option MLink)} {lk : MLink} {dfn : Str}
    (hwf : gWfb pre (G₁ ++ g :: G₂) trail = true)
    (hbody : g.body = b₁' ++ none :: some lk :: b₂)
    (hb1ne : b₁' ≠ [])
    (hlk : lk.date = dfn) (hdfn : dfn.length = 8)
    (hG₁ : ∀ g' ∈ G₁, ∀ lk', some lk' ∈ g'.body → lk'.date ≠ dfn)
    (hbfr : ∀ o ∈ b₁', ∀ lk', o = some lk' → lk'.date ≠ dfn) :
    extract_note_link_from_readme (joinNl (gLines pre (G₁ ++ g :: G₂) trail)) dfn
      = (removeEmptyMonthSection
          (joinNl (gLines pre (G₁ ++ (⟨g.name, b₁' ++ b₂⟩ : GSec) :: G₂) trail))
          (monthMatches (joinNl (gLines pre (G₁ ++ (⟨g.name, b₁' ++ b₂⟩ : GSec) :: G₂) trail))), true) := by
  obtain ⟨hsafe, hsecs⟩ := gWfb_parts hwf
  have hgwf := hsecs g (by simp)
  have hlkwf : linkWfb lk = true :=
    (gsecWfb_parts hgwf).2.2 lk (by rw [hbody]; simp)
  have hbody' : g.body = (b₁' ++ [none]) ++ some lk :: b₂ := by
    rw [hbody]
    simp
  have hdec2 : gLines pre (G₁ ++ g :: G₂) trail
      = (pre ++ G₁.bind gsecLines ++ hdrLine g.name :: (List.map bLine b₁' ++ [[]])) ++ renderLink lk :: (List.map bLine b₂ ++ (G₂.bind gsecLines ++ [strOf "<br/>"] ++ trail)) := by
    unfold gLines
    rw [bind_append_eq, bind_cons_eq]
    rw [show gsecLines g = hdrLine g.name :: g.body.map bLine from rfl]
    rw [hbody]
    simp [bLine]
  have hdec3 : gLines pre (G₁ ++ g :: G₂) trail
      = (pre ++ G₁.bind gsecLines ++ hdrLine g.name :: List.map bLine b₁') ++ ([] : Str) :: renderLink lk :: (List.map bLine b₂ ++ (G₂.bind gsecLines ++ [strOf "<br/>"] ++ trail)) := by
    rw [hdec2]
    simp
  have hbfr' : ∀ o ∈ b₁' ++ [none], ∀ lk', o = some lk' → lk'.date ≠ dfn := by
    intro o ho lk' hol
    rcases List.mem_append.mp ho with h | h
    · exact hbfr o h lk' hol
    · rw [List.mem_singleton.mp h] at hol
      cases hol
  have hfirst := links_before_ne hwf hbody' hG₁ hbfr'
  rw [show List.map bLine (b₁' ++ [none]) = List.map bLine b₁' ++ [[]] by
    rw [List.map_append]; rfl] at hfirst
  have hsearch : linkSearch (joinNl (gLines pre (G₁ ++ g :: G₂) trail)) dfn
      = some (preLen (pre ++ G₁.bind gsecLines ++ hdrLine g.name :: (List.map bLine b₁' ++ [[]])), preLen (pre ++ G₁.bind gsecLines ++ hdrLine g.name :: (List.map bLine b₁' ++ [[]])) + (renderLink lk).length) :=
    linkSearch_gLines hwf hdfn hlkwf hdec2 hlk hfirst
  have h00 : List.length ([] : Str) = 0 := rfl
  have hA32 : preLen (pre ++ G₁.bind gsecLines ++ hdrLine g.name :: (List.map bLine b₁' ++ [[]])) = preLen (pre ++ G₁.bind gsecLines ++ hdrLine g.name :: List.map bLine b₁') + 1 := by
    rw [preLen_append (pre ++ G₁.bind gsecLines) _,
      preLen_append (pre ++ G₁.bind gsecLines) _, preLen_cons, preLen_cons,
      preLen_append (List.map bLine b₁') [[]], preLen_singleton]
    omega
  have hrfind1 : rfindCharBefore (joinNl (gLines pre (G₁ ++ g :: G₂) trail)) '\n' (preLen (pre ++ G₁.bind gsecLines ++ hdrLine g.name :: (List.map bLine b₁' ++ [[]])))
      = some (preLen (pre ++ G₁.bind gsecLines ++ hdrLine g.name :: List.map bLine b₁')) := by
    exact rfind_nl_at (nlFree_gLines hwf) hdec3 (by omega) (by omega)
  have hm_end : findCharFrom (joinNl (gLines pre (G₁ ++ g :: G₂) trail)) '\n' (preLen (pre ++ G₁.bind gsecLines ++ hdrLine g.name :: (List.map bLine b₁' ++ [[]])) + (renderLink lk).length)
      = some (preLen (pre ++ G₁.bind gsecLines ++ hdrLine g.name :: (List.map bLine b₁' ++ [[]])) + (renderLink lk).length) :=
    findChar_nl_at (nlFree_gLines hwf) hdec2 (by simp) (by omega) (by omega)
  have hpos3 : 0 < preLen (pre ++ G₁.bind gsecLines ++ hdrLine g.name :: List.map bLine b₁') := by
    rw [preLen_append (pre ++ G₁.bind gsecLines) _, preLen_cons]
    omega
  have hget : List.get? (joinNl (gLines pre (G₁ ++ g :: G₂) trail)) (preLen (pre ++ G₁.bind gsecLines ++ hdrLine g.name :: List.map bLine b₁')) = some '\n' := by
    rw [hdec3]
    exact joinNl_get?_nl (by simp)
  obtain ⟨bs', o', hb1⟩ := (List.eq_nil_or_concat b₁').resolve_left hb1ne
  rw [List.concat_eq_append] at hb1
  have hA3eq : (pre ++ G₁.bind gsecLines ++ hdrLine g.name :: List.map bLine b₁')
      = (pre ++ G₁.bind gsecLines ++ hdrLine g.name :: List.map bLine bs')
        ++ [bLine o'] := by
    rw [hb1]
    simp
  obtain ⟨A5, l5, hA45⟩ := (List.eq_nil_or_concat
    (pre ++ G₁.bind gsecLines ++ hdrLine g.name :: List.map bLine bs')).resolve_left
    (by simp)
  rw [List.concat_eq_append] at hA45
  have hA45pos : preLen (pre ++ G₁.bind gsecLines ++ hdrLine g.name :: List.map bLine bs')
      = preLen A5 + List.length l5 + 1 := by
    rw [hA45, preLen_append, preLen_singleton]
    omega
  have hA34 : preLen (pre ++ G₁.bind gsecLines ++ hdrLine g.name :: List.map bLine b₁')
      = preLen (pre ++ G₁.bind gsecLines ++ hdrLine g.name :: List.map bLine bs')
        + ((bLine o').length + 1) := by
    rw [hA3eq, preLen_append, preLen_singleton]
  have hdec5 : gLines pre (G₁ ++ g :: G₂) trail
      = A5 ++ l5 :: bLine o'
        :: (([] : Str) :: renderLink lk :: (List.map bLine b₂ ++ (G₂.bind gsecLines ++ [strOf "<br/>"] ++ trail))) := by
    rw [hdec3, hA3eq, hA45]
    simp
  have hrfind2 : rfindCharBefore (joinNl (gLines pre (G₁ ++ g :: G₂) trail)) '\n' (preLen (pre ++ G₁.bind gsecLines ++ hdrLine g.name :: List.map bLine b₁') - 1)
      = some (preLen A5 + List.length l5) := by
    exact rfind_nl_at (nlFree_gLines hwf) hdec5 (by omega) (by omega)
  have hslice2 : pySlice (joinNl (gLines pre (G₁ ++ g :: G₂) trail)) (preLen (pre ++ G₁.bind gsecLines
        ++ hdrLine g.name :: List.map bLine bs')) (preLen (pre ++ G₁.bind gsecLines ++ hdrLine g.name :: List.map bLine b₁'))
      = bLine o' ++ ['\n'] := by
    rw [show gLines pre (G₁ ++ g :: G₂) trail
      = (pre ++ G₁.bind gsecLines ++ hdrLine g.name :: List.map bLine bs')
        ++ [bLine o'] ++ (([] : Str) :: renderLink lk :: (List.map bLine b₂ ++ (G₂.bind gsecLines ++ [strOf "<br/>"] ++ trail))) by
        rw [hdec3, hA3eq]]
    rw [show preLen (pre ++ G₁.bind gsecLines ++ hdrLine g.name :: List.map bLine b₁')
      = preLen ((pre ++ G₁.bind gsecLines ++ hdrLine g.name :: List.map bLine bs')
          ++ [bLine o']) by rw [← hA3eq]]
    exact pySlice_join_mid_nl (by simp) (by simp)
  have hprevfalse : pyStartsWith (pyStrip (bLine o' ++ ['\n'])) (strOf "##") = false := by
    rw [pyStrip_ws_right (by intro c hc; rw [List.mem_singleton.mp hc]; decide)]
    cases o' with
    | none => decide
    | some lk'' =>
      rw [show pyStrip (bLine (some lk'')) = bLine (some lk'') from pyStrip_renderLink lk'']
      exact startsWith_hash2_bLine (some lk'')
  have hdecblank : gLines pre (G₁ ++ g :: G₂) trail
      = (pre ++ G₁.bind gsecLines ++ hdrLine g.name :: List.map bLine b₁') ++ [[], renderLink lk] ++ (List.map bLine b₂ ++ (G₂.bind gsecLines ++ [strOf "<br/>"] ++ trail)) := by
    rw [hdec3]
    simp
  have hfin : (pre ++ G₁.bind gsecLines ++ hdrLine g.name :: List.map bLine b₁') ++ (List.map bLine b₂ ++ (G₂.bind gsecLines ++ [strOf "<br/>"] ++ trail)) = gLines pre (G₁ ++ (⟨g.name, b₁' ++ b₂⟩ : GSec) :: G₂) trail := by
    unfold gLines
    rw [bind_append_eq, bind_cons_eq]
    rw [show gsecLines (⟨g.name, b₁' ++ b₂⟩ : GSec)
      = hdrLine g.name :: (b₁' ++ b₂).map bLine from rfl]
    simp
  unfold extract_note_link_from_readme
  simp only [hsearch]
  simp only [hrfind1]
  simp only [Nat.add_sub_cancel]
  simp only [hm_end]
  have hcond : (decide (preLen (pre ++ G₁.bind gsecLines ++ hdrLine g.name :: List.map bLine b₁') > 0)
      && (List.get? (joinNl (gLines pre (G₁ ++ g :: G₂) trail)) (preLen (pre ++ G₁.bind gsecLines ++ hdrLine g.name :: List.map bLine b₁')) == some '\n')) = true := by
    rw [Bool.and_eq_true]
    constructor
    · exact decide_eq_true hpos3
    · rw [hget]
      rfl
  rw [if_pos hcond]
  simp only [hrfind2]
  rw [show preLen A5 + List.length l5 + 1
    = preLen (pre ++ G₁.bind gsecLines ++ hdrLine g.name :: List.map bLine bs')
    from hA45pos.symm]
  rw [hslice2, hprevfalse]
  rw [show (!false) = true from rfl, if_pos rfl]
  rw [show preLen (pre ++ G₁.bind gsecLines ++ hdrLine g.name :: List.map bLine b₁') = preLen ((pre ++ G₁.bind gsecLines ++ hdrLine g.name :: List.map bLine b₁') ++ [[]]) - 1 by
    rw [preLen_append (pre ++ G₁.bind gsecLines ++ hdrLine g.name :: List.map bLine b₁') [[]], preLen_singleton]
    omega]
  rw [show preLen (pre ++ G₁.bind gsecLines ++ hdrLine g.name :: (List.map bLine b₁' ++ [[]])) + (renderLink lk).length + 1
    = preLen ((pre ++ G₁.bind gsecLines ++ hdrLine g.name :: List.map bLine b₁') ++ [[], renderLink lk]) by
      rw [preLen_append (pre ++ G₁.bind gsecLines ++ hdrLine g.name :: List.map bLine b₁') [[], renderLink lk], preLen_cons, preLen_singleton]
      omega]
  rw [hdecblank]
  rw [remove_splice_blank (by simp) (by simp)]
  rw [hfin]

end Notes

namespace Notes

theorem extract_gLines_keep {pre trail : List Str} {G₁ G₂ : List GSec} {g : GSec}
    {b₂ : List (Option MLink)} {lk : MLink} {dfn : Str}
    (hwf : gWfb pre (G₁ ++ g :: G₂) trail = true)
    (hbody : g.body = none :: some lk :: b₂)
    (hpne : pre ++ G₁.bind gsecLines ≠ [])
    (hlk : lk.date = dfn) (hdfn : dfn.length = 8)
    (hG₁ : ∀ g' ∈ G₁, ∀ lk', some lk' ∈ g'.body → lk'.date ≠ dfn) :
    extract_note_link_from_readme (joinNl (gLines pre (G₁ ++ g :: G₂) trail)) dfn
      = (removeEmptyMonthSection
          (joinNl (gLines pre (G₁ ++ (⟨g.name, none :: b₂⟩ : GSec) :: G₂) trail))
          (monthMatches (joinNl (gLines pre (G₁ ++ (⟨g.name, none :: b₂⟩ : GSec) :: G₂) trail))), true) := by
  obtain ⟨hsafe, hsecs⟩ := gWfb_parts hwf
  have hgwf := hsecs g (by simp)
  have hlkwf : linkWfb lk = true :=
    (gsecWfb_parts hgwf).2.2 lk (by rw [hbody]; simp)
  have hbody' : g.body = [none] ++ some lk :: b₂ := by
    rw [hbody]
    rfl
  have hdec2 : gLines pre (G₁ ++ g :: G₂) trail
      = (pre ++ G₁.bind gsecLines ++ hdrLine g.name :: [[]]) ++ renderLink lk :: (List.map bLine b₂ ++ (G₂.bind gsecLines ++ [strOf "<br/>"] ++ trail)) := by
    unfold gLines
    rw [bind_append_eq, bind_cons_eq]
    rw [show gsecLines g = hdrLine g.name :: g.body.map bLine from rfl]
    rw [hbody]
    simp [bLine]
  have hdec3 : gLines pre (G₁ ++ g :: G₂) trail
      = (pre ++ G₁.bind gsecLines ++ [hdrLine g.name]) ++ ([] : Str) :: renderLink lk :: (List.map bLine b₂ ++ (G₂.bind gsecLines ++ [strOf "<br/>"] ++ trail)) := by
    rw [hdec2]
    simp
  have hbfr' : ∀ o ∈ ([none] : List (Option MLink)), ∀ lk', o = some lk' → lk'.date ≠ dfn := by
    intro o ho lk' hol
    rw [List.mem_singleton.mp ho] at hol
    cases hol
  have hfirst := links_before_ne hwf hbody' hG₁ hbfr'
  rw [show List.map bLine ([none] : List (Option MLink)) = [[]] from rfl] at hfirst
  have hsearch : linkSearch (joinNl (gLines pre (G₁ ++ g :: G₂) trail)) dfn
      = some (preLen (pre ++ G₁.bind gsecLines ++ hdrLine g.name :: [[]]), preLen (pre ++ G₁.bind gsecLines ++ hdrLine g.name :: [[]]) + (renderLink lk).length) :=
    linkSearch_gLines hwf hdfn hlkwf hdec2 hlk hfirst
  have h00 : List.length ([] : Str) = 0 := rfl
  have hA32 : preLen (pre ++ G₁.bind gsecLines ++ hdrLine g.name :: [[]]) = preLen (pre ++ G₁.bind gsecLines ++ [hdrLine g.name]) + 1 := by
    rw [preLen_append (pre ++ G₁.bind gsecLines) _,
      preLen_append (pre ++ G₁.bind gsecLines) _, preLen_cons, preLen_singleton,
      preLen_singleton]
    omega
  have hrfind1 : rfindCharBefore (joinNl (gLines pre (G₁ ++ g :: G₂) trail)) '\n' (preLen (pre ++ G₁.bind gsecLines ++ hdrLine g.name :: [[]]))
      = some (preLen (pre ++ G₁.bind gsecLines ++ [hdrLine g.name])) := by
    exact rfind_nl_at (nlFree_gLines hwf) hdec3 (by omega) (by omega)
  have hm_end : findCharFrom (joinNl (gLines pre (G₁ ++ g :: G₂) trail)) '\n' (preLen (pre ++ G₁.bind gsecLines ++ hdrLine g.name :: [[]]) + (renderLink lk).length)
      = some (preLen (pre ++ G₁.bind gsecLines ++ hdrLine g.name :: [[]]) + (renderLink lk).length) :=
    findChar_nl_at (nlFree_gLines hwf) hdec2 (by simp) (by omega) (by omega)
  have hpos3 : 0 < preLen (pre ++ G₁.bind gsecLines ++ [hdrLine g.name]) := by
    rw [preLen_append (pre ++ G₁.bind gsecLines) _, preLen_singleton]
    omega
  have hget : List.get? (joinNl (gLines pre (G₁ ++ g :: G₂) trail)) (preLen (pre ++ G₁.bind gsecLines ++ [hdrLine g.name])) = some '\n' := by
    rw [hdec3]
    exact joinNl_get?_nl (by simp)
  obtain ⟨A5, l5, hA45⟩ := (List.eq_nil_or_concat (pre ++ G₁.bind gsecLines)).resolve_left hpne
  rw [List.concat_eq_append] at hA45
  have hA45pos : preLen (pre ++ G₁.bind gsecLines) = preLen A5 + List.length l5 + 1 := by
    rw [hA45, preLen_append, preLen_singleton]
    omega
  have hA34 : preLen (pre ++ G₁.bind gsecLines ++ [hdrLine g.name]) = preLen (pre ++ G₁.bind gsecLines) + ((hdrLine g.name).length + 1) := by
    rw [preLen_append (pre ++ G₁.bind gsecLines) [hdrLine g.name], preLen_singleton]
  have hdec5 : gLines pre (G₁ ++ g :: G₂) trail
      = A5 ++ l5 :: hdrLine g.name :: (([] : Str) :: renderLink lk :: (List.map bLine b₂ ++ (G₂.bind gsecLines ++ [strOf "<br/>"] ++ trail))) := by
    rw [hdec3, show (pre ++ G₁.bind gsecLines ++ [hdrLine g.name]) = (pre ++ G₁.bind gsecLines) ++ [hdrLine g.name] by simp, hA45]
    simp
  have hrfind2 : rfindCharBefore (joinNl (gLines pre (G₁ ++ g :: G₂) trail)) '\n' (preLen (pre ++ G₁.bind gsecLines ++ [hdrLine g.name]) - 1)
      = some (preLen A5 + List.length l5) := by
    exact rfind_nl_at (nlFree_gLines hwf) hdec5 (by omega) (by omega)
  have hslice2 : pySlice (joinNl (gLines pre (G₁ ++ g :: G₂) trail)) (preLen (pre ++ G₁.bind gsecLines)) (preLen (pre ++ G₁.bind gsecLines ++ [hdrLine g.name]))
      = hdrLine g.name ++ ['\n'] := by
    rw [show gLines pre (G₁ ++ g :: G₂) trail
      = (pre ++ G₁.bind gsecLines) ++ [hdrLine g.name] ++ (([] : Str) :: renderLink lk :: (List.map bLine b₂ ++ (G₂.bind gsecLines ++ [strOf "<br/>"] ++ trail))) by
        rw [hdec3]]
    rw [show preLen (pre ++ G₁.bind gsecLines ++ [hdrLine g.name]) = preLen ((pre ++ G₁.bind gsecLines) ++ [hdrLine g.name]) by
      rw [show (pre ++ G₁.bind gsecLines) ++ [hdrLine g.name] = (pre ++ G₁.bind gsecLines ++ [hdrLine g.name]) by simp]]
    exact pySlice_join_mid_nl (by simp) (by simp)
  have hprevtrue : pyStartsWith (pyStrip (hdrLine g.name ++ ['\n'])) (strOf "##") = true := by
    rw [pyStrip_ws_right (by intro c hc; rw [List.mem_singleton.mp hc]; decide)]
    rw [pyStrip_hdrLine (gsecWfb_parts hgwf).1 (gsecWfb_parts hgwf).2.1]
    exact startsWith_hash2_hdr g.name
  have hdecsp : gLines pre (G₁ ++ g :: G₂) trail
      = (pre ++ G₁.bind gsecLines ++ hdrLine g.name :: [[]]) ++ [renderLink lk] ++ (List.map bLine b₂ ++ (G₂.bind gsecLines ++ [strOf "<br/>"] ++ trail)) := by
    rw [hdec2]
    simp
  have hfin : (pre ++ G₁.bind gsecLines ++ hdrLine g.name :: [[]]) ++ (List.map bLine b₂ ++ (G₂.bind gsecLines ++ [strOf "<br/>"] ++ trail)) = gLines pre (G₁ ++ (⟨g.name, none :: b₂⟩ : GSec) :: G₂) trail := by
    unfold gLines
    rw [bind_append_eq, bind_cons_eq]
    rw [show gsecLines (⟨g.name, none :: b₂⟩ : GSec)
      = hdrLine g.name :: (none :: b₂).map bLine from rfl]
    simp [bLine]
  unfold extract_note_link_from_readme
  simp only [hsearch]
  simp only [hrfind1]
  simp only [Nat.add_sub_cancel]
  simp only [hm_end]
  have hcond : (decide (preLen (pre ++ G₁.bind gsecLines ++ [hdrLine g.name]) > 0)
      && (List.get? (joinNl (gLines pre (G₁ ++ g :: G₂) trail)) (preLen (pre ++ G₁.bind gsecLines ++ [hdrLine g.name])) == some '\n')) = true := by
    rw [Bool.and_eq_true]
    constructor
    · exact decide_eq_true hpos3
    · rw [hget]
      rfl
  rw [if_pos hcond]
  simp only [hrfind2]
  rw [show preLen A5 + List.length l5 + 1 = preLen (pre ++ G₁.bind gsecLines) from hA45pos.symm]
  rw [hslice2, hprevtrue]
  rw [show (!true) = false from rfl, if_neg (by simp)]
  rw [show preLen (pre ++ G₁.bind gsecLines ++ [hdrLine g.name]) + 1 = preLen (pre ++ G₁.bind gsecLines ++ hdrLine g.name :: [[]]) by omega]
  rw [show preLen (pre ++ G₁.bind gsecLines ++ hdrLine g.name :: [[]]) + (renderLink lk).length + 1
    = preLen ((pre ++ G₁.bind gsecLines ++ hdrLine g.name :: [[]]) ++ [renderLink lk]) by
      rw [preLen_append (pre ++ G₁.bind gsecLines ++ hdrLine g.name :: [[]]) [renderLink lk], preLen_singleton]
      omega]
  rw [hdecsp]
  rw [splice_drop_take (by simp)]
  rw [hfin]

end Notes

namespace Notes

theorem toG_body_ne (sec : MSec) : (toG sec).body ≠ [] := by
  simp [toG]

theorem toG_bodyHasLink {sec : MSec} (h : sec.links ≠ []) :
    bodyHasLink (toG sec).body = true := by
  cases hl : sec.links with
  | nil => exact absurd hl h
  | cons l ls =>
    unfold bodyHasLink toG
    rw [hl]
    simp

theorem toG_body_some {sec : MSec} {lk' : MLink} (h : some lk' ∈ (toG sec).body) :
    lk' ∈ sec.links := by
  unfold toG at h
  rw [List.mem_cons] at h
  rcases h with h | h
  · cases h
  · rw [List.mem_bind] at h
    obtain ⟨l, hl, hmem⟩ := h
    rcases List.mem_cons.mp hmem with h2 | h2
    · injection h2 with h3
      rw [← h3] at hl
      exact hl
    · rw [List.mem_singleton] at h2
      cases h2

theorem mem_docDates {d : YDoc} {sec : MSec} {lk' : MLink}
    (hsec : sec ∈ d.secs) (hlk : lk' ∈ sec.links) : lk'.date ∈ docDates d := by
  unfold docDates
  rw [List.mem_bind]
  exact ⟨sec, hsec, List.mem_map.mpr ⟨lk', hlk, rfl⟩⟩

theorem splitFirstEmpty_eq_none_of : ∀ {gs : List GSec},
    (∀ g ∈ gs, bodyHasLink g.body = true) → splitFirstEmpty gs = none := by
  intro gs
  induction gs with
  | nil => intro _; rfl
  | cons g rest ih =>
    intro h
    rw [splitFirstEmpty_cons, h g (List.mem_cons_self _ _), if_pos rfl]
    rw [ih (fun g' hg' => h g' (List.mem_cons_of_mem _ hg'))]
    rfl

theorem splitFirstEmpty_append_empty : ∀ {gs : List GSec} {e : GSec},
    (∀ g ∈ gs, bodyHasLink g.body = true) → bodyHasLink e.body = false →
    splitFirstEmpty (gs ++ [e]) = some (gs, e, []) := by
  intro gs
  induction gs with
  | nil =>
    intro e _ he
    rw [List.nil_append, splitFirstEmpty_cons, he]
    simp
  | cons g rest ih =>
    intro e h he
    rw [List.cons_append, splitFirstEmpty_cons, h g (List.mem_cons_self _ _), if_pos rfl]
    rw [ih (fun g' hg' => h g' (List.mem_cons_of_mem _ hg')) he]
    rfl

theorem gWfb_replace {pre trail : List Str} {G₁ G₂ : List GSec} {gold gnew : GSec}
    (hwf : gWfb pre (G₁ ++ gold :: G₂) trail = true) (hn : gsecWfb gnew = true) :
    gWfb pre (G₁ ++ gnew :: G₂) trail = true := by
  obtain ⟨hsafe, hsecs⟩ := gWfb_parts hwf
  unfold gWfb
  rw [Bool.and_eq_true]
  refine ⟨List.all_eq_true.mpr hsafe, List.all_eq_true.mpr ?_⟩
  intro g hg
  rcases List.mem_append.mp hg with h | h
  · exact hsecs g (List.mem_append_left _ h)
  · rcases List.mem_cons.mp h with rfl | h
    · exact hn
    · exact hsecs g (List.mem_append_right _ (List.mem_cons_of_mem _ h))

theorem gWfb_append_one {pre trail : List Str} {gs : List GSec} {gnew : GSec}
    (hwf : gWfb pre gs trail = true) (hn : gsecWfb gnew = true) :
    gWfb pre (gs ++ [gnew]) trail = true := by
  obtain ⟨hsafe, hsecs⟩ := gWfb_parts hwf
  unfold gWfb
  rw [Bool.and_eq_true]
  refine ⟨List.all_eq_true.mpr hsafe, List.all_eq_true.mpr ?_⟩
  intro g hg
  rcases List.mem_append.mp hg with h | h
  · exact hsecs g h
  · rw [List.mem_singleton.mp h]
    exact hn

theorem gsecWfb_of_parts {name : Str} {body : List (Option MLink)}
    (h1 : name ≠ []) (h2 : name.all isWordChar = true)
    (h3 : ∀ lk, some lk ∈ body → linkWfb lk = true) :
    gsecWfb ⟨name, body⟩ = true := by
  unfold gsecWfb
  simp only [Bool.and_eq_true]
  refine ⟨⟨?_, h2⟩, ?_⟩
  · rw [Bool.not_eq_true']
    cases hn : name.isEmpty
    · rfl
    · exact absurd (List.isEmpty_iff.mp hn) h1
  · rw [List.all_eq_true]
    intro o ho
    cases o with
    | none => rfl
    | some lk => exact h3 lk ho

theorem sec_dates_nodup {d : YDoc} {sec : MSec}
    (hwf : docWfb d = true) (hsec : sec ∈ d.secs) :
    (sec.links.map fun l => l.date).Nodup := by
  have hnd : (docDates d).Nodup := pairwiseNeStr_iff_nodup.mp (docWfb_dates hwf)
  obtain ⟨S₁, S₂, hsp⟩ := List.append_of_mem hsec
  apply hnd.sublist
  unfold docDates
  rw [hsp, bind_append_eq, bind_cons_eq]
  exact ((List.sublist_append_left _ _).trans (List.sublist_append_right _ _))

theorem not_nl_of_wordchars {s : Str} (h : s.all isWordChar = true) : '\n' ∉ s := by
  intro hc
  have := List.all_eq_true.mp h _ hc
  cases this

end Notes

namespace Notes

/-- C1 (amended): on a well-formed year document whose month sections all hold
at least one link, with a nonempty preamble and a fresh date key, IndexEditor
Insert of the finish-time link followed by Remove with that date folder name
reports success and restores both the month-header lines and the note link
lines of the original document (byte-exact when the month section already
exists; with the insertion month absent, a leftover blank line only).  The
original claim fails on documents holding an empty month section, which the
Remove-side scan deletes. -/
theorem c1_insert_remove_amended {d : YDoc} {now : Now} {temp weather : Str}
    (hwf : docWfb d = true)
    (hlinks : ∀ sec ∈ d.secs, sec.links ≠ [])
    (hpre : d.pre ≠ [])
    (hfresh : dateStrOf now ∉ docDates d)
    (hm1 : 1 ≤ now.month) (hm2 : now.month ≤ 12)
    (hy : now.year < 10000) (hday : now.day < 100)
    (htw : temp.all okDispChar = true) (hww : weather.all okDispChar = true)
    (hcase : (∃ sec ∈ d.secs, sec.name = get_french_month now.month)
      ∨ ∀ sec ∈ d.secs, ¬ (get_french_month now.month <+: sec.name)) :
    (extract_note_link_from_readme
        (update_year_readme (renderDoc d) (linkArgOf now) now temp weather)
        (dateStrOf now)).2 = true
    ∧ sectionHeaderLines (extract_note_link_from_readme
        (update_year_readme (renderDoc d) (linkArgOf now) now temp weather)
        (dateStrOf now)).1 = sectionHeaderLines (renderDoc d)
    ∧ noteLines (extract_note_link_from_readme
        (update_year_readme (renderDoc d) (linkArgOf now) now temp weather)
        (dateStrOf now)).1 = noteLines (renderDoc d) := by
  have hgwfb : gWfb d.pre (d.secs.map toG) d.trail = true := gWfb_of_docWfb hwf
  have hrd : renderDoc d = joinNl (gLines d.pre (d.secs.map toG) d.trail) := by
    unfold renderDoc
    rw [docLines_eq_gLines]
  have hm100 : now.month < 100 := by omega
  have hnewwf : linkWfb (newLinkOf now temp weather) = true :=
    newLink_wfb hy hm100 hday htw hww
  have hdfn8 : (dateStrOf now).length = 8 := (dateStrOf_wf hy hm100 hday).1
  have hnewdate : (newLinkOf now temp weather).date = dateStrOf now := rfl
  obtain ⟨hMne, hMw⟩ := get_french_month_wf hm1 hm2
  have hMnl : '\n' ∉ get_french_month now.month := not_nl_of_wordchars hMw
  have holdlk : ∀ s' ∈ d.secs, ∀ lk', lk' ∈ s'.links → lk'.date ≠ dateStrOf now := by
    intro s' hs' lk' hlk' hcon
    apply hfresh
    rw [← hcon]
    exact mem_docDates hs' hlk'
  have hall : ∀ g ∈ d.secs.map toG, bodyHasLink g.body = true := by
    intro g hg
    rw [List.mem_map] at hg
    obtain ⟨s', hs', rfl⟩ := hg
    exact toG_bodyHasLink (hlinks s' hs')
  have hG₁any : ∀ g' ∈ d.secs.map toG, ∀ lk', some lk' ∈ g'.body
      → lk'.date ≠ dateStrOf now := by
    intro g' hg' lk' hlk'
    rw [List.mem_map] at hg'
    obtain ⟨s', hs', rfl⟩ := hg'
    exact holdlk s' hs' lk' (toG_body_some hlk')
  have hshape0 : gLines d.pre (d.secs.map toG) d.trail
      = d.pre ++ (d.secs.map toG).bind gsecLines ++ ([] : List Str)
        ++ [strOf "<br/>"] ++ d.trail := by
    unfold gLines
    simp
  have hhdr0 : sectionHeaderLines (renderDoc d)
      = (d.secs.map toG).map (fun g => hdrLine g.name) := by
    rw [hrd, hshape0]
    exact sectionHeaderLines_shape hgwfb (by simp)
  have hnote0 : noteLines (renderDoc d) = gNotes (d.secs.map toG) := by
    rw [hrd, hshape0]
    exact noteLines_shape hgwfb (by simp)
  rcases hcase with ⟨sec, hsec, hsname⟩ | habs
  · obtain ⟨S₁, S₂, hsp⟩ := List.append_of_mem hsec
    obtain ⟨hsn0, hsnw, hslkwf⟩ := secWfb_facts (docWfb_secs hwf sec hsec)
    obtain ⟨ls', llast, hls⟩ :=
      (List.eq_nil_or_concat sec.links).resolve_left (hlinks sec hsec)
    rw [List.concat_eq_append] at hls
    have hgssplit : d.secs.map toG = S₁.map toG ++ toG sec :: S₂.map toG := by
      rw [hsp]
      simp
    have hbodysplit : (toG sec).body
        = (none :: ls'.bind fun l => [some l, none]) ++ some llast :: [none] := by
      unfold toG
      rw [hls, bind_append_eq]
      rw [show ([llast].bind fun l => [some l, none]) = [some llast, none] from rfl]
      simp
    have hwfg' : gWfb d.pre (S₁.map toG ++ toG sec :: S₂.map toG) d.trail = true := by
      rw [← hgssplit]
      exact hgwfb
    have hnod := sec_dates_nodup hwf hsec
    have hnotin : llast.date ∉ (ls'.map fun l => l.date) := by
      rw [hls, List.map_append] at hnod
      intro hin
      exact (List.nodup_append.mp hnod).2.2 hin (by simp)
    have hlastwf : linkWfb llast = true := hslkwf llast (by rw [hls]; simp)
    have hb₁some : ∀ lk', some lk' ∈ (none :: ls'.bind fun l => [some l, none])
        → lk' ∈ ls' := by
      intro lk' h
      exact @toG_body_some ⟨sec.name, ls'⟩ lk' h
    have huniq : ∀ o ∈ (none :: ls'.bind fun l => [some l, none]), ∀ lk',
        o = some lk' → renderLink lk' ≠ renderLink llast := by
      intro o ho lk' hol hre
      subst hol
      have hlk'mem := hb₁some lk' ho
      have hlk'wf : linkWfb lk' = true :=
        hslkwf lk' (by rw [hls]; exact List.mem_append_left _ hlk'mem)
      have hdeq := renderLink_inj_date hlk'wf hlastwf hre
      apply hnotin
      rw [← hdeq]
      exact List.mem_map.mpr ⟨lk', hlk'mem, rfl⟩
    have hname : get_french_month now.month <+: (toG sec).name := by
      rw [show (toG sec).name = sec.name from rfl, hsname]
    have hpairw := namesPrefixFree_pairwise (docWfb_names hwf)
    rw [hsp, List.map_append, List.map_cons] at hpairw
    have hG₁pre : ∀ g' ∈ S₁.map toG, ¬ (get_french_month now.month <+: g'.name) := by
      intro g' hg' hcon
      rw [List.mem_map] at hg'
      obtain ⟨s', hs', rfl⟩ := hg'
      rw [show (toG s').name = s'.name from rfl, ← hsname] at hcon
      exact ((List.pairwise_append.mp hpairw).2.2 s'.name
        (List.mem_map.mpr ⟨s', hs', rfl⟩) sec.name (List.mem_cons_self _ _)).2 hcon
    have hupd := @update_gLines_present d.pre d.trail (S₁.map toG) (S₂.map toG)
      (toG sec) now temp weather _ _ llast
      hwfg' hname hG₁pre hbodysplit
      (by intro o ho; exact List.mem_singleton.mp ho) huniq
    have hgInswf : gsecWfb (⟨(toG sec).name,
        (none :: ls'.bind fun l => [some l, none]) ++ some llast :: none
          :: some (newLinkOf now temp weather) :: [none]⟩ : GSec) = true := by
      apply gsecWfb_of_parts hsn0 hsnw
      intro lk hlkmem
      rcases List.mem_append.mp hlkmem with h | h
      · exact hslkwf lk (by rw [hls]; exact List.mem_append_left _ (hb₁some lk h))
      · rcases List.mem_cons.mp h with h2 | h2
        · injection h2 with h3
          rw [h3]
          exact hlastwf
        · rcases List.mem_cons.mp h2 with h3 | h3
          · cases h3
          · rcases List.mem_cons.mp h3 with h4 | h4
            · injection h4 with h5
              rw [h5]
              exact hnewwf
            · rw [List.mem_singleton] at h4
              cases h4
    have hwfgIns : gWfb d.pre (S₁.map toG ++ (⟨(toG sec).name,
        (none :: ls'.bind fun l => [some l, none]) ++ some llast :: none
          :: some (newLinkOf now temp weather) :: [none]⟩ : GSec)
        :: S₂.map toG) d.trail = true :=
      gWfb_replace hwfg' hgInswf
    have hbfreat : ∀ o ∈ (none :: ls'.bind fun l => [some l, none]) ++ [some llast],
        ∀ lk', o = some lk' → lk'.date ≠ dateStrOf now := by
      intro o ho lk' hol
      subst hol
      rcases List.mem_append.mp ho with h | h
      · exact holdlk sec hsec lk'
          (by rw [hls]; exact List.mem_append_left _ (hb₁some lk' h))
      · rw [List.mem_singleton] at h
        injection h with h2
        rw [h2]
        exact holdlk sec hsec llast (by rw [hls]; simp)
    have hG₁eat : ∀ g' ∈ S₁.map toG, ∀ lk', some lk' ∈ g'.body
        → lk'.date ≠ dateStrOf now := by
      intro g' hg' lk' hlk'
      apply hG₁any g' _ lk' hlk'
      rw [hgssplit]
      exact List.mem_append_left _ hg'
    have hbody_eat : (⟨(toG sec).name,
        (none :: ls'.bind fun l => [some l, none]) ++ some llast :: none
          :: some (newLinkOf now temp weather) :: [none]⟩ : GSec).body
        = ((none :: ls'.bind fun l => [some l, none]) ++ [some llast])
          ++ none :: some (newLinkOf now temp weather) :: [none] := by
      simp
    have hext := extract_gLines_eat hwfgIns hbody_eat (by simp) hnewdate hdfn8
      hG₁eat hbfreat
    have hgs''eq : (⟨(⟨(toG sec).name,
        (none :: ls'.bind fun l => [some l, none]) ++ some llast :: none
          :: some (newLinkOf now temp weather) :: [none]⟩ : GSec).name,
        ((none :: ls'.bind fun l => [some l, none]) ++ [some llast]) ++ [none]⟩ : GSec)
        = toG sec := by
      unfold toG
      rw [hls, bind_append_eq]
      rw [show ([llast].bind fun l => [some l, none]) = [some llast, none] from rfl]
      simp
    rw [hgs''eq] at hext
    have hbne : ∀ g ∈ d.secs.map toG, g.body ≠ [] := by
      intro g hg
      rw [List.mem_map] at hg
      obtain ⟨s', _, rfl⟩ := hg
      exact toG_body_ne s'
    have hscan := removeEmpty_gLines hgwfb hbne
    rw [splitFirstEmpty_eq_none_of hall] at hscan
    dsimp only at hscan
    rw [hgssplit] at hscan
    rw [hrd, hgssplit, hupd, hext]
    refine ⟨rfl, ?_, ?_⟩
    · exact congrArg sectionHeaderLines hscan
    · exact congrArg noteLines hscan
  · have habs' : ∀ g' ∈ d.secs.map toG, ¬ (get_french_month now.month <+: g'.name) := by
      intro g' hg' hcon
      rw [List.mem_map] at hg'
      obtain ⟨s', hs', rfl⟩ := hg'
      exact habs s' hs' hcon
    have hbne0 : d.pre ++ (d.secs.map toG).bind gsecLines ≠ [] := by
      intro hcon
      exact hpre (List.append_eq_nil.mp hcon).1
    have hupd := @update_gLines_absent d.pre d.trail (d.secs.map toG) now temp weather
      hgwfb hMnl habs'
      hbne0
    have hgNewwf : gsecWfb (⟨get_french_month now.month,
        [none, some (newLinkOf now temp weather), none]⟩ : GSec) = true := by
      apply gsecWfb_of_parts hMne hMw
      intro lk hlkmem
      rcases List.mem_cons.mp hlkmem with h | h
      · cases h
      · rcases List.mem_cons.mp h with h2 | h2
        · injection h2 with h3
          rw [h3]
          exact hnewwf
        · rw [List.mem_singleton] at h2
          cases h2
    have hwfgB : gWfb d.pre ((d.secs.map toG)
        ++ [⟨get_french_month now.month,
          [none, some (newLinkOf now temp weather), none]⟩]) d.trail = true :=
      gWfb_append_one hgwfb hgNewwf
    have hext := extract_gLines_keep hwfgB rfl hbne0 hnewdate hdfn8 hG₁any
    have hgBemptywf : gsecWfb (⟨get_french_month now.month,
        ([none, none] : List (Option MLink))⟩ : GSec) = true := by
      apply gsecWfb_of_parts hMne hMw
      intro lk hlkmem
      rcases List.mem_cons.mp hlkmem with h | h
      · cases h
      · rw [List.mem_singleton] at h
        cases h
    have hwfgB2 : gWfb d.pre ((d.secs.map toG)
        ++ [⟨get_french_month now.month, ([none, none] : List (Option MLink))⟩])
        d.trail = true :=
      gWfb_append_one hgwfb hgBemptywf
    have hbneB : ∀ g ∈ (d.secs.map toG)
        ++ [⟨get_french_month now.month, ([none, none] : List (Option MLink))⟩],
        g.body ≠ [] := by
      intro g hg
      rcases List.mem_append.mp hg with h | h
      · rw [List.mem_map] at h
        obtain ⟨s', _, rfl⟩ := h
        exact toG_body_ne s'
      · rw [List.mem_singleton.mp h]
        simp
    have hscan := removeEmpty_gLines hwfgB2 hbneB
    rw [splitFirstEmpty_append_empty hall (by rfl)] at hscan
    dsimp only at hscan
    simp only [List.isEmpty_nil, eq_self_iff_true, if_true] at hscan
    have hhdr1 : sectionHeaderLines (joinNl (gLines d.pre (d.secs.map toG) d.trail))
        = (d.secs.map toG).map (fun g => hdrLine g.name) := by
      rw [← hrd]
      exact hhdr0
    have hnote1 : noteLines (joinNl (gLines d.pre (d.secs.map toG) d.trail))
        = gNotes (d.secs.map toG) := by
      rw [← hrd]
      exact hnote0
    have hmid1 : ∀ l ∈ ([[]] : List Str), l = [] := by
      intro l hl
      exact List.mem_singleton.mp hl
    dsimp only at hext
    rw [hrd, hupd, hext, hscan]
    refine ⟨rfl, ?_, ?_⟩
    · exact (sectionHeaderLines_shape hgwfb hmid1).trans hhdr1.symm
    · exact (noteLines_shape hgwfb hmid1).trans hnote1.symm

end Notes

namespace Notes

/-- A year README with a January section holding one link and an empty March
section, as rendered. -/
def c1doc : Str := strOf "# 2024\n\n## Janvier\n\n[_1, Lundi, 5C, Soleil_](./01/20240101/)\n\n## Mars\n\n<br/>\n"

set_option maxRecDepth 100000 in
/-- C1 counterexample: on a document with an empty March section, inserting the
2024-01-15 link and then removing it by date reports success, yet the March
header, present before the round trip, is gone from the result. -/
theorem c1_counterexample :
    (extract_note_link_from_readme
        (update_year_readme c1doc (strOf "./01/20240115/") ⟨2024, 1, 15, 0⟩
          (strOf "3C") (strOf "Pluie"))
        (strOf "20240115")).2 = true
    ∧ strOf "## Mars" ∈ sectionHeaderLines c1doc
    ∧ strOf "## Mars" ∉ sectionHeaderLines (extract_note_link_from_readme
        (update_year_readme c1doc (strOf "./01/20240115/") ⟨2024, 1, 15, 0⟩
          (strOf "3C") (strOf "Pluie"))
        (strOf "20240115")).1 := by
  decide

/-- One January link of the witness document. -/
def c1lk : MLink := ⟨strOf "1, Lundi, 5C, Soleil", strOf "01", strOf "20240101"⟩

/-- Witness document: heading line, one nonempty January section, no trail. -/
def c1d : YDoc := ⟨[strOf "# 2024"], [⟨strOf "Janvier", [c1lk]⟩], []⟩

/-- 2024-01-15 00:00:00. -/
def c1now : Now := ⟨2024, 1, 15, 0⟩

set_option maxRecDepth 100000 in
theorem c1_insert_remove_amended_witness :
    (extract_note_link_from_readme
        (update_year_readme (renderDoc c1d) (linkArgOf c1now) c1now
          (strOf "3C") (strOf "Pluie"))
        (dateStrOf c1now)).2 = true
    ∧ sectionHeaderLines (extract_note_link_from_readme
        (update_year_readme (renderDoc c1d) (linkArgOf c1now) c1now
          (strOf "3C") (strOf "Pluie"))
        (dateStrOf c1now)).1 = sectionHeaderLines (renderDoc c1d)
    ∧ noteLines (extract_note_link_from_readme
        (update_year_readme (renderDoc c1d) (linkArgOf c1now) c1now
          (strOf "3C") (strOf "Pluie"))
        (dateStrOf c1now)).1 = noteLines (renderDoc c1d) :=
  c1_insert_remove_amended (by decide) (by decide) (by decide) (by decide)
    (by decide) (by decide) (by decide) (by decide) (by decide) (by decide)
    (by decide)

end Notes
